import Mathlib

/-!
# Cache simulator (`csim.c`): shallow embedding and verified properties

The C program keeps its whole state in globals: the geometry `s`, `b`, `E`, the derived
sizes `S`, `B`, the three statistics counters and the heap array `cache`.  The embedding
threads that state explicitly through a record `Globals`.

Conventions of the embedding

* `mem_addr_t` is `unsigned long long`: addresses are natural numbers below `2^64`, and the
  two operations that can wrap (`<<` and `-`) are reduced modulo `2^64` explicitly.  A shift
  count is taken modulo 64, as the x86-64 instruction does; C defines the shift only for a
  count below 64, where the two agree.
* `S` and `B` are C `int`s computed by a shift in `init_cache`: the result is wrapped to 32 bits
  and the count taken modulo 32, as the x86-64 instruction does; C defines the shift only when
  the count is in `0..31` and the result fits, where the two agree.
* The counters `hit_cnt`, `miss_cnt`, `evict_cnt` (`int`) and the LRU `counter` (`long`) are kept
  as the exact numbers counted; the C variable holds that number wrapped to its width
  (`int_wrap` for an `int`), which is the number itself as long as it is representable.  The
  theorems about totals over a whole run bound the number of calls by `2^31`.
* `s`, `b`, `E` are the non-negative values of the C globals.
* A set `cache[set]` is the list of its lines; pointers into a set (`mostrecent_line`,
  `leastrecent_line`, `empty_line`, `hit_line`) are slot indices, `NULL` is `none`.
* A read or write outside an allocated array is undefined in C; `access_data` returns `none`
  there, and `some` of the new globals otherwise.
-/

namespace CSim

/-! ## Data model -/

/-- Type `cache_line_t`: `char valid; mem_addr_t tag; long counter;`. -/
structure cache_line_t where
  valid : Char
  tag : Nat
  counter : Int
deriving DecidableEq

/-- The globals of `csim.c`, in declaration order, followed by the heap array `cache`. -/
structure Globals where
  b : Nat
  s : Nat
  E : Nat
  B : Int
  S : Int
  hit_cnt : Int
  miss_cnt : Int
  evict_cnt : Int
  cache : List (List cache_line_t)
deriving DecidableEq

/-- The globals at program start once `main` has stored the command line values:
`B`, `S` are zero-initialised statics, the counters are `0`, nothing is allocated. -/
def startup (s E b : Nat) : Globals :=
  { b := b, s := s, E := E, B := 0, S := 0, hit_cnt := 0, miss_cnt := 0, evict_cnt := 0,
    cache := [] }

/-! ## 64-bit unsigned arithmetic -/

/-- Right shift `x >> n` on `mem_addr_t`; the count is taken modulo 64. -/
def shr64 (x n : Nat) : Nat := x >>> (n % 64)

/-- Left shift `x << n` on `mem_addr_t`, reduced modulo `2^64`; the count is taken modulo 64. -/
def shl64 (x n : Nat) : Nat := (x <<< (n % 64)) % 2 ^ 64

/-- Subtraction `x - y` on `mem_addr_t`, reduced modulo `2^64`. -/
def sub64 (x y : Nat) : Nat := (x + (2 ^ 64 - y % 2 ^ 64)) % 2 ^ 64

/-! ## `init_cache` -/

/-- The line written by the inner loop of `init_cache`: `counter = 0; valid = '0'; tag = 0`. -/
def fresh_line : cache_line_t := { valid := '0', tag := 0, counter := 0 }

/-- Value of a C `int` holding the mathematical result `v`: `v` reduced modulo `2^32` into the
range `-2^31 .. 2^31 - 1`. -/
def int_wrap (v : Int) : Int := (v + 2147483648) % 4294967296 - 2147483648

/-- Left shift `x << n` on `int`: the count is taken modulo 32 and the result wrapped to 32
bits. -/
def shl_int (x n : Int) : Int := int_wrap (x * ((2 ^ (n % 32).toNat : Nat) : Int))

/-- Function `init_cache`: `S = 2 << (s-1)`, `B = 2 << (b-1)` in `int` arithmetic, then
`malloc(S * sizeof(cache_set_t))` and `S` sets of `E` lines, each initialised to `fresh_line`.
`Except.error 1` is the `exit(1)` taken when `malloc` returns `NULL`: a negative `S` is converted
to a size above `2^63` bytes, which no allocation satisfies (this is what happens for `s = 31`,
where `S` wraps to `-2^31`).  For `S >= 0` the allocations are assumed to succeed. -/
def init_cache (g : Globals) : Except Int Globals :=
  let S := shl_int 2 ((g.s : Int) - 1)
  let B := shl_int 2 ((g.b : Int) - 1)
  if S < 0 then Except.error 1
  else
    Except.ok { g with
      S := S
      B := B
      cache := List.replicate S.toNat (List.replicate g.E fresh_line) }

/-- The globals that `init_cache` leaves when `S = 2^s` (it does for `1 <= s <= 30`, lemma
`init_cache_ok`): `2^s` sets of `E` fresh lines and zeroed counters. -/
def fresh_cache (s E b : Nat) : Globals :=
  { b := b, s := s, E := E, B := shl_int 2 ((b : Int) - 1), S := ((2 ^ s : Nat) : Int),
    hit_cnt := 0, miss_cnt := 0, evict_cnt := 0,
    cache := List.replicate (2 ^ s) (List.replicate E fresh_line) }

/-! ## `access_data` -/

/-- First line of `access_data`: `tag = addr >> (s+b)`. -/
def tag_of (s b : Nat) (addr : Nat) : Nat := shr64 addr (s + b)

/-- Second line of `access_data`: `set = (addr - (tag << (s+b))) >> b`. -/
def set_of (s b : Nat) (addr : Nat) : Nat :=
  shr64 (sub64 addr (shl64 (tag_of s b addr) (s + b))) b

/-- Read of `cache[set][i]` inside an allocated set. -/
def line_at (lines : List cache_line_t) (i : Nat) : cache_line_t := lines.getD i fresh_line

/-- The four pointers of `access_data`, as slot indices into `cache[set]`. -/
structure scan_t where
  mostrecent_line : Nat
  leastrecent_line : Nat
  empty_line : Option Nat
  hit_line : Option Nat
deriving DecidableEq

/-- Values of the four pointers before the loop: both recency pointers at `&cache[set][0]`,
`empty_line` and `hit_line` at `NULL`. -/
def scan_init : scan_t :=
  { mostrecent_line := 0, leastrecent_line := 0, empty_line := none, hit_line := none }

/-- One iteration of the scan loop of `access_data`, for slot `i`. -/
def scan_step (lines : List cache_line_t) (tag : Nat) (p : scan_t) (i : Nat) : scan_t :=
  if (line_at lines i).valid = '0' then
    { p with empty_line := some i }
  else
    let p1 := if (line_at lines i).tag = tag then { p with hit_line := some i } else p
    let p2 :=
      if (line_at lines i).counter > (line_at lines p1.mostrecent_line).counter then
        { p1 with mostrecent_line := i }
      else p1
    if (line_at lines i).counter < (line_at lines p2.leastrecent_line).counter then
      { p2 with leastrecent_line := i }
    else p2

/-- The loop `for (int i = 0; i < E; i++)` of `access_data`. -/
def scan (lines : List cache_line_t) (tag : Nat) (E : Nat) : scan_t :=
  (List.range E).foldl (scan_step lines tag) scan_init

/-- The three branches after the scan, on the lines of the decoded set.  The result is the
new contents of the set and the increments of `hit_cnt`, `miss_cnt`, `evict_cnt`. -/
def resolve (lines : List cache_line_t) (tag : Nat) (E : Nat) :
    List cache_line_t × Int × Int × Int :=
  let p := scan lines tag E
  let c := (line_at lines p.mostrecent_line).counter + 1
  match p.hit_line with
  | some h => (lines.set h { line_at lines h with counter := c }, 1, 0, 0)
  | none =>
    match p.empty_line with
    | some e => (lines.set e { valid := '1', tag := tag, counter := c }, 0, 1, 0)
    | none =>
      (lines.set p.leastrecent_line { valid := '1', tag := tag, counter := c }, 0, 1, 1)

/-- Function `access_data`.  `none` when `cache[set]` is not an allocated set of at least
`E >= 1` lines (the C code would read or write outside the allocation). -/
def access_data (g : Globals) (addr : Nat) : Option Globals :=
  let tag := tag_of g.s g.b addr
  let set := set_of g.s g.b addr
  match g.cache[set]? with
  | none => none
  | some lines =>
    if g.E = 0 ∨ lines.length < g.E then none
    else
      let r := resolve lines tag g.E
      some { g with
        hit_cnt := g.hit_cnt + r.2.1
        miss_cnt := g.miss_cnt + r.2.2.1
        evict_cnt := g.evict_cnt + r.2.2.2
        cache := g.cache.set set r.1 }

/-- A finite sequence of `access_data` calls, in order. -/
def access_all (g : Globals) : List Nat → Option Globals
  | [] => some g
  | a :: rest => (access_data g a).bind (fun g1 => access_all g1 rest)

/-! ## Predicates used in the statements -/

/-- The tag is resident: some valid slot below `E` holds it. -/
def resident (lines : List cache_line_t) (tag E : Nat) : Prop :=
  ∃ i, i < E ∧ (line_at lines i).valid ≠ '0' ∧ (line_at lines i).tag = tag

/-- Every slot below `E` is valid. -/
def all_valid (lines : List cache_line_t) (E : Nat) : Prop :=
  ∀ i, i < E → (line_at lines i).valid ≠ '0'

/-- The counter value written by every branch: `mostrecent_line->counter + 1`. -/
def new_counter (lines : List cache_line_t) (tag E : Nat) : Int :=
  (line_at lines (scan lines tag E).mostrecent_line).counter + 1

/-- Shape of an allocated cache: `E >= 1`, every decoded set index is allocated, every set has
exactly `E` lines. -/
def WF (g : Globals) : Prop :=
  0 < g.E ∧ 2 ^ g.s ≤ g.cache.length ∧ ∀ lines, lines ∈ g.cache → lines.length = g.E

/-! ## `replay_trace` -/

/-- Value of a hexadecimal digit, `none` for any other character. -/
def hex_digit (c : Char) : Option Nat :=
  if '0' ≤ c ∧ c ≤ '9' then some (c.toNat - '0'.toNat)
  else if 'a' ≤ c ∧ c ≤ 'f' then some (c.toNat - 'a'.toNat + 10)
  else if 'A' ≤ c ∧ c ≤ 'F' then some (c.toNat - 'A'.toNat + 10)
  else none

/-- White space as skipped by a `scanf` conversion. -/
def is_space (c : Char) : Bool :=
  c = ' ' ∨ c = '\t' ∨ c = '\n' ∨ c = '\r' ∨ c.toNat = 11 ∨ c.toNat = 12

/-- Value of the longest prefix of hexadecimal digits, most significant digit first. -/
def hex_value (cs : List Char) : Nat :=
  (cs.takeWhile (fun c => (hex_digit c).isSome)).foldl
    (fun acc c => 16 * acc + (hex_digit c).getD 0) 0

/-- The conversion `%llx` of the call `sscanf(buf+3, "%llx,%u", &addr, &len)`, a libc routine:
leading white space is skipped, an optional sign and an optional `0x` prefix are accepted, then
the longest run of hexadecimal digits is read.  `none` when there is no digit: no conversion is
made and `addr` is left untouched.  A value of `2^64` or more is stored as `2^64 - 1`, with or
without a sign; a smaller value with a minus sign is negated modulo `2^64`.  The second
conversion only sets `len`, which the simulation never reads. -/
def sscanf_llx (input : List Char) : Option Nat :=
  let r0 := input.dropWhile is_space
  let neg := r0.head? = some '-'
  let r1 := if r0.head? = some '-' ∨ r0.head? = some '+' then r0.tail else r0
  let r2 :=
    match r1 with
    | '0' :: x :: d :: rest =>
      if (x = 'x' ∨ x = 'X') ∧ (hex_digit d).isSome then d :: rest else r1
    | _ => r1
  if (r2.head?.bind hex_digit).isSome then
    let v := hex_value r2
    some (if 2 ^ 64 ≤ v then 2 ^ 64 - 1 else if neg then (2 ^ 64 - v) % 2 ^ 64 else v)
  else none

/-- The character `buf[1]` of the line just read by `fgets`; the string terminator when the
line has a single character. -/
def kind_of (buf : List Char) : Char := buf.getD 1 (Char.ofNat 0)

/-- Body of the `while (fgets(...))` loop of `replay_trace` for one string `buf` returned by
`fgets`.  The loop state is the globals together with the local `addr`, which keeps its previous
value when the conversion fails.  Verbose printing does not touch the state.  `buf+3` is the
text after the third character; for a string of fewer than three characters the C code reads
what an earlier line left in the buffer, which is taken as empty here (only the address of the
call can differ, not the number of calls). -/
def replay_line (p : Globals × Nat) (buf : List Char) : Option (Globals × Nat) :=
  if kind_of buf = 'S' ∨ kind_of buf = 'L' ∨ kind_of buf = 'M' then
    let addr := (sscanf_llx (buf.drop 3)).getD p.2
    let r := if kind_of buf = 'M' then access_data p.1 addr else some p.1
    (r.bind (fun g1 => access_data g1 addr)).map (fun g2 => (g2, addr))
  else some p

/-- The `while` loop of `replay_trace` over the lines of the trace file. -/
def replay_lines (p : Globals × Nat) : List (List Char) → Option (Globals × Nat)
  | [] => some p
  | buf :: rest => (replay_line p buf).bind (fun p1 => replay_lines p1 rest)

/-- Function `replay_trace` on the strings that `fgets` returns for an opened trace file, one
per line; `addr` starts at `0`. -/
def replay_trace (g : Globals) (trace : List String) : Option Globals :=
  (replay_lines (g, 0) (trace.map String.toList)).map Prod.fst

/-- Number of trace lines whose kind character `buf[1]` is `k`. -/
def count_kind (k : Char) (trace : List String) : Nat :=
  (trace.filter (fun l => kind_of l.toList = k)).length

/-! ## Access history -/

/-- The history is given most recent call first. -/
def last_touch_rev (s b set tag : Nat) : List Nat → Nat
  | [] => 0
  | a :: older =>
    if set_of s b a = set ∧ tag_of s b a = tag then older.length + 1
    else last_touch_rev s b set tag older

/-- Position, counted from 1, of the most recent call in the sequence `pre` whose address
decodes to the pair `(set, tag)`; `0` when no call of `pre` does. -/
def last_touch (s b set tag : Nat) (pre : List Nat) : Nat :=
  last_touch_rev s b set tag pre.reverse

/-- What the recency counters of one set record about the calls `pre` made so far: every set
has its `E` lines; two distinct valid slots hold tags with different last accesses; the tag of
a valid slot has been accessed; and the counters of valid slots are ordered as the last
accesses of their tags. -/
def set_inv (s b E : Nat) (pre : List Nat) (set : Nat) (lines : List cache_line_t) : Prop :=
  lines.length = E ∧
  (∀ i j, i < E → j < E → (line_at lines i).valid ≠ '0' → (line_at lines j).valid ≠ '0' →
    last_touch s b set (line_at lines i).tag pre = last_touch s b set (line_at lines j).tag pre →
    i = j) ∧
  (∀ i, i < E → (line_at lines i).valid ≠ '0' →
    1 ≤ last_touch s b set (line_at lines i).tag pre) ∧
  (∀ i j, i < E → j < E → (line_at lines i).valid ≠ '0' → (line_at lines j).valid ≠ '0' →
    ((line_at lines i).counter < (line_at lines j).counter ↔
      last_touch s b set (line_at lines i).tag pre <
        last_touch s b set (line_at lines j).tag pre))

/-- The invariant of the whole cache after the calls `pre`. -/
def cache_inv (s b E : Nat) (pre : List Nat) (g : Globals) : Prop :=
  WF g ∧ g.s = s ∧ g.b = b ∧ g.E = E ∧
  ∀ set lines, g.cache[set]? = some lines → set_inv s b E pre set lines

/-! ## Filling one set -/

/-- Contents of a set after the first `k` of the addresses `addrs`, all of this set and with
distinct tags, have been accessed on the fresh cache: the slots below `E - k` are untouched, and
slot `i >= E - k` holds the tag of address number `E - 1 - i` with counter `E - i`. -/
def fill_lines (s b E : Nat) (addrs : List Nat) (k : Nat) (lines : List cache_line_t) : Prop :=
  lines.length = E ∧
  ∀ i, i < E → line_at lines i =
    if i + k < E then fresh_line
    else { valid := '1', tag := tag_of s b (addrs.getD (E - 1 - i) 0), counter := ((E - i : Nat) : Int) }

/-- The globals after the first `k` of those accesses: `k` cold misses and nothing else. -/
def fill_state (s b E : Nat) (addrs : List Nat) (set k : Nat) (g : Globals) : Prop :=
  WF g ∧ g.s = s ∧ g.b = b ∧ g.E = E ∧
  g.hit_cnt = 0 ∧ g.miss_cnt = k ∧ g.evict_cnt = 0 ∧
  ∃ lines, g.cache[set]? = some lines ∧ fill_lines s b E addrs k lines

/-! ## `main` -/

/-- Function `print_usage`: prints the help text and ends with `exit(0)`.  A call of `exit` is
an `Except.error` carrying the exit status, so nothing sequenced after it runs. -/
def print_usage : Except Int Unit := Except.error 0

/-- The required-argument check of `main`:
`if (s == 0 || E == 0 || b == 0 || trace_file == NULL)`, whose body prints a message, calls
`print_usage(argv)` and then `exit(1)`.  `s`, `E`, `b` are the `int` values left by `atoi`
(`0` when the option was not given), `trace_file` is `none` for `NULL`. -/
def check_args (s E b : Int) (trace_file : Option String) : Except Int Unit :=
  if s = 0 ∨ E = 0 ∨ b = 0 ∨ trace_file = none then
    print_usage.bind (fun _ => Except.error 1)
  else Except.ok ()

/-- Function `main` from the end of the `getopt` loop on: the check, then `init_cache`,
`replay_trace`, `free_cache`, `print_summary(hit_cnt, miss_cnt, evict_cnt)` and `return 0`.
`fopen` gives the lines of a readable trace file; `replay_trace` exits with status 1 when the
file cannot be opened.  `Except.error n` is `exit(n)`; `Except.ok (some (h, m, e))` is the normal
return after the summary `h m e` was printed.  The geometry of the embedding is non-negative:
`Except.ok none` marks a run that is not described here, one that passes the check with a
negative `s`, `E` or `b` (the C code goes on into `init_cache` with that value), or one that
reads outside the cache. -/
def main (s E b : Int) (trace_file : Option String) (fopen : String → Option (List String)) :
    Except Int (Option (Int × Int × Int)) :=
  (check_args s E b trace_file).bind (fun _ =>
    if s < 0 ∨ E < 0 ∨ b < 0 then Except.ok none
    else
      (init_cache (startup s.toNat E.toNat b.toNat)).bind (fun g0 =>
        match trace_file.bind fopen with
        | none => Except.error 1
        | some trace =>
          Except.ok ((replay_trace g0 trace).map
            (fun g => (g.hit_cnt, g.miss_cnt, g.evict_cnt)))))

/-! ## Predicates on reachable states -/

/-- No two distinct valid slots of the set hold the same tag. -/
def no_dup_set (E : Nat) (lines : List cache_line_t) : Prop :=
  ∀ i j, i < E → j < E → (line_at lines i).valid ≠ '0' → (line_at lines j).valid ≠ '0' →
    (line_at lines i).tag = (line_at lines j).tag → i = j

/-- No set of the cache contains two distinct valid lines holding the same tag. -/
def no_dup (g : Globals) : Prop :=
  ∀ (set : Nat) (lines : List cache_line_t), g.cache[set]? = some lines → no_dup_set g.E lines

/-- Counters of a set in a reachable state: an invalid slot is as `init_cache` wrote it, a valid
slot has a counter of at least 1. -/
def counter_inv (E : Nat) (lines : List cache_line_t) : Prop :=
  ∀ i, i < E →
    ((line_at lines i).valid = '0' → line_at lines i = fresh_line) ∧
    ((line_at lines i).valid ≠ '0' → 1 ≤ (line_at lines i).counter)

/-- Number of valid lines of a set. -/
def valid_count (lines : List cache_line_t) : Nat :=
  lines.countP (fun l => l.valid != '0')

/-- Total number of valid lines in the cache. -/
def total_valid (g : Globals) : Nat := (g.cache.map valid_count).sum

/-- The call `access_data(addr)` in state `g` takes the cold-miss branch: it counts a miss and
nothing else. -/
def is_cold (g : Globals) (addr : Nat) : Bool :=
  match g.cache[set_of g.s g.b addr]? with
  | some lines => decide ((resolve lines (tag_of g.s g.b addr) g.E).2 = (0, 1, 0))
  | none => false

/-- Number of calls of the sequence, made in order from state `g`, that decode to the set
`set` and take the cold-miss branch. -/
def cold_misses (set : Nat) : Globals → List Nat → Nat
  | _, [] => 0
  | g, a :: rest =>
    (if set_of g.s g.b a = set ∧ is_cold g a = true then 1 else 0) +
      (match access_data g a with
        | some g1 => cold_misses set g1 rest
        | none => 0)

/-! # Theorems -/

/-! ## Address decoding -/

theorem shr64_eq_div (x n : Nat) (hn : n < 64) : shr64 x n = x / 2 ^ n := by
  unfold shr64
  rw [Nat.mod_eq_of_lt hn, Nat.shiftRight_eq_div_pow]

theorem sub64_of_le {x y : Nat} (hx : x < 2 ^ 64) (hy : y ≤ x) : sub64 x y = x - y := by
  unfold sub64
  have h1 : y % 2 ^ 64 = y := Nat.mod_eq_of_lt (by omega)
  rw [h1]
  have h2 : x + (2 ^ 64 - y) = (x - y) + 2 ^ 64 := by omega
  rw [h2, Nat.add_mod_right]
  exact Nat.mod_eq_of_lt (by omega)

theorem set_of_eq {s b addr : Nat} (ha : addr < 2 ^ 64) (hsb : s + b < 64) :
    set_of s b addr = (addr / 2 ^ b) % 2 ^ s := by
  unfold set_of tag_of
  rw [shr64_eq_div _ _ hsb, shr64_eq_div _ _ (by omega)]
  have hle : addr / 2 ^ (s + b) * 2 ^ (s + b) ≤ addr := Nat.div_mul_le_self _ _
  have hshl : shl64 (addr / 2 ^ (s + b)) (s + b) = addr / 2 ^ (s + b) * 2 ^ (s + b) := by
    unfold shl64
    rw [Nat.mod_eq_of_lt hsb, Nat.shiftLeft_eq]
    exact Nat.mod_eq_of_lt (by omega)
  rw [hshl, sub64_of_le ha hle]
  have hmod : addr - addr / 2 ^ (s + b) * 2 ^ (s + b) = addr % 2 ^ (s + b) := by
    have := Nat.div_add_mod addr (2 ^ (s + b))
    rw [Nat.mul_comm] at this
    omega
  rw [hmod, Nat.add_comm s b, Nat.pow_add, Nat.mod_mul_right_div_self]

/-- C4. Address decoding: for a 64-bit address and `s + b < 64`, the tag computed by
`access_data` is `addr >> (s+b)` and the set index `(addr - (tag << (s+b))) >> b` is
`(addr >> b) mod 2^s`. -/
theorem C4_address_decoding (addr s b : Nat) (ha : addr < 2 ^ 64) (hsb : s + b < 64) :
    tag_of s b addr = addr >>> (s + b) ∧ set_of s b addr = (addr >>> b) % 2 ^ s := by
  refine ⟨?_, ?_⟩
  · unfold tag_of shr64
    rw [Nat.mod_eq_of_lt hsb]
  · rw [set_of_eq ha hsb, Nat.shiftRight_eq_div_pow]

theorem C4_address_decoding_witness :
    (0xdeadbeef : Nat) < 2 ^ 64 ∧ 4 + 5 < 64 ∧
      tag_of 4 5 0xdeadbeef = 0xdeadbeef >>> (4 + 5) ∧
      set_of 4 5 0xdeadbeef = (0xdeadbeef >>> 5) % 2 ^ 4 :=
  ⟨by decide, by decide, C4_address_decoding 0xdeadbeef 4 5 (by decide) (by decide)⟩

/-! ## The scan loop -/

theorem scan_zero (lines : List cache_line_t) (tag : Nat) : scan lines tag 0 = scan_init := rfl

theorem scan_succ (lines : List cache_line_t) (tag n : Nat) :
    scan lines tag (n + 1) = scan_step lines tag (scan lines tag n) n := by
  simp [scan, List.range_succ, List.foldl_append]

theorem scan_step_hit (lines : List cache_line_t) (tag : Nat) (p : scan_t) (i : Nat) :
    (scan_step lines tag p i).hit_line =
      if (line_at lines i).valid ≠ '0' ∧ (line_at lines i).tag = tag then some i
      else p.hit_line := by
  by_cases hv : (line_at lines i).valid = '0' <;>
  by_cases ht : (line_at lines i).tag = tag <;>
  by_cases hm : (line_at lines p.mostrecent_line).counter < (line_at lines i).counter <;>
  by_cases hl : (line_at lines i).counter < (line_at lines p.leastrecent_line).counter <;>
  simp only [scan_step, gt_iff_lt, hv, ht, hm, hl, if_true, if_false, ne_eq, not_true_eq_false,
    not_false_eq_true, true_and, and_true, false_and, and_false]

theorem scan_step_empty (lines : List cache_line_t) (tag : Nat) (p : scan_t) (i : Nat) :
    (scan_step lines tag p i).empty_line =
      if (line_at lines i).valid = '0' then some i else p.empty_line := by
  by_cases hv : (line_at lines i).valid = '0' <;>
  by_cases ht : (line_at lines i).tag = tag <;>
  by_cases hm : (line_at lines p.mostrecent_line).counter < (line_at lines i).counter <;>
  by_cases hl : (line_at lines i).counter < (line_at lines p.leastrecent_line).counter <;>
  simp only [scan_step, gt_iff_lt, hv, ht, hm, hl, if_true, if_false, ne_eq, not_true_eq_false,
    not_false_eq_true, true_and, and_true, false_and, and_false]

theorem scan_step_most (lines : List cache_line_t) (tag : Nat) (p : scan_t) (i : Nat) :
    (scan_step lines tag p i).mostrecent_line =
      if (line_at lines i).valid ≠ '0' ∧
          (line_at lines p.mostrecent_line).counter < (line_at lines i).counter then i
      else p.mostrecent_line := by
  by_cases hv : (line_at lines i).valid = '0' <;>
  by_cases ht : (line_at lines i).tag = tag <;>
  by_cases hm : (line_at lines p.mostrecent_line).counter < (line_at lines i).counter <;>
  by_cases hl : (line_at lines i).counter < (line_at lines p.leastrecent_line).counter <;>
  simp only [scan_step, gt_iff_lt, hv, ht, hm, hl, if_true, if_false, ne_eq, not_true_eq_false,
    not_false_eq_true, true_and, and_true, false_and, and_false]

theorem scan_step_least (lines : List cache_line_t) (tag : Nat) (p : scan_t) (i : Nat) :
    (scan_step lines tag p i).leastrecent_line =
      if (line_at lines i).valid ≠ '0' ∧
          (line_at lines i).counter < (line_at lines p.leastrecent_line).counter then i
      else p.leastrecent_line := by
  by_cases hv : (line_at lines i).valid = '0' <;>
  by_cases ht : (line_at lines i).tag = tag <;>
  by_cases hm : (line_at lines p.mostrecent_line).counter < (line_at lines i).counter <;>
  by_cases hl : (line_at lines i).counter < (line_at lines p.leastrecent_line).counter <;>
  simp only [scan_step, gt_iff_lt, hv, ht, hm, hl, if_true, if_false, ne_eq, not_true_eq_false,
    not_false_eq_true, true_and, and_true, false_and, and_false]

/-- After `n` iterations `hit_line` is `NULL` exactly when no valid slot below `n` holds the
tag. -/
theorem scan_hit_none_iff (lines : List cache_line_t) (tag n : Nat) :
    (scan lines tag n).hit_line = none ↔
      ∀ i, i < n → ¬((line_at lines i).valid ≠ '0' ∧ (line_at lines i).tag = tag) := by
  induction n with
  | zero => simp [scan_zero, scan_init]
  | succ n ih =>
    rw [scan_succ, scan_step_hit]
    by_cases h : (line_at lines n).valid ≠ '0' ∧ (line_at lines n).tag = tag
    · rw [if_pos h]
      constructor
      · intro hc; cases hc
      · intro hall; exact absurd h (hall n (Nat.lt_succ_self n))
    · rw [if_neg h, ih]
      constructor
      · intro hall i hi
        rcases Nat.lt_succ_iff_lt_or_eq.mp hi with hlt | heq
        · exact hall i hlt
        · subst heq; exact h
      · intro hall i hi
        exact hall i (Nat.lt_succ_of_lt hi)

/-- A non-`NULL` `hit_line` points at a valid slot below `n` that holds the tag. -/
theorem scan_hit_some (lines : List cache_line_t) (tag n h : Nat)
    (hs : (scan lines tag n).hit_line = some h) :
    h < n ∧ (line_at lines h).valid ≠ '0' ∧ (line_at lines h).tag = tag := by
  induction n with
  | zero => simp [scan_zero, scan_init] at hs
  | succ n ih =>
    rw [scan_succ, scan_step_hit] at hs
    by_cases hc : (line_at lines n).valid ≠ '0' ∧ (line_at lines n).tag = tag
    · rw [if_pos hc] at hs
      cases hs
      exact ⟨Nat.lt_succ_self _, hc⟩
    · rw [if_neg hc] at hs
      obtain ⟨h1, h2⟩ := ih hs
      exact ⟨Nat.lt_succ_of_lt h1, h2⟩

/-- After `n` iterations `empty_line` is `NULL` exactly when every slot below `n` is valid. -/
theorem scan_empty_none_iff (lines : List cache_line_t) (tag n : Nat) :
    (scan lines tag n).empty_line = none ↔ ∀ i, i < n → (line_at lines i).valid ≠ '0' := by
  induction n with
  | zero => simp [scan_zero, scan_init]
  | succ n ih =>
    rw [scan_succ, scan_step_empty]
    by_cases h : (line_at lines n).valid = '0'
    · rw [if_pos h]
      constructor
      · intro hc; cases hc
      · intro hall; exact absurd h (hall n (Nat.lt_succ_self n))
    · rw [if_neg h, ih]
      constructor
      · intro hall i hi
        rcases Nat.lt_succ_iff_lt_or_eq.mp hi with hlt | heq
        · exact hall i hlt
        · subst heq; exact h
      · intro hall i hi
        exact hall i (Nat.lt_succ_of_lt hi)

/-- A non-`NULL` `empty_line` points at the invalid slot with the largest index below `n`. -/
theorem scan_empty_some (lines : List cache_line_t) (tag n e : Nat)
    (hs : (scan lines tag n).empty_line = some e) :
    e < n ∧ (line_at lines e).valid = '0' ∧
      ∀ j, e < j → j < n → (line_at lines j).valid ≠ '0' := by
  induction n with
  | zero => simp [scan_zero, scan_init] at hs
  | succ n ih =>
    rw [scan_succ, scan_step_empty] at hs
    by_cases hc : (line_at lines n).valid = '0'
    · rw [if_pos hc] at hs
      cases hs
      exact ⟨Nat.lt_succ_self _, hc, fun j h1 h2 => by omega⟩
    · rw [if_neg hc] at hs
      obtain ⟨h1, h2, h3⟩ := ih hs
      refine ⟨Nat.lt_succ_of_lt h1, h2, fun j hj1 hj2 => ?_⟩
      rcases Nat.lt_succ_iff_lt_or_eq.mp hj2 with hlt | heq
      · exact h3 j hj1 hlt
      · subst heq; exact hc

/-- After `n` iterations `mostrecent_line` is slot 0 or a valid slot below `n`, and its counter
is at least the counter of slot 0 and of every valid slot below `n`. -/
theorem scan_most (lines : List cache_line_t) (tag n : Nat) :
    ((scan lines tag n).mostrecent_line = 0 ∨
      ((scan lines tag n).mostrecent_line < n ∧
        (line_at lines (scan lines tag n).mostrecent_line).valid ≠ '0')) ∧
    (line_at lines 0).counter ≤ (line_at lines (scan lines tag n).mostrecent_line).counter ∧
    ∀ i, i < n → (line_at lines i).valid ≠ '0' →
      (line_at lines i).counter ≤ (line_at lines (scan lines tag n).mostrecent_line).counter := by
  induction n with
  | zero => simp [scan_zero, scan_init]
  | succ n ih =>
    obtain ⟨h1, h2, h3⟩ := ih
    rw [scan_succ, scan_step_most]
    by_cases hc : (line_at lines n).valid ≠ '0' ∧
        (line_at lines (scan lines tag n).mostrecent_line).counter < (line_at lines n).counter
    · rw [if_pos hc]
      refine ⟨Or.inr ⟨Nat.lt_succ_self _, hc.1⟩, by omega, fun i hi hv => ?_⟩
      rcases Nat.lt_succ_iff_lt_or_eq.mp hi with hlt | heq
      · have := h3 i hlt hv; omega
      · subst heq; exact le_refl _
    · rw [if_neg hc]
      refine ⟨?_, h2, fun i hi hv => ?_⟩
      · rcases h1 with h0 | ⟨hlt, hv⟩
        · exact Or.inl h0
        · exact Or.inr ⟨Nat.lt_succ_of_lt hlt, hv⟩
      · rcases Nat.lt_succ_iff_lt_or_eq.mp hi with hlt | heq
        · exact h3 i hlt hv
        · subst heq
          by_contra hlt
          exact hc ⟨hv, by omega⟩

/-- After `n` iterations `leastrecent_line` is slot 0 or a valid slot below `n`, and its counter
is at most the counter of slot 0 and of every valid slot below `n`. -/
theorem scan_least (lines : List cache_line_t) (tag n : Nat) :
    ((scan lines tag n).leastrecent_line = 0 ∨
      ((scan lines tag n).leastrecent_line < n ∧
        (line_at lines (scan lines tag n).leastrecent_line).valid ≠ '0')) ∧
    (line_at lines (scan lines tag n).leastrecent_line).counter ≤ (line_at lines 0).counter ∧
    ∀ i, i < n → (line_at lines i).valid ≠ '0' →
      (line_at lines (scan lines tag n).leastrecent_line).counter ≤ (line_at lines i).counter := by
  induction n with
  | zero => simp [scan_zero, scan_init]
  | succ n ih =>
    obtain ⟨h1, h2, h3⟩ := ih
    rw [scan_succ, scan_step_least]
    by_cases hc : (line_at lines n).valid ≠ '0' ∧
        (line_at lines n).counter < (line_at lines (scan lines tag n).leastrecent_line).counter
    · rw [if_pos hc]
      refine ⟨Or.inr ⟨Nat.lt_succ_self _, hc.1⟩, by omega, fun i hi hv => ?_⟩
      rcases Nat.lt_succ_iff_lt_or_eq.mp hi with hlt | heq
      · have := h3 i hlt hv; omega
      · subst heq; exact le_refl _
    · rw [if_neg hc]
      refine ⟨?_, h2, fun i hi hv => ?_⟩
      · rcases h1 with h0 | ⟨hlt, hv⟩
        · exact Or.inl h0
        · exact Or.inr ⟨Nat.lt_succ_of_lt hlt, hv⟩
      · rcases Nat.lt_succ_iff_lt_or_eq.mp hi with hlt | heq
        · exact h3 i hlt hv
        · subst heq
          by_contra hlt
          exact hc ⟨hv, by omega⟩

/-! ## Slots and lines -/

theorem line_at_eq_getElem (lines : List cache_line_t) (i : Nat) (h : i < lines.length) :
    line_at lines i = lines[i] := by
  simp [line_at, List.getD_eq_getElem?_getD, List.getElem?_eq_getElem h]

theorem exists_slot_iff (lines : List cache_line_t) (P : cache_line_t → Prop) :
    (∃ i, i < lines.length ∧ P (line_at lines i)) ↔ ∃ l, l ∈ lines ∧ P l := by
  constructor
  · rintro ⟨i, hi, hp⟩
    rw [line_at_eq_getElem lines i hi] at hp
    exact ⟨lines[i], List.getElem_mem hi, hp⟩
  · rintro ⟨l, hl, hp⟩
    obtain ⟨i, hi, rfl⟩ := List.mem_iff_getElem.mp hl
    exact ⟨i, hi, by rw [line_at_eq_getElem lines i hi]; exact hp⟩

theorem forall_slot_iff (lines : List cache_line_t) (P : cache_line_t → Prop) :
    (∀ i, i < lines.length → P (line_at lines i)) ↔ ∀ l, l ∈ lines → P l := by
  constructor
  · intro h l hl
    obtain ⟨i, hi, rfl⟩ := List.mem_iff_getElem.mp hl
    have := h i hi
    rwa [line_at_eq_getElem lines i hi] at this
  · intro h i hi
    rw [line_at_eq_getElem lines i hi]
    exact h _ (List.getElem_mem hi)

theorem line_at_set (lines : List cache_line_t) (k i : Nat) (l : cache_line_t)
    (hk : k < lines.length) :
    line_at (lines.set k l) i = if i = k then l else line_at lines i := by
  unfold line_at
  by_cases h : i = k
  · subst h
    simp [List.getD_eq_getElem?_getD, hk]
  · have h2 : k ≠ i := fun e => h e.symm
    simp [List.getD_eq_getElem?_getD, List.getElem?_set_ne h2, h]

/-! ## The three branches -/

theorem hit_line_isSome_of_resident {lines : List cache_line_t} {tag E : Nat}
    (h : resident lines tag E) : ∃ k, (scan lines tag E).hit_line = some k := by
  cases hk : (scan lines tag E).hit_line with
  | some k => exact ⟨k, rfl⟩
  | none =>
    obtain ⟨i, hi, hv⟩ := h
    exact absurd hv ((scan_hit_none_iff lines tag E).mp hk i hi)

theorem hit_line_none_of_not_resident {lines : List cache_line_t} {tag E : Nat}
    (h : ¬ resident lines tag E) : (scan lines tag E).hit_line = none := by
  rw [scan_hit_none_iff]
  intro i hi hv
  exact h ⟨i, hi, hv⟩

theorem empty_line_none_of_all_valid {lines : List cache_line_t} (tag : Nat) {E : Nat}
    (h : all_valid lines E) : (scan lines tag E).empty_line = none :=
  (scan_empty_none_iff lines tag E).mpr h

theorem empty_line_isSome_of_not_all_valid {lines : List cache_line_t} (tag : Nat) {E : Nat}
    (h : ¬ all_valid lines E) : ∃ e, (scan lines tag E).empty_line = some e := by
  cases he : (scan lines tag E).empty_line with
  | some e => exact ⟨e, rfl⟩
  | none => exact absurd ((scan_empty_none_iff lines tag E).mp he) h

/-- Hit branch: the counter increments are `(1, 0, 0)`. -/
theorem resolve_counts_hit {lines : List cache_line_t} {tag E : Nat}
    (h : resident lines tag E) : (resolve lines tag E).2 = (1, 0, 0) := by
  obtain ⟨k, hk⟩ := hit_line_isSome_of_resident h
  simp [resolve, hk]

/-- Cold-miss branch: the counter increments are `(0, 1, 0)`. -/
theorem resolve_counts_cold {lines : List cache_line_t} {tag E : Nat}
    (h : ¬ resident lines tag E) (hv : ¬ all_valid lines E) :
    (resolve lines tag E).2 = (0, 1, 0) := by
  obtain ⟨e, he⟩ := empty_line_isSome_of_not_all_valid tag hv
  simp [resolve, hit_line_none_of_not_resident h, he]

/-- Eviction branch: the counter increments are `(0, 1, 1)`. -/
theorem resolve_counts_evict {lines : List cache_line_t} {tag E : Nat}
    (h : ¬ resident lines tag E) (hv : all_valid lines E) :
    (resolve lines tag E).2 = (0, 1, 1) := by
  simp [resolve, hit_line_none_of_not_resident h, empty_line_none_of_all_valid tag hv]

/-- The call `access_data` on a state whose decoded set is allocated with at least `E >= 1`
lines. -/
theorem access_data_eq {g : Globals} {addr : Nat} {lines : List cache_line_t}
    (hset : g.cache[set_of g.s g.b addr]? = some lines) (hE : 0 < g.E)
    (hlen : g.E ≤ lines.length) :
    access_data g addr = some { g with
      hit_cnt := g.hit_cnt + (resolve lines (tag_of g.s g.b addr) g.E).2.1
      miss_cnt := g.miss_cnt + (resolve lines (tag_of g.s g.b addr) g.E).2.2.1
      evict_cnt := g.evict_cnt + (resolve lines (tag_of g.s g.b addr) g.E).2.2.2
      cache := g.cache.set (set_of g.s g.b addr)
        (resolve lines (tag_of g.s g.b addr) g.E).1 } := by
  unfold access_data
  simp only [hset]
  rw [if_neg (by omega)]

theorem resident_iff_mem {lines : List cache_line_t} {tag E : Nat} (hlen : lines.length = E) :
    resident lines tag E ↔ ∃ l, l ∈ lines ∧ l.valid ≠ '0' ∧ l.tag = tag := by
  unfold resident
  rw [← hlen]
  exact exists_slot_iff lines (fun l => l.valid ≠ '0' ∧ l.tag = tag)

theorem all_valid_iff_mem {lines : List cache_line_t} {E : Nat} (hlen : lines.length = E) :
    all_valid lines E ↔ ∀ l, l ∈ lines → l.valid ≠ '0' := by
  unfold all_valid
  rw [← hlen]
  exact forall_slot_iff lines (fun l => l.valid ≠ '0')

/-! ## Per-access outcome -/

/-- C3. Per-access outcome and counters: on a state whose decoded set `cache[set]` is allocated
with its `E >= 1` lines, one `access_data` call returns, and (a) it adds exactly 1 to `hit_cnt`
and leaves `miss_cnt`, `evict_cnt` unchanged if and only if some valid line of that set holds
the tag; (b) otherwise it adds exactly 1 to `miss_cnt`, leaves `hit_cnt` unchanged, adds exactly
1 to `evict_cnt` if and only if every line of the set is valid, and leaves `evict_cnt` unchanged
when an invalid line exists. -/
theorem C3_access_outcome (g : Globals) (addr : Nat) (lines : List cache_line_t)
    (hset : g.cache[set_of g.s g.b addr]? = some lines) (hE : 0 < g.E)
    (hlen : lines.length = g.E) :
    ∃ g1, access_data g addr = some g1 ∧
      ((g1.hit_cnt = g.hit_cnt + 1 ∧ g1.miss_cnt = g.miss_cnt ∧ g1.evict_cnt = g.evict_cnt) ↔
        ∃ l, l ∈ lines ∧ l.valid ≠ '0' ∧ l.tag = tag_of g.s g.b addr) ∧
      ((¬ ∃ l, l ∈ lines ∧ l.valid ≠ '0' ∧ l.tag = tag_of g.s g.b addr) →
        g1.miss_cnt = g.miss_cnt + 1 ∧ g1.hit_cnt = g.hit_cnt ∧
        (g1.evict_cnt = g.evict_cnt + 1 ↔ ∀ l, l ∈ lines → l.valid ≠ '0') ∧
        ((∃ l, l ∈ lines ∧ l.valid = '0') → g1.evict_cnt = g.evict_cnt)) := by
  refine ⟨_, access_data_eq hset hE (le_of_eq hlen.symm), ?_, ?_⟩
  · rw [← resident_iff_mem hlen]
    by_cases hr : resident lines (tag_of g.s g.b addr) g.E
    · simp [resolve_counts_hit hr, hr]
    · by_cases hv : all_valid lines g.E
      · simp [resolve_counts_evict hr hv, hr]
      · simp [resolve_counts_cold hr hv, hr]
  · rw [← resident_iff_mem hlen, ← all_valid_iff_mem hlen]
    intro hr
    by_cases hv : all_valid lines g.E
    · simp only [resolve_counts_evict hr hv]
      refine ⟨trivial, by simp, by simp [hv], ?_⟩
      rintro ⟨l, hl, hl0⟩
      exact absurd hl0 ((all_valid_iff_mem hlen).mp hv l hl)
    · simp only [resolve_counts_cold hr hv]
      refine ⟨trivial, by simp, by simp [hv], fun _ => by simp⟩

theorem C3_access_outcome_witness :
    ∃ g1, access_data (fresh_cache 1 1 1) 0 = some g1 ∧
      ((g1.hit_cnt = (fresh_cache 1 1 1).hit_cnt + 1 ∧
          g1.miss_cnt = (fresh_cache 1 1 1).miss_cnt ∧
          g1.evict_cnt = (fresh_cache 1 1 1).evict_cnt) ↔
        ∃ l, l ∈ [fresh_line] ∧ l.valid ≠ '0' ∧ l.tag = tag_of 1 1 0) ∧
      ((¬ ∃ l, l ∈ [fresh_line] ∧ l.valid ≠ '0' ∧ l.tag = tag_of 1 1 0) →
        g1.miss_cnt = (fresh_cache 1 1 1).miss_cnt + 1 ∧
        g1.hit_cnt = (fresh_cache 1 1 1).hit_cnt ∧
        (g1.evict_cnt = (fresh_cache 1 1 1).evict_cnt + 1 ↔
          ∀ l, l ∈ [fresh_line] → l.valid ≠ '0') ∧
        ((∃ l, l ∈ [fresh_line] ∧ l.valid = '0') →
          g1.evict_cnt = (fresh_cache 1 1 1).evict_cnt)) :=
  C3_access_outcome (fresh_cache 1 1 1) 0 [fresh_line] rfl (by decide) rfl

/-! ## Set index bound and allocation shape -/

theorem sub64_shl_lt (addr n : Nat) :
    sub64 addr (((addr >>> n) <<< n) % 2 ^ 64) < 2 ^ n := by
  by_cases hn : 64 ≤ n
  · have h1 : sub64 addr (((addr >>> n) <<< n) % 2 ^ 64) < 2 ^ 64 :=
      Nat.mod_lt _ (by positivity)
    have h2 : 2 ^ 64 ≤ 2 ^ n := Nat.pow_le_pow_right (by decide) hn
    omega
  · have hn2 : n ≤ 64 := by omega
    have hM : 2 ^ 64 = 2 ^ n * 2 ^ (64 - n) := by
      rw [← Nat.pow_add]; congr 1; omega
    have hNpos : 0 < 2 ^ n := by positivity
    unfold sub64
    rw [Nat.shiftLeft_eq, Nat.shiftRight_eq_div_pow, Nat.mod_mod]
    set t := addr / 2 ^ n with ht
    set r := addr % 2 ^ n with hr
    have hrlt : r < 2 ^ n := Nat.mod_lt _ hNpos
    have haddr : t * 2 ^ n + r = addr := by
      rw [ht, hr, Nat.mul_comm]; exact Nat.div_add_mod addr (2 ^ n)
    set y := (t * 2 ^ n) % 2 ^ 64 with hy
    set q := (t * 2 ^ n) / 2 ^ 64 with hq
    have hyq : y + 2 ^ 64 * q = t * 2 ^ n := by
      rw [hy, hq]; exact Nat.mod_add_div _ _
    have hylt : y < 2 ^ 64 := Nat.mod_lt _ (by positivity)
    have hN64 : 2 ^ n ≤ 2 ^ 64 := Nat.pow_le_pow_right (by decide) hn2
    have hsum : addr + (2 ^ 64 - y) = r + 2 ^ 64 * (q + 1) := by
      rw [← haddr, ← hyq, Nat.mul_add]
      omega
    rw [hsum, Nat.add_mul_mod_self_left]
    exact lt_of_le_of_lt (Nat.mod_le _ _) hrlt

/-- The set index computed by `access_data` is below `2^s`, for every address and every
geometry. -/
theorem set_of_lt (s b addr : Nat) : set_of s b addr < 2 ^ s := by
  unfold set_of tag_of shr64 shl64
  have h := sub64_shl_lt addr ((s + b) % 64)
  rw [Nat.shiftRight_eq_div_pow (sub64 _ _) (b % 64)]
  apply Nat.div_lt_of_lt_mul
  rw [← Nat.pow_add]
  have hk : (s + b) % 64 ≤ b % 64 + s := by omega
  exact lt_of_lt_of_le h (Nat.pow_le_pow_right (by decide) hk)

/-- For `1 <= s <= 30` the shift `2 << (s-1)` is `2^s`, without overflow. -/
theorem shl_int_two {s : Nat} (hs : 1 ≤ s) (hs30 : s ≤ 30) :
    shl_int 2 ((s : Int) - 1) = ((2 ^ s : Nat) : Int) := by
  interval_cases s <;> decide

/-- For `1 <= s <= 30` the function `init_cache` returns, with `2^s` sets of `E` fresh lines. -/
theorem init_cache_ok (s E b : Nat) (hs : 1 ≤ s) (hs30 : s ≤ 30) :
    init_cache (startup s E b) = Except.ok (fresh_cache s E b) := by
  unfold init_cache
  simp only [startup]
  rw [shl_int_two hs hs30, if_neg (Int.not_lt.mpr (Int.ofNat_nonneg _)), Int.toNat_ofNat]
  rfl

/-- For `s = 31` the value `2 << 30` wraps to `-2^31`, the allocation fails and `init_cache`
exits with status 1. -/
theorem init_cache_s31 (E b : Nat) : init_cache (startup 31 E b) = Except.error 1 := by
  unfold init_cache
  simp only [startup]
  have h : shl_int 2 (((31 : Nat) : Int) - 1) = -2147483648 := by decide
  rw [h, if_pos (by decide)]

theorem WF_init_cache (s E b : Nat) (hE : 0 < E) : WF (fresh_cache s E b) := by
  refine ⟨hE, ?_, ?_⟩
  · simp [fresh_cache]
  · intro lines hl
    simp only [fresh_cache] at hl
    rw [List.eq_of_mem_replicate hl]
    simp [fresh_cache]

theorem WF_lookup {g : Globals} (h : WF g) (addr : Nat) :
    ∃ lines, g.cache[set_of g.s g.b addr]? = some lines ∧ lines.length = g.E := by
  have hlt : set_of g.s g.b addr < g.cache.length := lt_of_lt_of_le (set_of_lt _ _ _) h.2.1
  refine ⟨g.cache[set_of g.s g.b addr], List.getElem?_eq_getElem hlt, ?_⟩
  exact h.2.2 _ (List.getElem_mem hlt)

theorem resolve_hit_eq {lines : List cache_line_t} {tag E k : Nat}
    (hk : (scan lines tag E).hit_line = some k) :
    resolve lines tag E =
      (lines.set k { line_at lines k with counter := new_counter lines tag E }, 1, 0, 0) := by
  simp [resolve, hk, new_counter]

theorem resolve_cold_eq {lines : List cache_line_t} {tag E e : Nat}
    (hk : (scan lines tag E).hit_line = none) (he : (scan lines tag E).empty_line = some e) :
    resolve lines tag E =
      (lines.set e { valid := '1', tag := tag, counter := new_counter lines tag E }, 0, 1, 0) := by
  simp [resolve, hk, he, new_counter]

theorem resolve_evict_eq {lines : List cache_line_t} {tag E : Nat}
    (hk : (scan lines tag E).hit_line = none) (he : (scan lines tag E).empty_line = none) :
    resolve lines tag E =
      (lines.set (scan lines tag E).leastrecent_line
        { valid := '1', tag := tag, counter := new_counter lines tag E }, 0, 1, 1) := by
  simp [resolve, hk, he, new_counter]

theorem resolve_length (lines : List cache_line_t) (tag E : Nat) :
    (resolve lines tag E).1.length = lines.length := by
  cases hk : (scan lines tag E).hit_line with
  | some h => simp [resolve_hit_eq hk]
  | none =>
    cases he : (scan lines tag E).empty_line with
    | some e => simp [resolve_cold_eq hk he]
    | none => simp [resolve_evict_eq hk he]

theorem resolve_counts_cases (lines : List cache_line_t) (tag E : Nat) :
    (resolve lines tag E).2 = (1, 0, 0) ∨ (resolve lines tag E).2 = (0, 1, 0) ∨
      (resolve lines tag E).2 = (0, 1, 1) := by
  by_cases hr : resident lines tag E
  · exact Or.inl (resolve_counts_hit hr)
  · by_cases hv : all_valid lines E
    · exact Or.inr (Or.inr (resolve_counts_evict hr hv))
    · exact Or.inr (Or.inl (resolve_counts_cold hr hv))

/-- One call on a well-shaped cache returns, keeps the shape and the geometry, and moves the
counters by one of the three increment patterns. -/
theorem access_data_WF {g : Globals} (h : WF g) (addr : Nat) :
    ∃ g1, access_data g addr = some g1 ∧ WF g1 ∧ g1.s = g.s ∧ g1.b = g.b ∧ g1.E = g.E ∧
      g1.cache.length = g.cache.length ∧
      g1.hit_cnt + g1.miss_cnt = g.hit_cnt + g.miss_cnt + 1 ∧
      g.miss_cnt - g.evict_cnt ≤ g1.miss_cnt - g1.evict_cnt := by
  obtain ⟨lines, hset, hlen⟩ := WF_lookup h addr
  refine ⟨_, access_data_eq hset h.1 (le_of_eq hlen.symm), ⟨h.1, ?_, ?_⟩, rfl, rfl, rfl, ?_, ?_, ?_⟩
  · simpa using h.2.1
  · intro l hl
    rcases List.mem_or_eq_of_mem_set hl with hm | he
    · exact h.2.2 l hm
    · rw [he, resolve_length]; exact hlen
  · simp
  · rcases resolve_counts_cases lines (tag_of g.s g.b addr) g.E with hc | hc | hc <;>
      simp only [hc] <;> omega
  · rcases resolve_counts_cases lines (tag_of g.s g.b addr) g.E with hc | hc | hc <;>
      simp only [hc] <;> omega

theorem access_all_WF {g : Globals} (h : WF g) (addrs : List Nat) :
    ∃ g1, access_all g addrs = some g1 ∧ WF g1 ∧ g1.s = g.s ∧ g1.b = g.b ∧ g1.E = g.E ∧
      g1.hit_cnt + g1.miss_cnt = g.hit_cnt + g.miss_cnt + addrs.length ∧
      g.miss_cnt - g.evict_cnt ≤ g1.miss_cnt - g1.evict_cnt := by
  induction addrs generalizing g with
  | nil => exact ⟨g, rfl, h, rfl, rfl, rfl, by simp, le_refl _⟩
  | cons a rest ih =>
    obtain ⟨g1, h1, hwf1, hs1, hb1, hE1, _, hc1, hm1⟩ := access_data_WF h a
    obtain ⟨g2, h2, hwf2, hs2, hb2, hE2, hc2, hm2⟩ := ih hwf1
    refine ⟨g2, ?_, hwf2, hs2.trans hs1, hb2.trans hb1, hE2.trans hE1, ?_, ?_⟩
    · simp [access_all, h1, h2]
    · simp only [List.length_cons]; push_cast; omega
    · omega

/-! ## Counter conservation -/

/-- The three counters never decrease. -/
theorem access_data_mono {g : Globals} (h : WF g) (addr : Nat) :
    ∃ g1, access_data g addr = some g1 ∧ g.hit_cnt ≤ g1.hit_cnt ∧ g.miss_cnt ≤ g1.miss_cnt ∧
      g.evict_cnt ≤ g1.evict_cnt := by
  obtain ⟨lines, hset, hlen⟩ := WF_lookup h addr
  refine ⟨_, access_data_eq hset h.1 (le_of_eq hlen.symm), ?_, ?_, ?_⟩
  · rcases resolve_counts_cases lines (tag_of g.s g.b addr) g.E with hc | hc | hc <;>
      simp only [hc] <;> omega
  · rcases resolve_counts_cases lines (tag_of g.s g.b addr) g.E with hc | hc | hc <;>
      simp only [hc] <;> omega
  · rcases resolve_counts_cases lines (tag_of g.s g.b addr) g.E with hc | hc | hc <;>
      simp only [hc] <;> omega

theorem access_all_mono {g g1 : Globals} (h : WF g) (addrs : List Nat)
    (hrun : access_all g addrs = some g1) :
    g.hit_cnt ≤ g1.hit_cnt ∧ g.miss_cnt ≤ g1.miss_cnt ∧ g.evict_cnt ≤ g1.evict_cnt := by
  induction addrs generalizing g with
  | nil =>
    simp only [access_all, Option.some.injEq] at hrun
    subst hrun
    exact ⟨le_refl _, le_refl _, le_refl _⟩
  | cons a rest ih =>
    obtain ⟨g2, h2, hwf2, _⟩ := access_data_WF h a
    obtain ⟨g3, h3, m1, m2, m3⟩ := access_data_mono h a
    rw [h2] at h3
    have hg := Option.some.inj h3
    subst hg
    simp only [access_all, h2, Option.some_bind] at hrun
    obtain ⟨n1, n2, n3⟩ := ih hwf2 hrun
    exact ⟨le_trans m1 n1, le_trans m2 n2, le_trans m3 n3⟩

/-- Counters after `n` calls from the state that `init_cache` returns: they add up to `n`, and
each of them lies between `0` and `n`. -/
theorem fresh_counts (s E b : Nat) (addrs : List Nat) (hE : 1 ≤ E) :
    ∃ g, access_all (fresh_cache s E b) addrs = some g ∧
      g.hit_cnt + g.miss_cnt = addrs.length ∧ g.evict_cnt ≤ g.miss_cnt ∧
      0 ≤ g.hit_cnt ∧ 0 ≤ g.miss_cnt ∧ 0 ≤ g.evict_cnt := by
  obtain ⟨g, hg, _, _, _, _, hc, hm⟩ := access_all_WF (WF_init_cache s E b hE) addrs
  obtain ⟨m1, m2, m3⟩ := access_all_mono (WF_init_cache s E b hE) addrs hg
  have h0 : (fresh_cache s E b).hit_cnt = 0 ∧ (fresh_cache s E b).miss_cnt = 0 ∧
      (fresh_cache s E b).evict_cnt = 0 := ⟨rfl, rfl, rfl⟩
  obtain ⟨z1, z2, z3⟩ := h0
  rw [z1] at m1 hc
  rw [z2] at m2 hc hm
  rw [z3] at m3 hm
  refine ⟨g, hg, ?_, ?_, m1, m2, m3⟩
  · omega
  · omega

/-- C2 (amended). Counter conservation: for every geometry with `1 <= s <= 30` and `E >= 1` and
every sequence of `n < 2^31` `access_data` calls starting from the freshly initialised cache
with all three counters `0`, `init_cache` and the calls all return and afterwards
`hit_cnt + miss_cnt = n` and `evict_cnt <= miss_cnt`, every counter lying in the range
`0 .. 2^31 - 1` of a C `int`. -/
theorem C2_counter_conservation (s E b : Nat) (addrs : List Nat) (hs : 1 ≤ s) (hs30 : s ≤ 30)
    (hE : 1 ≤ E) (hn : addrs.length < 2 ^ 31) :
    ∃ g0 g, init_cache (startup s E b) = Except.ok g0 ∧ access_all g0 addrs = some g ∧
      g.hit_cnt + g.miss_cnt = addrs.length ∧ g.evict_cnt ≤ g.miss_cnt ∧
      (0 ≤ g.hit_cnt ∧ g.hit_cnt < 2 ^ 31) ∧ (0 ≤ g.miss_cnt ∧ g.miss_cnt < 2 ^ 31) ∧
      (0 ≤ g.evict_cnt ∧ g.evict_cnt < 2 ^ 31) := by
  obtain ⟨g, hg, hsum, hev, p1, p2, p3⟩ := fresh_counts s E b addrs hE
  have hn2 : (addrs.length : Int) < 2 ^ 31 := by exact_mod_cast hn
  refine ⟨fresh_cache s E b, g, init_cache_ok s E b hs hs30, hg, hsum, hev, ⟨p1, ?_⟩, ⟨p2, ?_⟩,
    ⟨p3, ?_⟩⟩
  · omega
  · omega
  · omega

theorem C2_counter_conservation_witness :
    ∃ g0 g, init_cache (startup 2 2 3) = Except.ok g0 ∧
      access_all g0 [0x10, 0x20, 0x10, 0x410, 0x810] = some g ∧
      g.hit_cnt + g.miss_cnt = ([0x10, 0x20, 0x10, 0x410, 0x810] : List Nat).length ∧
      g.evict_cnt ≤ g.miss_cnt ∧
      (0 ≤ g.hit_cnt ∧ g.hit_cnt < 2 ^ 31) ∧ (0 ≤ g.miss_cnt ∧ g.miss_cnt < 2 ^ 31) ∧
      (0 ≤ g.evict_cnt ∧ g.evict_cnt < 2 ^ 31) :=
  C2_counter_conservation 2 2 3 [0x10, 0x20, 0x10, 0x410, 0x810] (by decide) (by decide)
    (by decide) (by decide)

/-! ## Cold start -/

theorem line_at_replicate (E i : Nat) : line_at (List.replicate E fresh_line) i = fresh_line := by
  unfold line_at
  rw [List.getD_eq_getElem?_getD]
  by_cases h : i < E
  · simp [List.getElem?_replicate, h]
  · simp [List.getElem?_replicate, h]

theorem init_cache_lookup (s E b : Nat) (addr : Nat) :
    (fresh_cache s E b).cache[set_of s b addr]? = some (List.replicate E fresh_line) := by
  have hlt : set_of s b addr < 2 ^ s := set_of_lt _ _ _
  simp [fresh_cache, List.getElem?_replicate, hlt]

theorem not_resident_replicate (E tag : Nat) : ¬ resident (List.replicate E fresh_line) tag E := by
  rintro ⟨i, _, hv, _⟩
  rw [line_at_replicate] at hv
  exact hv rfl

theorem not_all_valid_replicate (E : Nat) (hE : 0 < E) :
    ¬ all_valid (List.replicate E fresh_line) E := by
  intro h
  have := h 0 hE
  rw [line_at_replicate] at this
  exact this rfl

/-- The first call on the cache produced by `init_cache` is a cold miss. -/
theorem first_access_cold (s E b addr : Nat) (hE : 1 ≤ E) :
    ∃ g, access_data (fresh_cache s E b) addr = some g ∧
      g.miss_cnt = 1 ∧ g.hit_cnt = 0 ∧ g.evict_cnt = 0 ∧ WF g ∧
      g.s = s ∧ g.b = b ∧ g.E = E := by
  have hset : (fresh_cache s E b).cache[set_of (fresh_cache s E b).s
      (fresh_cache s E b).b addr]? = some (List.replicate E fresh_line) :=
    init_cache_lookup s E b addr
  have hE2 : 0 < (fresh_cache s E b).E := hE
  have hlen : (fresh_cache s E b).E ≤ (List.replicate E fresh_line).length := by
    simp [fresh_cache]
  obtain ⟨g1, h1, hwf, hs1, hb1, hE1, _⟩ := access_data_WF (WF_init_cache s E b hE) addr
  have h2 := access_data_eq hset hE2 hlen
  have hc := resolve_counts_cold (not_resident_replicate E (tag_of s b addr))
    (not_all_valid_replicate E hE)
  have hs0 : (fresh_cache s E b).s = s := rfl
  have hb0 : (fresh_cache s E b).b = b := rfl
  have hE0 : (fresh_cache s E b).E = E := rfl
  rw [h2] at h1
  refine ⟨_, h2, ?_, ?_, ?_, ?_, ?_, ?_, ?_⟩
  · simp only [hs0, hb0, hE0, hc]; simp [fresh_cache]
  · simp only [hs0, hb0, hE0, hc]; simp [fresh_cache]
  · simp only [hs0, hb0, hE0, hc]; simp [fresh_cache]
  · rw [Option.some.inj h1]; exact hwf
  · rfl
  · rfl
  · rfl

/-- C5 (as stated, refuted). The geometry `s = 31`, `E = 1`, `b = 1` is valid in the sense of the
claim (`s >= 1`, `b >= 1`, `E >= 1`, `s + b < 64`), but `init_cache` computes `S = 2 << 30` in a
C `int`, which gives `-2^31`; the allocation of `S` sets fails and the run ends with `exit(1)`
(also seen from `main`): `init_cache` produces no cache, and no first access is a cold miss. -/
theorem C5_no_cache_at_s31 :
    (1 ≤ 31 ∧ 1 ≤ 1 ∧ 1 ≤ 1 ∧ 31 + 1 < 64) ∧
    shl_int 2 (((startup 31 1 1).s : Int) - 1) = -2147483648 ∧
    init_cache (startup 31 1 1) = Except.error 1 ∧
    main 31 1 1 (some "trace") (fun _ => some [" L 0,1"]) = Except.error 1 ∧
    ¬ ∃ g0 g, init_cache (startup 31 1 1) = Except.ok g0 ∧ access_data g0 0 = some g ∧
      g.miss_cnt = 1 ∧ g.hit_cnt = 0 ∧ g.evict_cnt = 0 := by
  refine ⟨by decide, by decide, init_cache_s31 1 1, rfl, ?_⟩
  rintro ⟨g0, g, h0, _⟩
  rw [init_cache_s31] at h0
  cases h0

/-- C5 (amended). Cold start: for every geometry with `1 <= s <= 30`, `b >= 1`, `E >= 1` and
`s + b < 64`, and every address, `init_cache` produces the cache and the first `access_data` call
on it returns and is a cold miss: afterwards `miss_cnt = 1`, `hit_cnt = 0` and
`evict_cnt = 0`. -/
theorem C5_cold_start (s E b addr : Nat) (hs : 1 ≤ s) (hs30 : s ≤ 30) (_hb : 1 ≤ b)
    (hE : 1 ≤ E) (_hsb : s + b < 64) :
    ∃ g0 g, init_cache (startup s E b) = Except.ok g0 ∧ access_data g0 addr = some g ∧
      g.miss_cnt = 1 ∧ g.hit_cnt = 0 ∧ g.evict_cnt = 0 := by
  obtain ⟨g, h1, h2, h3, h4, _⟩ := first_access_cold s E b addr hE
  exact ⟨fresh_cache s E b, g, init_cache_ok s E b hs hs30, h1, h2, h3, h4⟩

theorem C5_cold_start_witness :
    (1 ≤ 4 ∧ 4 ≤ 30 ∧ 1 ≤ 4 ∧ 1 ≤ 2 ∧ 4 + 4 < 64) ∧
      ∃ g0 g, init_cache (startup 4 2 4) = Except.ok g0 ∧
        access_data g0 0x7ff000398 = some g ∧
        g.miss_cnt = 1 ∧ g.hit_cnt = 0 ∧ g.evict_cnt = 0 :=
  ⟨by decide,
    C5_cold_start 4 2 4 0x7ff000398 (by decide) (by decide) (by decide) (by decide) (by decide)⟩

/-! ## Repeat hit -/

/-- Whatever branch is taken, the tag is resident in the set afterwards. -/
theorem resident_after_resolve {lines : List cache_line_t} {tag E : Nat} (hE : 0 < E)
    (hlen : E ≤ lines.length) : resident (resolve lines tag E).1 tag E := by
  cases hk : (scan lines tag E).hit_line with
  | some k =>
    obtain ⟨h1, h2, h3⟩ := scan_hit_some lines tag E k hk
    rw [resolve_hit_eq hk]
    refine ⟨k, h1, ?_, ?_⟩
    · rw [line_at_set _ _ _ _ (by omega)]; simpa using h2
    · rw [line_at_set _ _ _ _ (by omega)]; simpa using h3
  | none =>
    cases he : (scan lines tag E).empty_line with
    | some e =>
      obtain ⟨h1, _, _⟩ := scan_empty_some lines tag E e he
      rw [resolve_cold_eq hk he]
      refine ⟨e, h1, ?_, ?_⟩
      · rw [line_at_set _ _ _ _ (by omega)]; simp
      · rw [line_at_set _ _ _ _ (by omega)]; simp
    | none =>
      have hl : (scan lines tag E).leastrecent_line < E := by
        rcases (scan_least lines tag E).1 with h0 | ⟨h1, _⟩
        · omega
        · exact h1
      rw [resolve_evict_eq hk he]
      refine ⟨_, hl, ?_, ?_⟩
      · rw [line_at_set _ _ _ _ (by omega)]; simp
      · rw [line_at_set _ _ _ _ (by omega)]; simp

/-- Two consecutive calls with one address: the second is a hit. -/
theorem second_access_hit (g : Globals) (A : Nat) (lines : List cache_line_t)
    (hset : g.cache[set_of g.s g.b A]? = some lines) (hE : 1 ≤ g.E)
    (hlen : lines.length = g.E) :
    ∃ g1 g2, access_data g A = some g1 ∧ access_data g1 A = some g2 ∧
      g2.hit_cnt = g1.hit_cnt + 1 ∧ g2.miss_cnt = g1.miss_cnt ∧ g2.evict_cnt = g1.evict_cnt ∧
      ((g2.hit_cnt = g.hit_cnt + 2 ∧ g2.miss_cnt = g.miss_cnt ∧ g2.evict_cnt = g.evict_cnt) ∨
        (g2.hit_cnt = g.hit_cnt + 1 ∧ g2.miss_cnt = g.miss_cnt + 1 ∧
          (g2.evict_cnt = g.evict_cnt ∨ g2.evict_cnt = g.evict_cnt + 1))) := by
  have hlt : set_of g.s g.b A < g.cache.length := by
    rcases List.getElem?_eq_some.mp hset with ⟨h, _⟩
    exact h
  have h1 := access_data_eq hset hE (le_of_eq hlen.symm)
  set g1 : Globals := { g with
      hit_cnt := g.hit_cnt + (resolve lines (tag_of g.s g.b A) g.E).2.1
      miss_cnt := g.miss_cnt + (resolve lines (tag_of g.s g.b A) g.E).2.2.1
      evict_cnt := g.evict_cnt + (resolve lines (tag_of g.s g.b A) g.E).2.2.2
      cache := g.cache.set (set_of g.s g.b A) (resolve lines (tag_of g.s g.b A) g.E).1 }
    with hg1
  have hset1 : g1.cache[set_of g1.s g1.b A]? = some (resolve lines (tag_of g.s g.b A) g.E).1 := by
    simp [hg1, hlt]
  have hlen1 : g1.E ≤ (resolve lines (tag_of g.s g.b A) g.E).1.length := by
    rw [resolve_length]; exact le_of_eq hlen.symm
  have h2 := access_data_eq hset1 hE hlen1
  have hres : resident (resolve lines (tag_of g.s g.b A) g.E).1 (tag_of g1.s g1.b A) g1.E :=
    resident_after_resolve hE (le_of_eq hlen.symm)
  have hc2 := resolve_counts_hit hres
  refine ⟨g1, _, h1, h2, ?_, ?_, ?_, ?_⟩
  · simp only [hc2]
  · simp only [hc2]; simp
  · simp only [hc2]; simp
  · simp only [hc2]
    rcases resolve_counts_cases lines (tag_of g.s g.b A) g.E with hc | hc | hc
    · left; simp only [hg1, hc]; refine ⟨by omega, by omega, by omega⟩
    · right; simp only [hg1, hc]; refine ⟨by omega, by omega, Or.inl (by omega)⟩
    · right; simp only [hg1, hc]; refine ⟨by omega, by omega, Or.inr (by omega)⟩

/-! ## Trace replay -/

/-- A Load or Store line whose address converts: one call. -/
theorem replay_line_one {p : Globals × Nat} {buf : List Char} {a : Nat}
    (hk : kind_of buf = 'L' ∨ kind_of buf = 'S') (ha : sscanf_llx (buf.drop 3) = some a) :
    replay_line p buf = (access_data p.1 a).map (fun g1 => (g1, a)) := by
  unfold replay_line
  rcases hk with hk | hk
  · simp [hk, ha]
  · simp [hk, ha]

/-- A Modify line whose address converts: two calls with the same address. -/
theorem replay_line_two {p : Globals × Nat} {buf : List Char} {a : Nat}
    (hk : kind_of buf = 'M') (ha : sscanf_llx (buf.drop 3) = some a) :
    replay_line p buf =
      ((access_data p.1 a).bind (fun g1 => access_data g1 a)).map (fun g2 => (g2, a)) := by
  unfold replay_line
  simp [hk, ha]

/-- A line whose kind character is none of `S`, `L`, `M`: no call, nothing changes. -/
theorem replay_line_skip {p : Globals × Nat} {buf : List Char}
    (hS : kind_of buf ≠ 'S') (hL : kind_of buf ≠ 'L') (hM : kind_of buf ≠ 'M') :
    replay_line p buf = some p := by
  unfold replay_line
  simp [hS, hL, hM]

/-- Number of calls made for a line with kind character `k`. -/
theorem count_kind_cons (k : Char) (l : String) (rest : List String) :
    count_kind k (l :: rest) = (if kind_of l.toList = k then 1 else 0) + count_kind k rest := by
  unfold count_kind
  rw [List.filter_cons]
  by_cases h : kind_of l.toList = k
  · rw [if_pos (by simpa using h), if_pos h, List.length_cons]; omega
  · rw [if_neg (by simpa using h), if_neg h]; omega

theorem replay_line_WF {g : Globals} (h : WF g) (a0 : Nat) (buf : List Char) :
    ∃ p1, replay_line (g, a0) buf = some p1 ∧ WF p1.1 ∧
      p1.1.hit_cnt + p1.1.miss_cnt = g.hit_cnt + g.miss_cnt +
        ((if kind_of buf = 'L' then 1 else 0) + (if kind_of buf = 'S' then 1 else 0) +
          2 * (if kind_of buf = 'M' then 1 else 0) : Nat) := by
  by_cases hM : kind_of buf = 'M'
  · obtain ⟨g1, h1, hwf1, _, _, _, _, hc1, _⟩ :=
      access_data_WF h ((sscanf_llx (buf.drop 3)).getD a0)
    obtain ⟨g2, h2, hwf2, _, _, _, _, hc2, _⟩ :=
      access_data_WF hwf1 ((sscanf_llx (buf.drop 3)).getD a0)
    refine ⟨(g2, (sscanf_llx (buf.drop 3)).getD a0), ?_, hwf2, ?_⟩
    · simp [replay_line, hM, h1, h2]
    · simp only [hM]; simp only [if_true]
      rw [if_neg (by decide), if_neg (by decide)]
      push_cast; omega
  · by_cases hLS : kind_of buf = 'L' ∨ kind_of buf = 'S'
    · obtain ⟨g1, h1, hwf1, _, _, _, _, hc1, _⟩ :=
        access_data_WF h ((sscanf_llx (buf.drop 3)).getD a0)
      refine ⟨(g1, (sscanf_llx (buf.drop 3)).getD a0), ?_, hwf1, ?_⟩
      · rcases hLS with hk | hk
        · simp [replay_line, hk, h1]
        · simp [replay_line, hk, h1]
      · rcases hLS with hk | hk
        · simp only [hk]; simp only [if_true]
          rw [if_neg (by decide), if_neg (by decide)]
          push_cast; omega
        · simp only [hk]; simp only [if_true]
          rw [if_neg (by decide), if_neg (by decide)]
          push_cast; omega
    · have hL : kind_of buf ≠ 'L' := fun e => hLS (Or.inl e)
      have hS : kind_of buf ≠ 'S' := fun e => hLS (Or.inr e)
      refine ⟨(g, a0), replay_line_skip hS hL hM, h, ?_⟩
      simp [hL, hS, hM]

theorem replay_lines_WF {g : Globals} (h : WF g) (a0 : Nat) (trace : List String) :
    ∃ p1, replay_lines (g, a0) (trace.map String.toList) = some p1 ∧ WF p1.1 ∧
      p1.1.hit_cnt + p1.1.miss_cnt = g.hit_cnt + g.miss_cnt +
        (count_kind 'L' trace + count_kind 'S' trace + 2 * count_kind 'M' trace : Nat) := by
  induction trace generalizing g a0 with
  | nil => exact ⟨(g, a0), rfl, h, by simp [count_kind]⟩
  | cons l rest ih =>
    obtain ⟨p1, h1, hwf1, hc1⟩ := replay_line_WF h a0 l.toList
    obtain ⟨p2, h2, hwf2, hc2⟩ := ih hwf1 p1.2
    refine ⟨p2, ?_, hwf2, ?_⟩
    · rw [List.map_cons]
      simp only [replay_lines, h1, Option.some_bind]
      exact h2
    · rw [hc2, hc1, count_kind_cons, count_kind_cons, count_kind_cons]
      push_cast; ring

/-- C6. Repeat hit: on a state whose decoded set is allocated with its `E >= 1` lines, two
consecutive `access_data(A)` calls both return and the second is a hit (`hit_cnt + 1`,
`miss_cnt` and `evict_cnt` unchanged by the second call); so a Modify record with address `A`,
which `replay_trace` turns into these two calls, gives either two hits, or a miss (with a
possible eviction) followed by a hit. -/
theorem C6_repeat_hit (g : Globals) (A : Nat) (lines : List cache_line_t)
    (hset : g.cache[set_of g.s g.b A]? = some lines) (hE : 1 ≤ g.E)
    (hlen : lines.length = g.E) :
    ∃ g1 g2, access_data g A = some g1 ∧ access_data g1 A = some g2 ∧
      g2.hit_cnt = g1.hit_cnt + 1 ∧ g2.miss_cnt = g1.miss_cnt ∧ g2.evict_cnt = g1.evict_cnt ∧
      ((g2.hit_cnt = g.hit_cnt + 2 ∧ g2.miss_cnt = g.miss_cnt ∧ g2.evict_cnt = g.evict_cnt) ∨
        (g2.hit_cnt = g.hit_cnt + 1 ∧ g2.miss_cnt = g.miss_cnt + 1 ∧
          (g2.evict_cnt = g.evict_cnt ∨ g2.evict_cnt = g.evict_cnt + 1))) ∧
      ∀ (buf : List Char) (addr0 : Nat), kind_of buf = 'M' →
        sscanf_llx (buf.drop 3) = some A → replay_line (g, addr0) buf = some (g2, A) := by
  obtain ⟨g1, g2, h1, h2, hh, hm, he, hcases⟩ := second_access_hit g A lines hset hE hlen
  refine ⟨g1, g2, h1, h2, hh, hm, he, hcases, ?_⟩
  intro buf addr0 hk ha
  rw [replay_line_two hk ha]
  simp only [h1, Option.some_bind, h2, Option.map_some']

theorem C6_repeat_hit_witness :
    ∃ g1 g2, access_data (fresh_cache 1 1 1) 6 = some g1 ∧
      access_data g1 6 = some g2 ∧
      g2.hit_cnt = g1.hit_cnt + 1 ∧ g2.miss_cnt = g1.miss_cnt ∧ g2.evict_cnt = g1.evict_cnt ∧
      ((g2.hit_cnt = (fresh_cache 1 1 1).hit_cnt + 2 ∧
          g2.miss_cnt = (fresh_cache 1 1 1).miss_cnt ∧
          g2.evict_cnt = (fresh_cache 1 1 1).evict_cnt) ∨
        (g2.hit_cnt = (fresh_cache 1 1 1).hit_cnt + 1 ∧
          g2.miss_cnt = (fresh_cache 1 1 1).miss_cnt + 1 ∧
          (g2.evict_cnt = (fresh_cache 1 1 1).evict_cnt ∨
            g2.evict_cnt = (fresh_cache 1 1 1).evict_cnt + 1))) ∧
      ∀ (buf : List Char) (addr0 : Nat), kind_of buf = 'M' →
        sscanf_llx (buf.drop 3) = some 6 →
        replay_line (fresh_cache 1 1 1, addr0) buf = some (g2, 6) :=
  C6_repeat_hit (fresh_cache 1 1 1) 6 [fresh_line] rfl (by decide) rfl

/-- C8. Record translation: for every cache state and every trace line whose address field
converts to `a`, the per-line step of `replay_trace` is exactly one `access_data(a)` call when
the kind character is `L` or `S`, exactly two `access_data(a)` calls with the same address when
it is `M`, and leaves the cache lines and all counters unchanged when it is `I` (or any
character other than `S`, `L`, `M`, as for an instruction line, whose `I` is in column 0); and
a whole trace with `#L + #S + 2 * #M < 2^31` replayed on the cache that `init_cache` produces
(`1 <= s <= 30`, `E >= 1`) ends with `hit_cnt + miss_cnt = #L + #S + 2 * #M`, a total within
the range of the C `int` counters. -/
theorem C8_record_translation (g : Globals) (addr0 : Nat) (buf : List Char) (a : Nat)
    (s E b : Nat) (trace : List String)
    (ha : sscanf_llx (buf.drop 3) = some a) (hs : 1 ≤ s) (hs30 : s ≤ 30) (hE : 1 ≤ E)
    (hcalls :
      count_kind 'L' trace + count_kind 'S' trace + 2 * count_kind 'M' trace < 2 ^ 31) :
    ((kind_of buf = 'L' ∨ kind_of buf = 'S') →
      replay_line (g, addr0) buf = (access_data g a).map (fun g1 => (g1, a))) ∧
    (kind_of buf = 'M' →
      replay_line (g, addr0) buf =
        ((access_data g a).bind (fun g1 => access_data g1 a)).map (fun g2 => (g2, a))) ∧
    (kind_of buf = 'I' → replay_line (g, addr0) buf = some (g, addr0)) ∧
    (kind_of buf ≠ 'S' → kind_of buf ≠ 'L' → kind_of buf ≠ 'M' →
      replay_line (g, addr0) buf = some (g, addr0)) ∧
    ∃ g0 g1, init_cache (startup s E b) = Except.ok g0 ∧ replay_trace g0 trace = some g1 ∧
      g1.hit_cnt + g1.miss_cnt =
        (count_kind 'L' trace + count_kind 'S' trace + 2 * count_kind 'M' trace : Nat) ∧
      g1.hit_cnt + g1.miss_cnt < 2 ^ 31 := by
  refine ⟨fun hk => replay_line_one hk ha, fun hk => replay_line_two hk ha, fun hk => ?_,
    fun hS hL hM => replay_line_skip hS hL hM, ?_⟩
  · exact replay_line_skip (by rw [hk]; decide) (by rw [hk]; decide) (by rw [hk]; decide)
  · obtain ⟨p1, h1, _, hc⟩ := replay_lines_WF (WF_init_cache s E b hE) 0 trace
    have hsum : p1.1.hit_cnt + p1.1.miss_cnt =
        (count_kind 'L' trace + count_kind 'S' trace + 2 * count_kind 'M' trace : Nat) := by
      simpa [fresh_cache] using hc
    refine ⟨fresh_cache s E b, p1.1, init_cache_ok s E b hs hs30, by simp [replay_trace, h1],
      hsum, ?_⟩
    rw [hsum]
    exact_mod_cast hcalls

theorem C8_record_translation_witness :
    replay_line (fresh_cache 1 1 1, 0) " M 10,1".toList =
      ((access_data (fresh_cache 1 1 1) 16).bind
        (fun g1 => access_data g1 16)).map (fun g2 => (g2, 16)) ∧
    ∃ g0 g1, init_cache (startup 1 2 3) = Except.ok g0 ∧
      replay_trace g0 [" L 10,1", " M 20,1", "I 0,4"] = some g1 ∧
      g1.hit_cnt + g1.miss_cnt =
        (count_kind 'L' [" L 10,1", " M 20,1", "I 0,4"] +
          count_kind 'S' [" L 10,1", " M 20,1", "I 0,4"] +
          2 * count_kind 'M' [" L 10,1", " M 20,1", "I 0,4"] : Nat) ∧
      g1.hit_cnt + g1.miss_cnt < 2 ^ 31 :=
  ⟨(C8_record_translation (fresh_cache 1 1 1) 0 " M 10,1".toList 16 1 2 3
      [" L 10,1", " M 20,1", "I 0,4"] (by decide) (by decide) (by decide) (by decide)
      (by decide)).2.1 (by decide),
   (C8_record_translation (fresh_cache 1 1 1) 0 " M 10,1".toList 16 1 2 3
      [" L 10,1", " M 20,1", "I 0,4"] (by decide) (by decide) (by decide) (by decide)
      (by decide)).2.2.2.2⟩

/-! ## Scenarios -/

/-- C9 (as stated, refuted). The geometry `s = 31`, `E = 1`, `b = 1` is valid in the sense of the
claim (`s >= 1`, `b >= 1`, `E >= 1`, `s + b < 64`), but there `init_cache` ends the run with
`exit(1)` (its `int` value `S = 2 << 30` is negative and the allocation fails): the record
`M 10,1` is never replayed, no access is made and no counter is reported. -/
theorem C9_no_replay_at_s31 :
    (1 ≤ 31 ∧ 1 ≤ 1 ∧ 1 ≤ 1 ∧ 31 + 1 < 64) ∧
    init_cache (startup 31 1 1) = Except.error 1 ∧
    main 31 1 1 (some "trace") (fun _ => some [" M 10,1"]) = Except.error 1 ∧
    ¬ ∃ g0 g2, init_cache (startup 31 1 1) = Except.ok g0 ∧
      replay_trace g0 [" M 10,1"] = some g2 ∧
      g2.hit_cnt = 1 ∧ g2.miss_cnt = 1 ∧ g2.evict_cnt = 0 := by
  refine ⟨by decide, init_cache_s31 1 1, rfl, ?_⟩
  rintro ⟨g0, g2, h0, _⟩
  rw [init_cache_s31] at h0
  cases h0

/-- C9 (amended). Modify-record scenario: for every geometry with `1 <= s <= 30`, `b >= 1`,
`E >= 1` and `s + b < 64`, `init_cache` produces the cache, and replaying the single record
`M 10,1` (the trace line is written with its leading blank, with or without the line feed) on
it makes exactly two `access_data(0x10)` calls, the first a cold miss and the second a hit, and
ends with `hit_cnt = 1`, `miss_cnt = 1`, `evict_cnt = 0`. -/
theorem C9_modify_scenario (s E b : Nat) (hs : 1 ≤ s) (hs30 : s ≤ 30) (_hb : 1 ≤ b)
    (hE : 1 ≤ E) (_hsb : s + b < 64) :
    ∃ g0 g1 g2, init_cache (startup s E b) = Except.ok g0 ∧
      access_data g0 0x10 = some g1 ∧
      (g1.hit_cnt = 0 ∧ g1.miss_cnt = 1 ∧ g1.evict_cnt = 0) ∧
      access_data g1 0x10 = some g2 ∧
      (g2.hit_cnt = 1 ∧ g2.miss_cnt = 1 ∧ g2.evict_cnt = 0) ∧
      replay_trace g0 [" M 10,1"] = some g2 ∧
      replay_trace g0 [" M 10,1\n"] = some g2 := by
  obtain ⟨g1, h1, hm1, hh1, he1, _⟩ := first_access_cold s E b 0x10 hE
  obtain ⟨g1b, g2, h1b, h2, hh2, hm2, he2, _⟩ :=
    second_access_hit (fresh_cache s E b) 0x10 (List.replicate E fresh_line)
      (init_cache_lookup s E b 0x10) hE (by simp [fresh_cache])
  have hg : g1b = g1 := by
    rw [h1] at h1b; exact (Option.some.inj h1b).symm
  subst hg
  have hrun : ((access_data (fresh_cache s E b) 0x10).bind
      (fun g => access_data g 0x10)) = some g2 := by
    rw [h1]; exact h2
  refine ⟨fresh_cache s E b, g1b, g2, init_cache_ok s E b hs hs30, h1, ⟨hh1, hm1, he1⟩, h2,
    ⟨by omega, by omega, by omega⟩, ?_, ?_⟩
  · have hl : replay_line (fresh_cache s E b, 0) " M 10,1".toList =
        ((access_data (fresh_cache s E b) 0x10).bind
          (fun g => access_data g 0x10)).map (fun g2 => (g2, 0x10)) :=
      replay_line_two (by decide) (by decide)
    simp only [replay_trace, List.map_cons, List.map_nil, replay_lines, hl, hrun]
    rfl
  · have hl : replay_line (fresh_cache s E b, 0) " M 10,1\n".toList =
        ((access_data (fresh_cache s E b) 0x10).bind
          (fun g => access_data g 0x10)).map (fun g2 => (g2, 0x10)) :=
      replay_line_two (by decide) (by decide)
    simp only [replay_trace, List.map_cons, List.map_nil, replay_lines, hl, hrun]
    rfl

theorem C9_modify_scenario_witness :
    ∃ g0 g1 g2, init_cache (startup 5 1 5) = Except.ok g0 ∧
      access_data g0 0x10 = some g1 ∧
      (g1.hit_cnt = 0 ∧ g1.miss_cnt = 1 ∧ g1.evict_cnt = 0) ∧
      access_data g1 0x10 = some g2 ∧
      (g2.hit_cnt = 1 ∧ g2.miss_cnt = 1 ∧ g2.evict_cnt = 0) ∧
      replay_trace g0 [" M 10,1"] = some g2 ∧
      replay_trace g0 [" M 10,1\n"] = some g2 :=
  C9_modify_scenario 5 1 5 (by decide) (by decide) (by decide) (by decide) (by decide)

/-- C10. End-to-end scenario: with `s = 1`, `E = 1`, `b = 1`, replaying `L 0,1`, `L 0,1`,
`L 2,1` on the freshly initialised cache makes the calls `access_data(0)`, `access_data(0)`,
`access_data(2)`: a cold miss, a hit, and, address 2 decoding to set 1 and tag 0, another cold
miss; the final counters are `hit_cnt = 1`, `miss_cnt = 2`, `evict_cnt = 0`. -/
theorem C10_end_to_end :
    ∃ g0 g1 g2 g3, init_cache (startup 1 1 1) = Except.ok g0 ∧
      access_data g0 0 = some g1 ∧
      (g1.hit_cnt = 0 ∧ g1.miss_cnt = 1 ∧ g1.evict_cnt = 0) ∧
      access_data g1 0 = some g2 ∧
      (g2.hit_cnt = 1 ∧ g2.miss_cnt = 1 ∧ g2.evict_cnt = 0) ∧
      (set_of 1 1 2 = 1 ∧ tag_of 1 1 2 = 0) ∧
      access_data g2 2 = some g3 ∧
      (g3.hit_cnt = 1 ∧ g3.miss_cnt = 2 ∧ g3.evict_cnt = 0) ∧
      replay_trace g0 [" L 0,1", " L 0,1", " L 2,1"] = some g3 :=
  ⟨fresh_cache 1 1 1,
    { b := 1, s := 1, E := 1, B := 2, S := 2, hit_cnt := 0, miss_cnt := 1, evict_cnt := 0,
      cache := [[{ valid := '1', tag := 0, counter := 1 }], [fresh_line]] },
    { b := 1, s := 1, E := 1, B := 2, S := 2, hit_cnt := 1, miss_cnt := 1, evict_cnt := 0,
      cache := [[{ valid := '1', tag := 0, counter := 2 }], [fresh_line]] },
    { b := 1, s := 1, E := 1, B := 2, S := 2, hit_cnt := 1, miss_cnt := 2, evict_cnt := 0,
      cache := [[{ valid := '1', tag := 0, counter := 2 }],
        [{ valid := '1', tag := 0, counter := 1 }]] },
    init_cache_ok 1 1 1 (by decide) (by decide),
    by decide, by decide, by decide, by decide, by decide, by decide, by decide, by decide⟩

/-! ## Access history and recency counters -/

theorem last_touch_nil (s b set tag : Nat) : last_touch s b set tag [] = 0 := rfl

theorem last_touch_snoc (s b set tag : Nat) (pre : List Nat) (a : Nat) :
    last_touch s b set tag (pre ++ [a]) =
      if set_of s b a = set ∧ tag_of s b a = tag then pre.length + 1
      else last_touch s b set tag pre := by
  simp [last_touch, last_touch_rev]

theorem last_touch_rev_le (s b set tag : Nat) (l : List Nat) :
    last_touch_rev s b set tag l ≤ l.length := by
  induction l with
  | nil => simp [last_touch_rev]
  | cons a older ih =>
    unfold last_touch_rev
    split_ifs
    · simp
    · simp only [List.length_cons]; omega

theorem last_touch_le (s b set tag : Nat) (pre : List Nat) :
    last_touch s b set tag pre ≤ pre.length := by
  have := last_touch_rev_le s b set tag pre.reverse
  simpa [last_touch] using this

/-- Meaning of `last_touch`: when it is `k + 1`, call number `k` (from 0) decodes to
`(set, tag)` and no later call does. -/
theorem last_touch_spec (s b set tag : Nat) (pre : List Nat) (k : Nat)
    (h : last_touch s b set tag pre = k + 1) :
    (∃ a, pre[k]? = some a ∧ set_of s b a = set ∧ tag_of s b a = tag) ∧
      ∀ j a, k < j → pre[j]? = some a → ¬(set_of s b a = set ∧ tag_of s b a = tag) := by
  induction pre using List.reverseRecOn with
  | nil => simp [last_touch_nil] at h
  | append_singleton pre x ih =>
    rw [last_touch_snoc] at h
    by_cases hx : set_of s b x = set ∧ tag_of s b x = tag
    · rw [if_pos hx] at h
      have hk : k = pre.length := by omega
      subst hk
      refine ⟨⟨x, by simp, hx⟩, ?_⟩
      intro j a hj hja
      have : j < (pre ++ [x]).length := (List.getElem?_eq_some.mp hja).1
      simp at this
      omega
    · rw [if_neg hx] at h
      obtain ⟨⟨a, ha, hdec⟩, hlater⟩ := ih h
      have hklt : k < pre.length := (List.getElem?_eq_some.mp ha).1
      refine ⟨⟨a, by rw [List.getElem?_append_left hklt]; exact ha, hdec⟩, ?_⟩
      intro j a2 hj hja
      by_cases hjl : j < pre.length
      · rw [List.getElem?_append_left hjl] at hja
        exact hlater j a2 hj hja
      · have hjlen : j < (pre ++ [x]).length := (List.getElem?_eq_some.mp hja).1
        simp at hjlen
        have hje : j = pre.length := by omega
        subst hje
        simp at hja
        subst hja
        exact hx

/-- The counter written by a call exceeds the counter of every valid slot. -/
theorem counter_lt_new_counter (lines : List cache_line_t) (tag E i : Nat) (hi : i < E)
    (hv : (line_at lines i).valid ≠ '0') :
    (line_at lines i).counter < new_counter lines tag E := by
  have := (scan_most lines tag E).2.2 i hi hv
  unfold new_counter
  omega

/-- Shape of the update made by one call on a set without duplicate resident tags: exactly one
slot `k` is rewritten, it ends valid with the accessed tag and the new counter, and no other
valid slot holds that tag. -/
theorem resolve_shape {lines : List cache_line_t} {E : Nat} (tag : Nat) (hE : 0 < E)
    (hlen : lines.length = E)
    (hdup : ∀ i j, i < E → j < E → (line_at lines i).valid ≠ '0' →
      (line_at lines j).valid ≠ '0' → (line_at lines i).tag = (line_at lines j).tag → i = j) :
    ∃ k nl, k < E ∧ (resolve lines tag E).1 = lines.set k nl ∧ nl.valid ≠ '0' ∧ nl.tag = tag ∧
      nl.counter = new_counter lines tag E ∧
      ∀ i, i < E → i ≠ k → (line_at lines i).valid ≠ '0' → (line_at lines i).tag ≠ tag := by
  cases hk : (scan lines tag E).hit_line with
  | some k =>
    obtain ⟨h1, h2, h3⟩ := scan_hit_some lines tag E k hk
    refine ⟨k, _, h1, by rw [resolve_hit_eq hk], by simpa using h2, by simpa using h3, rfl, ?_⟩
    intro i hi hik hv ht
    exact hik (hdup i k hi h1 hv h2 (ht.trans h3.symm))
  | none =>
    have hnone := (scan_hit_none_iff lines tag E).mp hk
    cases he : (scan lines tag E).empty_line with
    | some e =>
      obtain ⟨h1, _, _⟩ := scan_empty_some lines tag E e he
      refine ⟨e, _, h1, by rw [resolve_cold_eq hk he], by simp, rfl, rfl, ?_⟩
      intro i hi _ hv ht
      exact hnone i hi ⟨hv, ht⟩
    | none =>
      have hl : (scan lines tag E).leastrecent_line < E := by
        rcases (scan_least lines tag E).1 with h0 | ⟨h1, _⟩
        · omega
        · exact h1
      refine ⟨_, _, hl, by rw [resolve_evict_eq hk he], by simp, rfl, rfl, ?_⟩
      intro i hi _ hv ht
      exact hnone i hi ⟨hv, ht⟩

theorem set_inv_nodup {s b E : Nat} {pre : List Nat} {set : Nat} {lines : List cache_line_t}
    (h : set_inv s b E pre set lines) :
    ∀ i j, i < E → j < E → (line_at lines i).valid ≠ '0' →
      (line_at lines j).valid ≠ '0' → (line_at lines i).tag = (line_at lines j).tag → i = j := by
  intro i j hi hj hvi hvj ht
  exact h.2.1 i j hi hj hvi hvj (by rw [ht])

/-- A call that decodes to this set keeps the invariant of the set. -/
theorem set_inv_step_same {s b E : Nat} {pre : List Nat} {lines : List cache_line_t} (a : Nat)
    (hE : 0 < E) (h : set_inv s b E pre (set_of s b a) lines) :
    set_inv s b E (pre ++ [a]) (set_of s b a) (resolve lines (tag_of s b a) E).1 := by
  obtain ⟨hlen, hinj, hpos, hord⟩ := h
  obtain ⟨k, nl, hk, hres, hnv, hnt, hnc, hother⟩ :=
    resolve_shape (tag_of s b a) hE hlen (set_inv_nodup ⟨hlen, hinj, hpos, hord⟩)
  have hkl : k < lines.length := by omega
  rw [hres]
  -- the touched slot: its tag was accessed last
  have hltk : last_touch s b (set_of s b a) nl.tag (pre ++ [a]) = pre.length + 1 := by
    rw [last_touch_snoc, if_pos ⟨rfl, hnt.symm⟩]
  -- any other valid slot keeps its last access
  have hlto : ∀ i, i < E → i ≠ k → (line_at lines i).valid ≠ '0' →
      last_touch s b (set_of s b a) (line_at lines i).tag (pre ++ [a]) =
        last_touch s b (set_of s b a) (line_at lines i).tag pre := by
    intro i hi hik hv
    rw [last_touch_snoc, if_neg]
    rintro ⟨_, ht⟩
    exact hother i hi hik hv ht.symm
  have hle : ∀ t, last_touch s b (set_of s b a) t pre ≤ pre.length :=
    fun t => last_touch_le _ _ _ _ _
  refine ⟨by simp [hlen], ?_, ?_, ?_⟩
  · intro i j hi hj hvi hvj heq
    rw [line_at_set _ _ _ _ hkl] at hvi hvj heq
    rw [line_at_set _ _ _ _ hkl] at heq
    by_cases hik : i = k <;> by_cases hjk : j = k
    · omega
    · simp only [hik, hjk, if_true, if_false] at hvj heq
      rw [hltk, hlto j hj hjk hvj] at heq
      have := hle (line_at lines j).tag
      omega
    · simp only [hik, hjk, if_true, if_false] at hvi heq
      rw [hltk, hlto i hi hik hvi] at heq
      have := hle (line_at lines i).tag
      omega
    · simp only [hik, hjk, if_false] at hvi hvj heq
      rw [hlto i hi hik hvi, hlto j hj hjk hvj] at heq
      exact hinj i j hi hj hvi hvj heq
  · intro i hi hvi
    rw [line_at_set _ _ _ _ hkl] at hvi ⊢
    by_cases hik : i = k
    · simp only [hik, if_true]; rw [hltk]; omega
    · simp only [hik, if_false] at hvi ⊢
      rw [hlto i hi hik hvi]
      exact hpos i hi hvi
  · intro i j hi hj hvi hvj
    rw [line_at_set _ _ _ _ hkl] at hvi hvj
    rw [line_at_set _ _ _ _ hkl, line_at_set _ _ _ _ hkl]
    by_cases hik : i = k <;> by_cases hjk : j = k
    · simp only [hik, hjk, if_true]; simp
    · simp only [hik, hjk, if_true, if_false] at hvj ⊢
      rw [hltk, hlto j hj hjk hvj, hnc]
      have h1 := counter_lt_new_counter lines (tag_of s b a) E j hj hvj
      have h2 := hle (line_at lines j).tag
      constructor
      · intro h; omega
      · intro h; omega
    · simp only [hik, hjk, if_true, if_false] at hvi ⊢
      rw [hltk, hlto i hi hik hvi, hnc]
      have h1 := counter_lt_new_counter lines (tag_of s b a) E i hi hvi
      have h2 := hle (line_at lines i).tag
      constructor
      · intro _; omega
      · intro _; omega
    · simp only [hik, hjk, if_false] at hvi hvj ⊢
      rw [hlto i hi hik hvi, hlto j hj hjk hvj]
      exact hord i j hi hj hvi hvj

/-- A call that decodes to another set keeps the invariant of this set. -/
theorem set_inv_step_other {s b E : Nat} {pre : List Nat} {set : Nat}
    {lines : List cache_line_t} (a : Nat) (hne : set_of s b a ≠ set)
    (h : set_inv s b E pre set lines) : set_inv s b E (pre ++ [a]) set lines := by
  have hlt : ∀ t, last_touch s b set t (pre ++ [a]) = last_touch s b set t pre := by
    intro t
    rw [last_touch_snoc, if_neg]
    rintro ⟨h1, _⟩
    exact hne h1
  unfold set_inv
  simp only [hlt]
  exact h

theorem cache_inv_init (s E b : Nat) (hE : 0 < E) :
    cache_inv s b E [] (fresh_cache s E b) := by
  refine ⟨WF_init_cache s E b hE, rfl, rfl, rfl, ?_⟩
  intro set lines hl
  have hmem : lines ∈ (fresh_cache s E b).cache := List.getElem?_mem hl
  simp only [fresh_cache] at hmem
  rw [List.eq_of_mem_replicate hmem]
  refine ⟨by simp, ?_, ?_, ?_⟩
  · intro i j _ _ hvi
    rw [line_at_replicate] at hvi
    exact absurd rfl hvi
  · intro i _ hvi
    rw [line_at_replicate] at hvi
    exact absurd rfl hvi
  · intro i j _ _ hvi
    rw [line_at_replicate] at hvi
    exact absurd rfl hvi

/-- One call keeps the invariant, the history growing by the address of the call. -/
theorem cache_inv_step {s b E : Nat} {pre : List Nat} {g : Globals}
    (h : cache_inv s b E pre g) (a : Nat) :
    ∃ g1, access_data g a = some g1 ∧ cache_inv s b E (pre ++ [a]) g1 := by
  obtain ⟨hwf, hs, hb, hEq, hsets⟩ := h
  obtain ⟨lines, hset, hlen⟩ := WF_lookup hwf a
  obtain ⟨g1, h1, hwf1, hs1, hb1, hE1, _⟩ := access_data_WF hwf a
  have h2 := access_data_eq hset hwf.1 (le_of_eq hlen.symm)
  refine ⟨g1, h1, hwf1, hs1.trans hs, hb1.trans hb, hE1.trans hEq, ?_⟩
  rw [h2] at h1
  have hg1 := Option.some.inj h1
  intro set L hL
  rw [← hg1] at hL
  simp only at hL
  have hE0 : 0 < E := by rw [← hEq]; exact hwf.1
  by_cases hsame : set_of g.s g.b a = set
  · subst hsame
    have hlt : set_of g.s g.b a < g.cache.length := (List.getElem?_eq_some.mp hset).1
    rw [List.getElem?_set_self hlt] at hL
    have hLe := Option.some.inj hL
    rw [← hLe]
    have hinv := hsets _ _ hset
    rw [hs, hb, hEq] at *
    exact set_inv_step_same a hE0 hinv
  · rw [List.getElem?_set_ne hsame] at hL
    have hinv := hsets _ _ hL
    rw [hs, hb] at hsame
    exact set_inv_step_other a hsame hinv

theorem access_all_append (g : Globals) (l1 l2 : List Nat) :
    access_all g (l1 ++ l2) = (access_all g l1).bind (fun g1 => access_all g1 l2) := by
  induction l1 generalizing g with
  | nil => simp [access_all]
  | cons a rest ih =>
    simp only [List.cons_append, access_all]
    cases access_data g a with
    | none => simp
    | some g1 => simp [ih]

theorem cache_inv_all {s b E : Nat} {pre : List Nat} {g : Globals}
    (h : cache_inv s b E pre g) (rest : List Nat) :
    ∃ g1, access_all g rest = some g1 ∧ cache_inv s b E (pre ++ rest) g1 := by
  induction rest generalizing g pre with
  | nil => exact ⟨g, rfl, by simpa using h⟩
  | cons a rest ih =>
    obtain ⟨g1, h1, hinv1⟩ := cache_inv_step h a
    obtain ⟨g2, h2, hinv2⟩ := ih hinv1
    refine ⟨g2, by simp [access_all, h1, h2], ?_⟩
    simpa using hinv2

/-- Every state reached from the initialised cache satisfies the invariant. -/
theorem cache_inv_reach (s E b : Nat) (hE : 0 < E) (pre : List Nat) :
    ∃ g, access_all (fresh_cache s E b) pre = some g ∧ cache_inv s b E pre g := by
  obtain ⟨g, h1, h2⟩ := cache_inv_all (cache_inv_init s E b hE) pre
  exact ⟨g, h1, by simpa using h2⟩

/-! ## LRU victim selection -/

/-- In the eviction branch the slot that is overwritten is the one whose tag was accessed least
recently. -/
theorem evict_least_recent {s b E : Nat} {pre : List Nat} {g : Globals} {lines : List cache_line_t}
    (addr : Nat) (hinv : cache_inv s b E pre g)
    (hset : g.cache[set_of s b addr]? = some lines)
    (hnr : ¬ resident lines (tag_of s b addr) E) (hav : all_valid lines E) :
    ∃ v g1, v < E ∧ access_data g addr = some g1 ∧ g1.evict_cnt = g.evict_cnt + 1 ∧
      g1.cache[set_of s b addr]? = some (lines.set v
        { valid := '1', tag := tag_of s b addr,
          counter := new_counter lines (tag_of s b addr) E }) ∧
      1 ≤ last_touch s b (set_of s b addr) (line_at lines v).tag pre ∧
      ∀ i, i < E → i ≠ v →
        last_touch s b (set_of s b addr) (line_at lines v).tag pre <
          last_touch s b (set_of s b addr) (line_at lines i).tag pre := by
  obtain ⟨hwf, hs, hb, hEq, hsets⟩ := hinv
  obtain ⟨hlen, hinj, hpos, hord⟩ := hsets _ _ hset
  have hE0 : 0 < E := by rw [← hEq]; exact hwf.1
  have hset2 : g.cache[set_of g.s g.b addr]? = some lines := by rw [hs, hb]; exact hset
  have hacc := access_data_eq hset2 hwf.1 (by rw [hEq, hlen])
  rw [hs, hb, hEq] at hacc
  have hk := hit_line_none_of_not_resident hnr
  have he := empty_line_none_of_all_valid (tag_of s b addr) hav
  have hlt : set_of s b addr < g.cache.length := (List.getElem?_eq_some.mp hset).1
  have hv : (scan lines (tag_of s b addr) E).leastrecent_line < E := by
    rcases (scan_least lines (tag_of s b addr) E).1 with h0 | ⟨h1, _⟩
    · omega
    · exact h1
  refine ⟨(scan lines (tag_of s b addr) E).leastrecent_line, _, hv, hacc, ?_, ?_, ?_, ?_⟩
  · simp [resolve_evict_eq hk he]
  · simp [resolve_evict_eq hk he, hlt]
  · exact hpos _ hv (hav _ hv)
  · intro i hi hne
    have hle := (scan_least lines (tag_of s b addr) E).2.2 i hi (hav i hi)
    have hvv := hav _ hv
    have hvi := hav i hi
    rcases lt_or_eq_of_le hle with hlt2 | heq
    · exact (hord _ i hv hi hvv hvi).mp hlt2
    · have h1 := hord _ i hv hi hvv hvi
      have h2 := hord i _ hi hv hvi hvv
      have hneq : last_touch s b (set_of s b addr)
          (line_at lines (scan lines (tag_of s b addr) E).leastrecent_line).tag pre ≠
          last_touch s b (set_of s b addr) (line_at lines i).tag pre := by
        intro hc
        exact hne (hinj _ _ hv hi hvv hvi hc).symm
      have h3 : ¬ (line_at lines (scan lines (tag_of s b addr) E).leastrecent_line).counter <
          (line_at lines i).counter := by omega
      have h4 : ¬ (line_at lines i).counter <
          (line_at lines (scan lines (tag_of s b addr) E).leastrecent_line).counter := by omega
      have h5 := mt h1.mpr h3
      have h6 := mt h2.mpr h4
      omega

/-- C1. LRU victim selection: for every geometry with `E >= 1` in which `init_cache` produces
the cache (`1 <= s <= 30`, where `S = 2 << (s-1)` is `2^s` in a C `int`) and every finite
sequence `pre` of `access_data` calls starting from that cache, the calls return a state `g`,
and whenever the next call `access_data(addr)` takes the eviction branch (no valid
line of the decoded set holds the tag and every line of the set is valid), it overwrites exactly
one slot `v` of that set, and the tag held by `v` is the resident tag whose most recent access
in `pre` is the earliest: it was accessed, and strictly before the most recent access of the tag
of every other slot. -/
theorem C1_lru_victim (s E b : Nat) (pre : List Nat) (addr : Nat) (hs : 1 ≤ s) (hs30 : s ≤ 30)
    (hE : 1 ≤ E) :
    ∃ g0, init_cache (startup s E b) = Except.ok g0 ∧
    ∃ g lines, access_all g0 pre = some g ∧
      g.cache[set_of s b addr]? = some lines ∧ lines.length = E ∧
      (¬ resident lines (tag_of s b addr) E → all_valid lines E →
        ∃ v g1, v < E ∧ access_data g addr = some g1 ∧ g1.evict_cnt = g.evict_cnt + 1 ∧
          g1.cache[set_of s b addr]? = some (lines.set v
            { valid := '1', tag := tag_of s b addr,
              counter := new_counter lines (tag_of s b addr) E }) ∧
          1 ≤ last_touch s b (set_of s b addr) (line_at lines v).tag pre ∧
          ∀ i, i < E → i ≠ v →
            last_touch s b (set_of s b addr) (line_at lines v).tag pre <
              last_touch s b (set_of s b addr) (line_at lines i).tag pre) := by
  refine ⟨fresh_cache s E b, init_cache_ok s E b hs hs30, ?_⟩
  obtain ⟨g, hrun, hinv⟩ := cache_inv_reach s E b hE pre
  obtain ⟨lines, hset, hlen⟩ := WF_lookup hinv.1 addr
  rw [hinv.2.1, hinv.2.2.1] at hset
  rw [hinv.2.2.2.1] at hlen
  exact ⟨g, lines, hrun, hset, hlen, fun hnr hav => evict_least_recent addr hinv hset hnr hav⟩

theorem C1_lru_victim_witness :
    ∃ g0, init_cache (startup 2 2 3) = Except.ok g0 ∧
    ∃ g lines, access_all g0 [0x10, 0x410, 0x10] = some g ∧
      g.cache[set_of 2 3 0x810]? = some lines ∧ lines.length = 2 ∧
      ∃ v g1, v < 2 ∧ access_data g 0x810 = some g1 ∧ g1.evict_cnt = g.evict_cnt + 1 ∧
        g1.cache[set_of 2 3 0x810]? = some (lines.set v
          { valid := '1', tag := tag_of 2 3 0x810,
            counter := new_counter lines (tag_of 2 3 0x810) 2 }) ∧
        1 ≤ last_touch 2 3 (set_of 2 3 0x810) (line_at lines v).tag [0x10, 0x410, 0x10] ∧
        ∀ i, i < 2 → i ≠ v →
          last_touch 2 3 (set_of 2 3 0x810) (line_at lines v).tag [0x10, 0x410, 0x10] <
            last_touch 2 3 (set_of 2 3 0x810) (line_at lines i).tag [0x10, 0x410, 0x10] := by
  obtain ⟨g0, h0, g, lines, hrun, hset, hlen, himp⟩ :=
    C1_lru_victim 2 2 3 [0x10, 0x410, 0x10] 0x810 (by decide) (by decide) (by decide)
  have e0 : g0 = fresh_cache 2 2 3 :=
    Except.ok.inj (h0.symm.trans (init_cache_ok 2 2 3 (by decide) (by decide)))
  subst e0
  have hrun2 : access_all (fresh_cache 2 2 3) [0x10, 0x410, 0x10] =
      some
      { b := 3, s := 2, E := 2, B := 8, S := 4, hit_cnt := 1, miss_cnt := 2, evict_cnt := 0,
        cache := [[fresh_line, fresh_line], [fresh_line, fresh_line],
          [{ valid := '1', tag := 32, counter := 2 }, { valid := '1', tag := 0, counter := 3 }],
          [fresh_line, fresh_line]] } := by decide
  rw [hrun2] at hrun
  have hg := Option.some.inj hrun
  subst hg
  have hset2 : (
      { b := 3, s := 2, E := 2, B := 8, S := 4, hit_cnt := 1, miss_cnt := 2, evict_cnt := 0,
        cache := [[fresh_line, fresh_line], [fresh_line, fresh_line],
          [{ valid := '1', tag := 32, counter := 2 }, { valid := '1', tag := 0, counter := 3 }],
          [fresh_line, fresh_line]] } : Globals).cache[set_of 2 3 0x810]? =
      some [{ valid := '1', tag := 32, counter := 2 }, { valid := '1', tag := 0, counter := 3 }] := by
    decide
  rw [hset2] at hset
  have hl := Option.some.inj hset
  subst hl
  refine ⟨_, h0, _, _, hrun2, hset2, hlen, himp ?_ ?_⟩
  · unfold resident; decide
  · unfold all_valid; decide

/-! ## Capacity eviction -/

theorem nodup_tags_ne {s b : Nat} {addrs : List Nat} (hd : (addrs.map (tag_of s b)).Nodup)
    (i j : Nat) (hi : i < addrs.length) (hj : j < addrs.length) (hij : i ≠ j) :
    tag_of s b (addrs.getD i 0) ≠ tag_of s b (addrs.getD j 0) := by
  intro heq
  rw [List.getD_eq_getElem _ _ hi, List.getD_eq_getElem _ _ hj] at heq
  have hi2 : i < (addrs.map (tag_of s b)).length := by simpa using hi
  have hj2 : j < (addrs.map (tag_of s b)).length := by simpa using hj
  have h : (addrs.map (tag_of s b))[i] = (addrs.map (tag_of s b))[j] := by
    simpa using heq
  exact hij ((List.Nodup.getElem_inj_iff hd).mp h)

/-- In a partly filled set, a valid slot holds the tag of one of the first `k` addresses. -/
theorem fill_lines_valid {s b E k : Nat} {addrs : List Nat} {lines : List cache_line_t}
    (h : fill_lines s b E addrs k lines) {i : Nat} (hi : i < E)
    (hv : (line_at lines i).valid ≠ '0') :
    E ≤ i + k ∧ line_at lines i =
      { valid := '1', tag := tag_of s b (addrs.getD (E - 1 - i) 0), counter := ((E - i : Nat) : Int) } := by
  have h1 := h.2 i hi
  by_cases hc : i + k < E
  · rw [if_pos hc] at h1
    rw [h1] at hv
    exact absurd rfl hv
  · rw [if_neg hc] at h1
    exact ⟨by omega, h1⟩

theorem fill_lines_not_resident {s b E k : Nat} {addrs : List Nat} {lines : List cache_line_t}
    (h : fill_lines s b E addrs k lines) (tag : Nat)
    (hnew : ∀ j, j < k → tag_of s b (addrs.getD j 0) ≠ tag) :
    ¬ resident lines tag E := by
  rintro ⟨i, hi, hv, ht⟩
  obtain ⟨h1, h2⟩ := fill_lines_valid h hi hv
  rw [h2] at ht
  exact hnew (E - 1 - i) (by omega) ht

theorem fill_lines_counter_le {s b E k : Nat} {addrs : List Nat} {lines : List cache_line_t}
    (h : fill_lines s b E addrs k lines) {i : Nat} (hi : i < E) :
    (line_at lines i).counter ≤ k := by
  have h1 := h.2 i hi
  by_cases hc : i + k < E
  · rw [if_pos hc] at h1
    rw [h1]
    simp [fresh_line]
  · rw [if_neg hc] at h1
    rw [h1]
    simp only
    omega

/-- The counter written on a partly filled set is `k + 1`. -/
theorem fill_lines_new_counter {s b E k : Nat} {addrs : List Nat} {lines : List cache_line_t}
    (h : fill_lines s b E addrs k lines) (hE : 0 < E) (hk : k ≤ E) (tag : Nat) :
    new_counter lines tag E = k + 1 := by
  obtain ⟨hm1, hm2, hm3⟩ := scan_most lines tag E
  have hm : (scan lines tag E).mostrecent_line < E := by
    rcases hm1 with h0 | ⟨h1, _⟩
    · omega
    · exact h1
  have hup := fill_lines_counter_le h hm
  have hlow : (k : Int) ≤ (line_at lines (scan lines tag E).mostrecent_line).counter := by
    by_cases hk0 : k = 0
    · subst hk0
      have h1 := h.2 _ hm
      rw [if_pos (by omega)] at h1
      rw [h1]
      simp [fresh_line]
    · have hik : E - k < E := by omega
      have h1 := h.2 (E - k) hik
      rw [if_neg (by omega)] at h1
      have hv : (line_at lines (E - k)).valid ≠ '0' := by rw [h1]; simp
      have h2 := hm3 (E - k) hik hv
      rw [h1] at h2
      simp only at h2
      have : E - (E - k) = k := by omega
      rw [this] at h2
      exact h2
  unfold new_counter
  omega

/-- Access number `k < E` (from 0) of the filling sequence is a cold miss that fills slot
`E - k - 1`. -/
theorem fill_lines_cold {s b E k : Nat} {addrs : List Nat} {lines : List cache_line_t}
    (h : fill_lines s b E addrs k lines) (hk : k < E)
    (hnew : ∀ j, j < k → tag_of s b (addrs.getD j 0) ≠ tag_of s b (addrs.getD k 0)) :
    resolve lines (tag_of s b (addrs.getD k 0)) E =
      (lines.set (E - k - 1)
        { valid := '1', tag := tag_of s b (addrs.getD k 0), counter := (k : Int) + 1 }, 0, 1, 0) ∧
    fill_lines s b E addrs (k + 1) (lines.set (E - k - 1)
        { valid := '1', tag := tag_of s b (addrs.getD k 0), counter := (k : Int) + 1 }) := by
  have hE : 0 < E := by omega
  have hnr := fill_lines_not_resident h _ hnew
  have hhit := hit_line_none_of_not_resident hnr
  have hnav : ¬ all_valid lines E := by
    intro hall
    have h0 := h.2 0 hE
    rw [if_pos (by omega)] at h0
    have := hall 0 hE
    rw [h0] at this
    exact this rfl
  obtain ⟨e, he⟩ := empty_line_isSome_of_not_all_valid (tag_of s b (addrs.getD k 0)) hnav
  obtain ⟨he1, he2, he3⟩ := scan_empty_some lines _ E e he
  have hee : e = E - k - 1 := by
    have hlt : e + k < E := by
      by_contra hc
      have h1 := h.2 e he1
      rw [if_neg hc] at h1
      rw [h1] at he2
      simp at he2
    by_contra hne
    have hlt2 : e < E - k - 1 := by omega
    have hval := he3 (E - k - 1) hlt2 (by omega)
    have h1 := h.2 (E - k - 1) (by omega)
    rw [if_pos (by omega)] at h1
    rw [h1] at hval
    exact hval rfl
  subst hee
  have hnc := fill_lines_new_counter h hE (le_of_lt hk) (tag_of s b (addrs.getD k 0))
  refine ⟨by rw [resolve_cold_eq hhit he, hnc], ?_, ?_⟩
  · simp [h.1]
  · intro i hi
    rw [line_at_set _ _ _ _ (by rw [h.1]; omega)]
    by_cases hik : i = E - k - 1
    · rw [if_pos hik, if_neg (by omega)]
      have h1 : E - 1 - i = k := by omega
      have h2 : ((E - i : Nat) : Int) = (k : Int) + 1 := by omega
      rw [h1, h2]
    · rw [if_neg hik, h.2 i hi]
      by_cases hc : i + k < E
      · rw [if_pos hc, if_pos (by omega)]
      · rw [if_neg hc, if_neg (by omega)]

/-- On the full set the next access of a new tag evicts slot `E - 1`, which holds the tag of
the first address. -/
theorem fill_lines_evict {s b E : Nat} {addrs : List Nat} {lines : List cache_line_t}
    (h : fill_lines s b E addrs E lines) (hE : 0 < E) (tag : Nat)
    (hnew : ∀ j, j < E → tag_of s b (addrs.getD j 0) ≠ tag) :
    resolve lines tag E =
      (lines.set (E - 1) { valid := '1', tag := tag, counter := (E : Int) + 1 }, 0, 1, 1) ∧
    (line_at lines (E - 1)).valid ≠ '0' ∧
    (line_at lines (E - 1)).tag = tag_of s b (addrs.getD 0 0) ∧
    new_counter lines tag E = (E : Int) + 1 := by
  have hnr := fill_lines_not_resident h _ hnew
  have hhit := hit_line_none_of_not_resident hnr
  have hline : ∀ i, i < E → line_at lines i =
      { valid := '1', tag := tag_of s b (addrs.getD (E - 1 - i) 0),
        counter := ((E - i : Nat) : Int) } := by
    intro i hi
    have h1 := h.2 i hi
    rw [if_neg (by omega)] at h1
    exact h1
  have hav : all_valid lines E := by
    intro i hi
    rw [hline i hi]
    simp
  have hemp := empty_line_none_of_all_valid tag hav
  obtain ⟨hl1, _, hl3⟩ := scan_least lines tag E
  have hv : (scan lines tag E).leastrecent_line < E := by
    rcases hl1 with h0 | ⟨h1, _⟩
    · omega
    · exact h1
  have hve : (scan lines tag E).leastrecent_line = E - 1 := by
    have h1 := hl3 (E - 1) (by omega) (hav _ (by omega))
    rw [hline _ hv, hline (E - 1) (by omega)] at h1
    simp only at h1
    omega
  have hnc := fill_lines_new_counter h hE (le_refl E) tag
  refine ⟨by rw [resolve_evict_eq hhit hemp, hve, hnc], hav _ (by omega), ?_, hnc⟩
  rw [hline (E - 1) (by omega)]
  simp only
  congr 2
  omega

/-- After that eviction the tag of the first address is no longer resident. -/
theorem fill_lines_evicted_gone {s b E : Nat} {addrs : List Nat} {lines : List cache_line_t}
    (h : fill_lines s b E addrs E lines) (hE : 0 < E) (hlen : addrs.length = E + 1)
    (hd : (addrs.map (tag_of s b)).Nodup) (c : Int) :
    ¬ resident (lines.set (E - 1)
        { valid := '1', tag := tag_of s b (addrs.getD E 0), counter := c })
      (tag_of s b (addrs.getD 0 0)) E := by
  rintro ⟨i, hi, hv, ht⟩
  rw [line_at_set _ _ _ _ (by rw [h.1]; omega)] at hv ht
  by_cases hik : i = E - 1
  · rw [if_pos hik] at ht
    simp only at ht
    exact nodup_tags_ne hd E 0 (by omega) (by omega) (by omega) ht
  · rw [if_neg hik] at hv ht
    have h1 := h.2 i hi
    rw [if_neg (by omega)] at h1
    rw [h1] at ht
    simp only at ht
    exact nodup_tags_ne hd (E - 1 - i) 0 (by omega) (by omega) (by omega) ht

theorem fill_state_init (s E b : Nat) (addrs : List Nat) (set : Nat) (hE : 0 < E)
    (hset : set < 2 ^ s) : fill_state s b E addrs set 0 (fresh_cache s E b) := by
  refine ⟨WF_init_cache s E b hE, rfl, rfl, rfl, rfl, rfl, rfl, List.replicate E fresh_line, ?_, ?_⟩
  · have hlt : set < 2 ^ s := hset
    simp [fresh_cache, List.getElem?_replicate, hlt]
  · refine ⟨by simp, fun i hi => ?_⟩
    rw [line_at_replicate, if_pos (by omega)]

/-- One more access of the filling sequence. -/
theorem fill_state_step {s b E k set : Nat} {addrs : List Nat} {g : Globals}
    (h : fill_state s b E addrs set k g) (hk : k < E) (hlen : addrs.length = E + 1)
    (hsame : ∀ a, a ∈ addrs → set_of s b a = set)
    (hd : (addrs.map (tag_of s b)).Nodup) :
    ∃ g1, access_data g (addrs.getD k 0) = some g1 ∧ fill_state s b E addrs set (k + 1) g1 := by
  obtain ⟨hwf, hs, hb, hEq, hh, hm, he, lines, hl, hfill⟩ := h
  have hmem : addrs.getD k 0 ∈ addrs := by
    rw [List.getD_eq_getElem _ _ (by omega)]
    exact List.getElem_mem _
  have hset : set_of g.s g.b (addrs.getD k 0) = set := by rw [hs, hb]; exact hsame _ hmem
  have hl2 : g.cache[set_of g.s g.b (addrs.getD k 0)]? = some lines := by rw [hset]; exact hl
  obtain ⟨g1, h1, hwf1, hs1, hb1, hE1, _⟩ := access_data_WF hwf (addrs.getD k 0)
  have h2 := access_data_eq hl2 hwf.1 (by rw [hEq, hfill.1])
  have hnew : ∀ j, j < k → tag_of s b (addrs.getD j 0) ≠ tag_of s b (addrs.getD k 0) :=
    fun j hj => nodup_tags_ne hd j k (by omega) (by omega) (by omega)
  obtain ⟨hres, hfill1⟩ := fill_lines_cold hfill hk hnew
  rw [hs, hb, hEq, hres] at h2
  rw [h2] at h1
  have hg1 := Option.some.inj h1
  have hlt : set < g.cache.length := (List.getElem?_eq_some.mp hl).1
  refine ⟨g1, h2.trans h1, hwf1, hs1.trans hs, hb1.trans hb, hE1.trans hEq, ?_, ?_, ?_, _, ?_, hfill1⟩
  · rw [← hg1]; simp [hh]
  · rw [← hg1]; simp [hm]
  · rw [← hg1]; simp [he]
  · rw [← hg1]
    simp only
    rw [hs, hb] at hset
    rw [hset, List.getElem?_set_self hlt]

/-- The first `k <= E` accesses of the filling sequence. -/
theorem fill_state_reach {s b E set : Nat} {addrs : List Nat} (hE : 0 < E)
    (hlen : addrs.length = E + 1) (hsame : ∀ a, a ∈ addrs → set_of s b a = set)
    (hd : (addrs.map (tag_of s b)).Nodup) (k : Nat) (hk : k ≤ E) :
    ∃ g, access_all (fresh_cache s E b) (addrs.take k) = some g ∧
      fill_state s b E addrs set k g := by
  induction k with
  | zero =>
    have hmem : addrs.getD 0 0 ∈ addrs := by
      rw [List.getD_eq_getElem _ _ (by omega)]
      exact List.getElem_mem _
    have hset : set < 2 ^ s := by
      rw [← hsame _ hmem]; exact set_of_lt _ _ _
    exact ⟨_, rfl, fill_state_init s E b addrs set hE hset⟩
  | succ k ih =>
    obtain ⟨g, hrun, hst⟩ := ih (by omega)
    obtain ⟨g1, h1, hst1⟩ := fill_state_step hst (by omega) hlen hsame hd
    refine ⟨g1, ?_, hst1⟩
    have hget : addrs[k]? = some (addrs.getD k 0) := by
      rw [List.getD_eq_getElem _ _ (by omega)]
      exact List.getElem?_eq_getElem (by omega)
    rw [List.take_succ, hget, access_all_append, hrun]
    simp only [Option.some_bind, Option.toList, access_all, h1]

/-- Without a resident tag the call is a miss: no hit is counted and one miss is. -/
theorem resolve_counts_miss {lines : List cache_line_t} {tag E : Nat}
    (h : ¬ resident lines tag E) :
    (resolve lines tag E).2.1 = 0 ∧ (resolve lines tag E).2.2.1 = 1 := by
  by_cases hv : all_valid lines E
  · rw [resolve_counts_evict h hv]; exact ⟨rfl, rfl⟩
  · rw [resolve_counts_cold h hv]; exact ⟨rfl, rfl⟩

/-- C7 (as stated, refuted). The geometry `s = 31`, `E = 1`, `b = 1` satisfies `s >= 1`,
`b >= 1`, `E >= 1`, `s + b < 64`, and the `E + 1 = 2` addresses `0` and `2^32` decode to set 0
with the distinct tags 0 and 1; but `init_cache` ends the run with `exit(1)` (its `int` value
`S = 2 << 30` is negative and the allocation fails), so there is no freshly initialised cache and
not even the first access is a cold miss. -/
theorem C7_no_cache_at_s31 :
    (1 ≤ 31 ∧ 1 ≤ 1 ∧ 1 ≤ 1 ∧ 31 + 1 < 64) ∧
    (([0, 4294967296] : List Nat).length = 1 + 1 ∧
      (∀ a, a ∈ ([0, 4294967296] : List Nat) → set_of 31 1 a = 0) ∧
      (([0, 4294967296] : List Nat).map (tag_of 31 1)).Nodup) ∧
    init_cache (startup 31 1 1) = Except.error 1 ∧
    ¬ ∃ g0 g, init_cache (startup 31 1 1) = Except.ok g0 ∧
      access_all g0 (([0, 4294967296] : List Nat).take 1) = some g ∧
      g.hit_cnt = 0 ∧ g.miss_cnt = 1 ∧ g.evict_cnt = 0 := by
  refine ⟨by decide, by decide, init_cache_s31 1 1, ?_⟩
  rintro ⟨g0, g, h0, _⟩
  rw [init_cache_s31] at h0
  cases h0

/-- C7 (amended). Capacity eviction: for every geometry with `1 <= s <= 30`, `b >= 1`, `E >= 1`
and `s + b < 64`, and every list of `E + 1` addresses with pairwise distinct tags that all decode
to the same set, `init_cache` produces the cache and accessing the addresses in order on it
makes the first `E` accesses cold misses (after `k <= E`
of them `miss_cnt = k`, `hit_cnt = 0`, `evict_cnt = 0`) and the `(E+1)`-th access a miss with
eviction; the slot overwritten held the tag of the first address, and an immediately following
access to that first address is again a miss. -/
theorem C7_capacity_eviction (s E b set : Nat) (addrs : List Nat)
    (hs1 : 1 ≤ s) (hs30 : s ≤ 30) (_hb : 1 ≤ b) (hE : 1 ≤ E) (_hsb : s + b < 64)
    (hlen : addrs.length = E + 1)
    (hsame : ∀ a, a ∈ addrs → set_of s b a = set)
    (hd : (addrs.map (tag_of s b)).Nodup) :
    ∃ g0, init_cache (startup s E b) = Except.ok g0 ∧
    (∀ k, k ≤ E → ∃ g, access_all g0 (addrs.take k) = some g ∧
      g.hit_cnt = 0 ∧ g.miss_cnt = k ∧ g.evict_cnt = 0) ∧
    ∃ g lines v g1 g2,
      access_all g0 (addrs.take E) = some g ∧
      g.cache[set]? = some lines ∧
      v < E ∧ (line_at lines v).valid ≠ '0' ∧
      (line_at lines v).tag = tag_of s b (addrs.getD 0 0) ∧
      access_data g (addrs.getD E 0) = some g1 ∧
      access_all g0 addrs = some g1 ∧
      (g1.hit_cnt = 0 ∧ g1.miss_cnt = E + 1 ∧ g1.evict_cnt = 1) ∧
      g1.cache[set]? = some (lines.set v
        { valid := '1', tag := tag_of s b (addrs.getD E 0),
          counter := new_counter lines (tag_of s b (addrs.getD E 0)) E }) ∧
      access_data g1 (addrs.getD 0 0) = some g2 ∧
      (g2.hit_cnt = 0 ∧ g2.miss_cnt = E + 2) := by
  refine ⟨fresh_cache s E b, init_cache_ok s E b hs1 hs30, ?_⟩
  constructor
  · intro k hk
    obtain ⟨g, hrun, _, _, _, _, hh, hm, he, _⟩ := fill_state_reach hE hlen hsame hd k hk
    exact ⟨g, hrun, hh, hm, he⟩
  · obtain ⟨g, hrun, hwf, hs, hb, hEq, hh, hm, he, lines, hl, hfill⟩ :=
      fill_state_reach hE hlen hsame hd E (le_refl E)
    have hmemE : addrs.getD E 0 ∈ addrs := by
      rw [List.getD_eq_getElem _ _ (by omega)]
      exact List.getElem_mem _
    have hmem0 : addrs.getD 0 0 ∈ addrs := by
      rw [List.getD_eq_getElem _ _ (by omega)]
      exact List.getElem_mem _
    have hnew : ∀ j, j < E → tag_of s b (addrs.getD j 0) ≠ tag_of s b (addrs.getD E 0) :=
      fun j hj => nodup_tags_ne hd j E (by omega) (by omega) (by omega)
    obtain ⟨hres, hvalid, htag, hnc⟩ := fill_lines_evict hfill hE _ hnew
    have hlt : set < g.cache.length := (List.getElem?_eq_some.mp hl).1
    -- the call number E + 1
    have hl2 : g.cache[set_of g.s g.b (addrs.getD E 0)]? = some lines := by
      rw [hs, hb, hsame _ hmemE]; exact hl
    obtain ⟨g1, h1, hwf1, hs1, hb1, hE1, _⟩ := access_data_WF hwf (addrs.getD E 0)
    have h2 := access_data_eq hl2 hwf.1 (by rw [hEq, hfill.1])
    rw [hs, hb, hEq, hres] at h2
    rw [h2] at h1
    have hg1 := Option.some.inj h1
    have hcache1 : g1.cache[set]? = some (lines.set (E - 1)
        { valid := '1', tag := tag_of s b (addrs.getD E 0), counter := (E : Int) + 1 }) := by
      rw [← hg1]
      simp only
      rw [hsame _ hmemE, List.getElem?_set_self hlt]
    -- the call that follows
    have hl3 : g1.cache[set_of g1.s g1.b (addrs.getD 0 0)]? = some (lines.set (E - 1)
        { valid := '1', tag := tag_of s b (addrs.getD E 0), counter := (E : Int) + 1 }) := by
      rw [hs1, hb1, hs, hb, hsame _ hmem0]; exact hcache1
    have h3 := access_data_eq hl3 hwf1.1 (by rw [hE1, hEq]; simp [hfill.1])
    have hgone := fill_lines_evicted_gone hfill hE hlen hd ((E : Int) + 1)
    have hmiss := resolve_counts_miss hgone
    rw [hs1, hb1, hE1, hs, hb, hEq] at h3
    have hfull : access_all (fresh_cache s E b) addrs = some g1 := by
      have hget : addrs[E]? = some (addrs.getD E 0) := by
        rw [List.getD_eq_getElem _ _ (by omega)]
        exact List.getElem?_eq_getElem (by omega)
      have h4 : addrs.take (E + 1) = addrs.take E ++ [addrs.getD E 0] := by
        rw [List.take_succ, hget]; rfl
      have h5 : addrs.take (E + 1) = addrs := List.take_of_length_le (by omega)
      have h6 : access_all (fresh_cache s E b) (addrs.take E ++ [addrs.getD E 0]) =
          some g1 := by
        rw [access_all_append, hrun]
        simp only [Option.some_bind, access_all, h2.trans h1]
      rw [← h4, h5] at h6
      exact h6
    refine ⟨g, lines, E - 1, g1, _, hrun, hl, by omega, hvalid, htag, h2.trans h1, hfull,
      ?_, ?_, h3, ?_⟩
    · rw [← hg1]
      simp only
      omega
    · rw [hcache1, hnc]
    · simp only [hmiss.1, hmiss.2]
      rw [← hg1]
      simp only
      omega

theorem C7_capacity_eviction_witness :
    ∃ g0, init_cache (startup 1 2 1) = Except.ok g0 ∧
    (∀ k, k ≤ 2 → ∃ g, access_all g0 ([0, 4, 8].take k) = some g ∧
      g.hit_cnt = 0 ∧ g.miss_cnt = k ∧ g.evict_cnt = 0) ∧
    ∃ g lines v g1 g2,
      access_all g0 ([0, 4, 8].take 2) = some g ∧
      g.cache[0]? = some lines ∧
      v < 2 ∧ (line_at lines v).valid ≠ '0' ∧
      (line_at lines v).tag = tag_of 1 1 (([0, 4, 8] : List Nat).getD 0 0) ∧
      access_data g (([0, 4, 8] : List Nat).getD 2 0) = some g1 ∧
      access_all g0 [0, 4, 8] = some g1 ∧
      (g1.hit_cnt = 0 ∧ g1.miss_cnt = 2 + 1 ∧ g1.evict_cnt = 1) ∧
      g1.cache[0]? = some (lines.set v
        { valid := '1', tag := tag_of 1 1 (([0, 4, 8] : List Nat).getD 2 0),
          counter := new_counter lines (tag_of 1 1 (([0, 4, 8] : List Nat).getD 2 0)) 2 }) ∧
      access_data g1 (([0, 4, 8] : List Nat).getD 0 0) = some g2 ∧
      (g2.hit_cnt = 0 ∧ g2.miss_cnt = 2 + 2) :=
  C7_capacity_eviction 1 2 1 0 [0, 4, 8] (by decide) (by decide) (by decide) (by decide)
    (by decide) (by decide) (by decide) (by decide)

/-! ## Command line check -/

theorem check_args_zero {s E b : Int} (trace_file : Option String)
    (h : s = 0 ∨ E = 0 ∨ b = 0) : check_args s E b trace_file = Except.error 0 := by
  unfold check_args
  rw [if_pos (by tauto)]
  rfl

theorem check_args_pass {s E b : Int} {trace_file : Option String}
    (hs : s ≠ 0) (hE : E ≠ 0) (hb : b ≠ 0) (ht : trace_file ≠ none) :
    check_args s E b trace_file = Except.ok () := by
  unfold check_args
  rw [if_neg (by tauto)]

/-- C11 (as stated, refuted). A negative value is non-positive, yet the required-argument check
of `main` does not fail the run: with `s = -1`, `E = 1`, `b = 1` and a trace file, `check_args`
returns normally, no `exit` with a non-zero status (nor any other) is made by the check, and
`main` goes on into `init_cache`. -/
theorem C11_negative_passes_check :
    ((-1 : Int) ≤ 0 ∨ (1 : Int) ≤ 0 ∨ (1 : Int) ≤ 0) ∧
    check_args (-1) 1 1 (some "yi.trace") = Except.ok () ∧
    (¬ ∃ status, status ≠ 0 ∧
      check_args (-1) 1 1 (some "yi.trace") = Except.error status) ∧
    main (-1) 1 1 (some "yi.trace") (fun _ => some [" L 10,1"]) = Except.ok none := by
  have hpass : check_args (-1) 1 1 (some "yi.trace") = Except.ok () :=
    check_args_pass (by decide) (by decide) (by decide) (by simp)
  refine ⟨Or.inl (by decide), hpass, ?_, ?_⟩
  · rintro ⟨status, _, hst⟩
    rw [hpass] at hst
    cases hst
  · unfold main
    rw [hpass]
    rfl

/-- C11 (amended). If any one of `s`, `E`, `b` is zero, the required-argument check of `main`
ends the run with a call of `exit` before `init_cache` is called and before any access is
processed, whatever the trace file; and the check lets the run continue exactly when `s`, `E`,
`b` are all non-zero (negative values included) and a trace file was named. -/
theorem C11_zero_rejected (s E b : Int) (trace_file : Option String)
    (fopen : String → Option (List String)) :
    ((s = 0 ∨ E = 0 ∨ b = 0) →
      ∃ status, check_args s E b trace_file = Except.error status ∧
        main s E b trace_file fopen = Except.error status) ∧
    (check_args s E b trace_file = Except.ok () ↔
      s ≠ 0 ∧ E ≠ 0 ∧ b ≠ 0 ∧ trace_file ≠ none) := by
  constructor
  · intro h
    refine ⟨0, check_args_zero trace_file h, ?_⟩
    unfold main
    rw [check_args_zero trace_file h]
    rfl
  · constructor
    · intro h
      by_contra hc
      have hcond : s = 0 ∨ E = 0 ∨ b = 0 ∨ trace_file = none := by tauto
      unfold check_args at h
      rw [if_pos hcond] at h
      cases h
    · rintro ⟨hs, hE, hb, ht⟩
      exact check_args_pass hs hE hb ht

theorem C11_zero_rejected_witness :
    ∃ status, check_args 0 2 3 (some "yi.trace") = Except.error status ∧
      main 0 2 3 (some "yi.trace") (fun _ => some [" L 10,1"]) = Except.error status :=
  (C11_zero_rejected 0 2 3 (some "yi.trace") (fun _ => some [" L 10,1"])).1 (Or.inl rfl)

/-! ## Lines whose address does not convert -/

/-- A Load or Store line whose address does not convert: one call, with the address left by the
previous record. -/
theorem replay_line_stale_one {p : Globals × Nat} {buf : List Char}
    (hk : kind_of buf = 'L' ∨ kind_of buf = 'S') (ha : sscanf_llx (buf.drop 3) = none) :
    replay_line p buf = (access_data p.1 p.2).map (fun g1 => (g1, p.2)) := by
  unfold replay_line
  rcases hk with hk | hk
  · simp [hk, ha]
  · simp [hk, ha]

/-- A Modify line whose address does not convert: two calls, with the address left by the
previous record. -/
theorem replay_line_stale_two {p : Globals × Nat} {buf : List Char}
    (hk : kind_of buf = 'M') (ha : sscanf_llx (buf.drop 3) = none) :
    replay_line p buf =
      ((access_data p.1 p.2).bind (fun g1 => access_data g1 p.2)).map (fun g2 => (g2, p.2)) := by
  unfold replay_line
  simp [hk, ha]

/-- C12 (as stated, refuted). On the fresh cache with `s = E = b = 1` the line ` L zz,1`, whose
address field is not hexadecimal, is not skipped: it counts a miss and fills a line, and the
record ` L 0,1` that follows is a hit, whereas replayed alone it is a miss. -/
theorem C12_malformed_not_skipped :
    kind_of " L zz,1".toList = 'L' ∧ sscanf_llx (" L zz,1".toList.drop 3) = none ∧
    ∃ g0, init_cache (startup 1 1 1) = Except.ok g0 ∧
    replay_trace g0 [" L zz,1"] = some
      { b := 1, s := 1, E := 1, B := 2, S := 2, hit_cnt := 0, miss_cnt := 1, evict_cnt := 0,
        cache := [[{ valid := '1', tag := 0, counter := 1 }], [fresh_line]] } ∧
    (replay_trace g0 [" L zz,1", " L 0,1"]).map
      (fun g => (g.hit_cnt, g.miss_cnt, g.evict_cnt)) = some (1, 1, 0) ∧
    (replay_trace g0 [" L 0,1"]).map
      (fun g => (g.hit_cnt, g.miss_cnt, g.evict_cnt)) = some (0, 1, 0) := by
  refine ⟨by decide, by decide, fresh_cache 1 1 1, init_cache_ok 1 1 1 (by decide) (by decide),
    by decide, by decide, by decide⟩

/-- C12 (amended). A trace line of at least three characters (so that the text `buf+3` handed to
`sscanf` belongs to this line) whose kind character is `L`, `S` or `M` but whose address field
does not convert is not skipped: its step is the `access_data` call of its kind (one for `L` or
`S`, two for `M`) with the address left in `addr` by the previous record; on a well-shaped
cache the step returns, leaves `addr` as it was and counts one or two accesses, and the lines
that follow are replayed from the resulting state. -/
theorem C12_malformed_replayed (g : Globals) (addr0 : Nat) (buf : List Char)
    (rest : List (List Char)) (_hlen3 : 3 ≤ buf.length)
    (ha : sscanf_llx (buf.drop 3) = none) :
    ((kind_of buf = 'L' ∨ kind_of buf = 'S') →
      replay_line (g, addr0) buf = (access_data g addr0).map (fun g1 => (g1, addr0))) ∧
    (kind_of buf = 'M' →
      replay_line (g, addr0) buf =
        ((access_data g addr0).bind (fun g1 => access_data g1 addr0)).map
          (fun g2 => (g2, addr0))) ∧
    ((kind_of buf = 'L' ∨ kind_of buf = 'S' ∨ kind_of buf = 'M') → WF g →
      ∃ g1, replay_line (g, addr0) buf = some (g1, addr0) ∧
        g1.hit_cnt + g1.miss_cnt = g.hit_cnt + g.miss_cnt + (if kind_of buf = 'M' then 2 else 1) ∧
        replay_lines (g, addr0) (buf :: rest) = replay_lines (g1, addr0) rest) := by
  refine ⟨fun hk => replay_line_stale_one hk ha, fun hk => replay_line_stale_two hk ha, ?_⟩
  intro hk hwf
  by_cases hM : kind_of buf = 'M'
  · obtain ⟨g1, h1, hwf1, _, _, _, _, hc1, _⟩ := access_data_WF hwf addr0
    obtain ⟨g2, h2, _, _, _, _, _, hc2, _⟩ := access_data_WF hwf1 addr0
    have hstep : replay_line (g, addr0) buf = some (g2, addr0) := by
      rw [replay_line_stale_two hM ha]
      simp only [h1, Option.some_bind, h2, Option.map_some']
    refine ⟨g2, hstep, ?_, ?_⟩
    · rw [if_pos hM]; omega
    · simp only [replay_lines, hstep, Option.some_bind]
  · have hLS : kind_of buf = 'L' ∨ kind_of buf = 'S' := by tauto
    obtain ⟨g1, h1, _, _, _, _, _, hc1, _⟩ := access_data_WF hwf addr0
    have hstep : replay_line (g, addr0) buf = some (g1, addr0) := by
      rw [replay_line_stale_one hLS ha]
      simp only [h1, Option.map_some']
    refine ⟨g1, hstep, ?_, ?_⟩
    · rw [if_neg hM]; omega
    · simp only [replay_lines, hstep, Option.some_bind]

theorem C12_malformed_replayed_witness :
    ∃ g1, replay_line (fresh_cache 1 1 1, 0) " M zz,1".toList = some (g1, 0) ∧
      g1.hit_cnt + g1.miss_cnt =
        (fresh_cache 1 1 1).hit_cnt + (fresh_cache 1 1 1).miss_cnt +
          (if kind_of " M zz,1".toList = 'M' then 2 else 1) ∧
      replay_lines (fresh_cache 1 1 1, 0) [" M zz,1".toList, " L 0,1".toList] =
        replay_lines (g1, 0) [" L 0,1".toList] :=
  (C12_malformed_replayed (fresh_cache 1 1 1) 0 " M zz,1".toList [" L 0,1".toList]
    (by decide) (by decide)).2.2 (by decide) (WF_init_cache 1 1 1 (by decide))

/-! ## Shape of the three branches -/

/-- Hit branch: the last valid slot holding the tag gets the new counter, nothing else. -/
theorem resolve_hit_shape {lines : List cache_line_t} {tag E : Nat}
    (hr : resident lines tag E) :
    ∃ h, h < E ∧ (line_at lines h).valid ≠ '0' ∧ (line_at lines h).tag = tag ∧
      resolve lines tag E =
        (lines.set h { line_at lines h with counter := new_counter lines tag E }, 1, 0, 0) := by
  obtain ⟨k, hk⟩ := hit_line_isSome_of_resident hr
  obtain ⟨h1, h2, h3⟩ := scan_hit_some lines tag E k hk
  exact ⟨k, h1, h2, h3, resolve_hit_eq hk⟩

/-- Cold-miss branch: the invalid slot of highest index is filled. -/
theorem resolve_cold_shape {lines : List cache_line_t} {tag E : Nat}
    (hnr : ¬ resident lines tag E) (hnav : ¬ all_valid lines E) :
    ∃ e, e < E ∧ (line_at lines e).valid = '0' ∧
      (∀ j, e < j → j < E → (line_at lines j).valid ≠ '0') ∧
      resolve lines tag E =
        (lines.set e { valid := '1', tag := tag, counter := new_counter lines tag E }, 0, 1, 0) := by
  obtain ⟨e, he⟩ := empty_line_isSome_of_not_all_valid tag hnav
  obtain ⟨h1, h2, h3⟩ := scan_empty_some lines tag E e he
  exact ⟨e, h1, h2, h3, resolve_cold_eq (hit_line_none_of_not_resident hnr) he⟩

/-- Eviction branch: a slot of minimal counter is overwritten. -/
theorem resolve_evict_shape {lines : List cache_line_t} {tag E : Nat} (hE : 0 < E)
    (hnr : ¬ resident lines tag E) (hav : all_valid lines E) :
    ∃ v, v < E ∧ (line_at lines v).valid ≠ '0' ∧
      (∀ i, i < E → (line_at lines v).counter ≤ (line_at lines i).counter) ∧
      resolve lines tag E =
        (lines.set v { valid := '1', tag := tag, counter := new_counter lines tag E }, 0, 1, 1) := by
  have hv : (scan lines tag E).leastrecent_line < E := by
    rcases (scan_least lines tag E).1 with h0 | ⟨h1, _⟩
    · omega
    · exact h1
  refine ⟨_, hv, hav _ hv, fun i hi => (scan_least lines tag E).2.2 i hi (hav i hi), ?_⟩
  exact resolve_evict_eq (hit_line_none_of_not_resident hnr) (empty_line_none_of_all_valid tag hav)

/-- The set written by a call is the decoded set, with the lines given by `resolve`. -/
theorem access_data_cache {g g1 : Globals} {addr : Nat} {lines : List cache_line_t}
    (hset : g.cache[set_of g.s g.b addr]? = some lines) (h : access_data g addr = some g1) :
    0 < g.E ∧ g.E ≤ lines.length ∧
    g1 = { g with
      hit_cnt := g.hit_cnt + (resolve lines (tag_of g.s g.b addr) g.E).2.1
      miss_cnt := g.miss_cnt + (resolve lines (tag_of g.s g.b addr) g.E).2.2.1
      evict_cnt := g.evict_cnt + (resolve lines (tag_of g.s g.b addr) g.E).2.2.2
      cache := g.cache.set (set_of g.s g.b addr)
        (resolve lines (tag_of g.s g.b addr) g.E).1 } := by
  unfold access_data at h
  simp only [hset] at h
  by_cases hc : g.E = 0 ∨ lines.length < g.E
  · rw [if_pos hc] at h; cases h
  · rw [if_neg hc] at h
    exact ⟨by omega, by omega, (Option.some.inj h).symm⟩

/-- A call that returns was made on an allocated set. -/
theorem access_data_some_lookup {g g1 : Globals} {addr : Nat}
    (h : access_data g addr = some g1) :
    ∃ lines, g.cache[set_of g.s g.b addr]? = some lines := by
  cases hl : g.cache[set_of g.s g.b addr]? with
  | some lines => exact ⟨lines, rfl⟩
  | none =>
    unfold access_data at h
    simp only [hl] at h
    cases h

/-! ## Cold-miss slot -/

/-- C13 (as stated, refuted). On the fresh cache with `s = 1`, `E = 2`, `b = 1` the first access
is a cold miss with both slots of set 0 invalid; the slot that becomes valid is slot 1, and
slot 0, the invalid slot of lowest index, stays invalid. -/
theorem C13_first_invalid_not_filled :
    ∃ g0, init_cache (startup 1 2 1) = Except.ok g0 ∧
    g0.cache[set_of 1 1 0]? = some [fresh_line, fresh_line] ∧
    access_data g0 0 = some
      { b := 1, s := 1, E := 2, B := 2, S := 2, hit_cnt := 0, miss_cnt := 1, evict_cnt := 0,
        cache := [[fresh_line, { valid := '1', tag := 0, counter := 1 }],
          [fresh_line, fresh_line]] } := by
  refine ⟨fresh_cache 1 2 1, init_cache_ok 1 2 1 (by decide) (by decide), by decide, by decide⟩

/-- C13 (amended). Cold-miss slot: on every state whose decoded set is allocated with its
`E >= 1` lines (every reachable state is one), for every access that is a cold miss (no valid
line of the set holds the tag and at least one line is invalid), the line that becomes valid
and receives the tag is the last invalid line met by the scan, the invalid line with the
highest slot index; no other line of the set changes. -/
theorem C13_cold_miss_slot (g : Globals) (addr : Nat) (lines : List cache_line_t)
    (hset : g.cache[set_of g.s g.b addr]? = some lines) (hE : 1 ≤ g.E)
    (hlen : lines.length = g.E)
    (hnr : ¬ resident lines (tag_of g.s g.b addr) g.E) (hnav : ¬ all_valid lines g.E) :
    ∃ e g1, e < g.E ∧ (line_at lines e).valid = '0' ∧
      (∀ j, e < j → j < g.E → (line_at lines j).valid ≠ '0') ∧
      access_data g addr = some g1 ∧
      g1.miss_cnt = g.miss_cnt + 1 ∧ g1.hit_cnt = g.hit_cnt ∧ g1.evict_cnt = g.evict_cnt ∧
      g1.cache[set_of g.s g.b addr]? = some (lines.set e
        { valid := '1', tag := tag_of g.s g.b addr,
          counter := new_counter lines (tag_of g.s g.b addr) g.E }) := by
  obtain ⟨e, h1, h2, h3, hres⟩ := resolve_cold_shape hnr hnav
  have hlt : set_of g.s g.b addr < g.cache.length := (List.getElem?_eq_some.mp hset).1
  refine ⟨e, _, h1, h2, h3, access_data_eq hset hE (le_of_eq hlen.symm), ?_, ?_, ?_, ?_⟩
  · simp [hres]
  · simp [hres]
  · simp [hres]
  · simp [hres, hlt]

theorem C13_cold_miss_slot_witness :
    ∃ e g1, e < 2 ∧ (line_at [fresh_line, fresh_line] e).valid = '0' ∧
      (∀ j, e < j → j < 2 → (line_at [fresh_line, fresh_line] j).valid ≠ '0') ∧
      access_data (fresh_cache 1 2 1) 0 = some g1 ∧
      g1.miss_cnt = (fresh_cache 1 2 1).miss_cnt + 1 ∧
      g1.hit_cnt = (fresh_cache 1 2 1).hit_cnt ∧
      g1.evict_cnt = (fresh_cache 1 2 1).evict_cnt ∧
      g1.cache[set_of 1 1 0]? = some ([fresh_line, fresh_line].set e
        { valid := '1', tag := tag_of 1 1 0,
          counter := new_counter [fresh_line, fresh_line] (tag_of 1 1 0) 2 }) :=
  C13_cold_miss_slot (fresh_cache 1 2 1) 0 [fresh_line, fresh_line] (by decide)
    (by decide) rfl (by unfold resident; decide) (by unfold all_valid; decide)

/-! ## No duplicate resident tags -/

/-- One call keeps a set free of duplicate resident tags. -/
theorem resolve_no_dup {lines : List cache_line_t} {E : Nat} (tag : Nat) (hE : 0 < E)
    (hlen : E ≤ lines.length) (h : no_dup_set E lines) :
    no_dup_set E (resolve lines tag E).1 := by
  by_cases hr : resident lines tag E
  · obtain ⟨k, hk, _, _, hres⟩ := resolve_hit_shape hr
    rw [hres]
    have hsame : ∀ i, (line_at (lines.set k
        { line_at lines k with counter := new_counter lines tag E }) i).valid =
          (line_at lines i).valid ∧
        (line_at (lines.set k
        { line_at lines k with counter := new_counter lines tag E }) i).tag =
          (line_at lines i).tag := by
      intro i
      rw [line_at_set _ _ _ _ (by omega)]
      by_cases hik : i = k
      · rw [if_pos hik, hik]; exact ⟨rfl, rfl⟩
      · rw [if_neg hik]; exact ⟨rfl, rfl⟩
    intro i j hi hj hvi hvj ht
    rw [(hsame i).1] at hvi
    rw [(hsame j).1] at hvj
    rw [(hsame i).2, (hsame j).2] at ht
    exact h i j hi hj hvi hvj ht
  · have hshape : ∃ k c, k < E ∧ (resolve lines tag E).1 =
        lines.set k { valid := '1', tag := tag, counter := c } := by
      by_cases hav : all_valid lines E
      · obtain ⟨v, hv, _, _, hres⟩ := resolve_evict_shape hE hr hav
        exact ⟨v, _, hv, by rw [hres]⟩
      · obtain ⟨e, he, _, _, hres⟩ := resolve_cold_shape hr hav
        exact ⟨e, _, he, by rw [hres]⟩
    obtain ⟨k, c, hk, hres⟩ := hshape
    rw [hres]
    intro i j hi hj hvi hvj ht
    rw [line_at_set _ _ _ _ (by omega)] at hvi hvj ht
    rw [line_at_set _ _ _ _ (by omega)] at ht
    by_cases hik : i = k <;> by_cases hjk : j = k
    · omega
    · rw [if_pos hik, if_neg hjk] at ht
      rw [if_neg hjk] at hvj
      exact absurd ⟨j, hj, hvj, ht.symm⟩ hr
    · rw [if_neg hik, if_pos hjk] at ht
      rw [if_neg hik] at hvi
      exact absurd ⟨i, hi, hvi, ht⟩ hr
    · rw [if_neg hik, if_neg hjk] at ht
      rw [if_neg hik] at hvi
      rw [if_neg hjk] at hvj
      exact h i j hi hj hvi hvj ht

/-- One `access_data` call keeps the cache free of duplicate resident tags. -/
theorem access_data_no_dup {g g1 : Globals} {addr : Nat} (h : no_dup g)
    (hacc : access_data g addr = some g1) : no_dup g1 := by
  obtain ⟨lines, hset⟩ := access_data_some_lookup hacc
  obtain ⟨hE, hlen, hg1⟩ := access_data_cache hset hacc
  have hlt : set_of g.s g.b addr < g.cache.length := (List.getElem?_eq_some.mp hset).1
  intro set L hL
  rw [hg1] at hL ⊢
  simp only at hL ⊢
  by_cases hsame : set_of g.s g.b addr = set
  · rw [← hsame, List.getElem?_set_self hlt] at hL
    rw [← Option.some.inj hL]
    exact resolve_no_dup _ hE hlen (h _ _ hset)
  · rw [List.getElem?_set_ne hsame] at hL
    exact h _ _ hL

/-- The cache that `init_cache` returns holds invalid lines only. -/
theorem init_cache_no_dup {g g0 : Globals} (h : init_cache g = Except.ok g0) : no_dup g0 := by
  unfold init_cache at h
  simp only at h
  split at h
  · cases h
  · have hg := Except.ok.inj h
    subst hg
    intro set lines hl
    have hmem := List.getElem?_mem hl
    simp only at hmem
    rw [List.eq_of_mem_replicate hmem]
    intro i j _ _ hvi
    rw [line_at_replicate] at hvi
    exact absurd rfl hvi

theorem access_all_no_dup {g g1 : Globals} (h : no_dup g) (pre : List Nat)
    (hrun : access_all g pre = some g1) : no_dup g1 := by
  induction pre generalizing g with
  | nil =>
    simp only [access_all, Option.some.injEq] at hrun
    subst hrun
    exact h
  | cons a rest ih =>
    simp only [access_all] at hrun
    cases ha : access_data g a with
    | none => rw [ha] at hrun; simp at hrun
    | some g2 =>
      rw [ha] at hrun
      simp only [Option.some_bind] at hrun
      exact ih (access_data_no_dup h ha) hrun

/-- C14. No duplicate resident tags: in every cache state `g` reachable by any sequence of
`access_data` calls from a cache `g0` that `init_cache` returns, no set contains two distinct
valid lines holding the same tag; such states exist: for `1 <= s <= 30` and `E >= 1`
`init_cache` returns and so does every sequence of calls; and each `access_data` call preserves
the predicate, from any state. -/
theorem C14_no_duplicate_tags (s E b : Nat) (pre : List Nat) (g0 g g1 g2 : Globals)
    (addr : Nat) :
    (init_cache (startup s E b) = Except.ok g0 → access_all g0 pre = some g → no_dup g) ∧
    (1 ≤ s → s ≤ 30 → 1 ≤ E →
      ∃ h0 h, init_cache (startup s E b) = Except.ok h0 ∧ access_all h0 pre = some h ∧
        no_dup h) ∧
    (no_dup g1 → access_data g1 addr = some g2 → no_dup g2) := by
  refine ⟨fun h0 hrun => access_all_no_dup (init_cache_no_dup h0) pre hrun, ?_,
    fun h hacc => access_data_no_dup h hacc⟩
  intro hs hs30 hE
  obtain ⟨h, hrun, _⟩ := cache_inv_reach s E b hE pre
  have h0 := init_cache_ok s E b hs hs30
  exact ⟨fresh_cache s E b, h, h0, hrun, access_all_no_dup (init_cache_no_dup h0) pre hrun⟩

theorem C14_no_duplicate_tags_witness :
    (∃ h0 h, init_cache (startup 2 2 3) = Except.ok h0 ∧
      access_all h0 [0x10, 0x410, 0x10, 0x810] = some h ∧ no_dup h) ∧
    no_dup
      { b := 1, s := 1, E := 1, B := 2, S := 2, hit_cnt := 0, miss_cnt := 1, evict_cnt := 0,
        cache := [[{ valid := '1', tag := 0, counter := 1 }], [fresh_line]] } :=
  ⟨(C14_no_duplicate_tags 2 2 3 [0x10, 0x410, 0x10, 0x810] (fresh_cache 2 2 3)
      (fresh_cache 2 2 3) (fresh_cache 1 1 1)
      { b := 1, s := 1, E := 1, B := 2, S := 2, hit_cnt := 0, miss_cnt := 1, evict_cnt := 0,
        cache := [[{ valid := '1', tag := 0, counter := 1 }], [fresh_line]] } 0).2.1
      (by decide) (by decide) (by decide),
   (C14_no_duplicate_tags 2 2 3 [0x10, 0x410, 0x10, 0x810] (fresh_cache 2 2 3)
      (fresh_cache 2 2 3) (fresh_cache 1 1 1)
      { b := 1, s := 1, E := 1, B := 2, S := 2, hit_cnt := 0, miss_cnt := 1, evict_cnt := 0,
        cache := [[{ valid := '1', tag := 0, counter := 1 }], [fresh_line]] } 0).2.2
      (init_cache_no_dup (init_cache_ok 1 1 1 (by decide) (by decide)))
      (by decide)⟩

/-! ## Induction over reachable states -/

/-- Induction over the states reached from the initialised cache: a property of the history
and the state that holds initially and is kept by every call holds after every sequence. -/
theorem reach_induction (s E b : Nat) (hE : 0 < E) (P : List Nat → Globals → Prop)
    (h0 : P [] (fresh_cache s E b))
    (hstep : ∀ pre g a g1, cache_inv s b E pre g → P pre g → access_data g a = some g1 →
      P (pre ++ [a]) g1)
    (pre : List Nat) :
    ∃ g, access_all (fresh_cache s E b) pre = some g ∧ cache_inv s b E pre g ∧
      P pre g := by
  have key : ∀ (rest pre : List Nat) (g : Globals), cache_inv s b E pre g → P pre g →
      ∃ g1, access_all g rest = some g1 ∧ cache_inv s b E (pre ++ rest) g1 ∧
        P (pre ++ rest) g1 := by
    intro rest
    induction rest with
    | nil =>
      intro pre g hinv hp
      exact ⟨g, rfl, by simpa using hinv, by simpa using hp⟩
    | cons a rest ih =>
      intro pre g hinv hp
      obtain ⟨g1, h1, hinv1⟩ := cache_inv_step hinv a
      obtain ⟨g2, h2, hinv2, hp2⟩ := ih (pre ++ [a]) g1 hinv1 (hstep pre g a g1 hinv hp h1)
      refine ⟨g2, by simp [access_all, h1, h2], ?_, ?_⟩
      · simpa using hinv2
      · simpa using hp2
  obtain ⟨g, h1, h2, h3⟩ := key pre [] _ (cache_inv_init s E b hE) h0
  exact ⟨g, h1, by simpa using h2, by simpa using h3⟩

/-! ## Counters of reachable states -/

theorem counter_nonneg {E : Nat} {lines : List cache_line_t} (h : counter_inv E lines)
    {i : Nat} (hi : i < E) : 0 ≤ (line_at lines i).counter := by
  by_cases hv : (line_at lines i).valid = '0'
  · rw [(h i hi).1 hv]; decide
  · have := (h i hi).2 hv; omega

/-- The counter of `mostrecent_line` is the maximum over all slots of the set. -/
theorem most_counter_max {E : Nat} {lines : List cache_line_t} (tag : Nat) (hE : 0 < E)
    (h : counter_inv E lines) :
    (scan lines tag E).mostrecent_line < E ∧
    ∀ i, i < E →
      (line_at lines i).counter ≤ (line_at lines (scan lines tag E).mostrecent_line).counter := by
  obtain ⟨h1, h2, h3⟩ := scan_most lines tag E
  refine ⟨?_, fun i hi => ?_⟩
  · rcases h1 with h0 | ⟨hlt, _⟩
    · omega
    · exact hlt
  · by_cases hv : (line_at lines i).valid = '0'
    · rw [(h i hi).1 hv]
      have := counter_nonneg h hE
      simp only [fresh_line]
      omega
    · exact h3 i hi hv

theorem new_counter_pos {E : Nat} {lines : List cache_line_t} (tag : Nat) (hE : 0 < E)
    (h : counter_inv E lines) : 1 ≤ new_counter lines tag E := by
  have := counter_nonneg h (most_counter_max tag hE h).1
  unfold new_counter
  omega

/-- One call keeps the counter invariant of the set it writes. -/
theorem resolve_counter_inv {E : Nat} {lines : List cache_line_t} (tag : Nat) (hE : 0 < E)
    (hlen : E ≤ lines.length) (h : counter_inv E lines) :
    counter_inv E (resolve lines tag E).1 := by
  have hpos := new_counter_pos tag hE h
  have hshape : ∃ k nl, k < E ∧ (resolve lines tag E).1 = lines.set k nl ∧ nl.valid ≠ '0' ∧
      nl.counter = new_counter lines tag E := by
    by_cases hr : resident lines tag E
    · obtain ⟨k, hk, hv, _, hres⟩ := resolve_hit_shape hr
      exact ⟨k, { line_at lines k with counter := new_counter lines tag E }, hk,
        by rw [hres], hv, rfl⟩
    · by_cases hav : all_valid lines E
      · obtain ⟨v, hv, _, _, hres⟩ := resolve_evict_shape hE hr hav
        exact ⟨v, _, hv, by rw [hres], by simp, rfl⟩
      · obtain ⟨e, he, _, _, hres⟩ := resolve_cold_shape hr hav
        exact ⟨e, _, he, by rw [hres], by simp, rfl⟩
  obtain ⟨k, nl, hk, hres, hnv, hnc⟩ := hshape
  rw [hres]
  intro i hi
  rw [line_at_set _ _ _ _ (by omega)]
  by_cases hik : i = k
  · rw [if_pos hik]
    exact ⟨fun hv => absurd hv hnv, fun _ => by rw [hnc]; exact hpos⟩
  · rw [if_neg hik]
    exact h i hi

/-- Every reachable state satisfies the history invariant and the counter invariant. -/
theorem reach_counter_inv (s E b : Nat) (hE : 0 < E) (pre : List Nat) :
    ∃ g, access_all (fresh_cache s E b) pre = some g ∧ cache_inv s b E pre g ∧
      ∀ (set : Nat) (lines : List cache_line_t), g.cache[set]? = some lines →
        counter_inv E lines := by
  refine reach_induction s E b hE
    (fun _ g => ∀ (set : Nat) (lines : List cache_line_t), g.cache[set]? = some lines →
      counter_inv E lines) ?_ ?_ pre
  · intro set lines hl
    have hmem : lines ∈ (fresh_cache s E b).cache := List.getElem?_mem hl
    simp only [fresh_cache] at hmem
    rw [List.eq_of_mem_replicate hmem]
    intro i _
    rw [line_at_replicate]
    exact ⟨fun _ => rfl, fun hv => absurd rfl hv⟩
  · intro pre g a g1 hinv hp hacc set L hL
    obtain ⟨lines, hset⟩ := access_data_some_lookup hacc
    obtain ⟨hE1, hlen, hg1⟩ := access_data_cache hset hacc
    have hlt : set_of g.s g.b a < g.cache.length := (List.getElem?_eq_some.mp hset).1
    have hEq : g.E = E := hinv.2.2.2.1
    rw [hg1] at hL
    simp only at hL
    by_cases hsame : set_of g.s g.b a = set
    · rw [← hsame, List.getElem?_set_self hlt] at hL
      rw [← Option.some.inj hL, hEq]
      exact resolve_counter_inv _ hE (by rw [← hEq]; exact hlen) (hp _ _ hset)
    · rw [List.getElem?_set_ne hsame] at hL
      exact hp _ _ hL

/-! ## Recency is a strict order -/

/-- In a reachable state two distinct valid slots of a set have different counters. -/
theorem set_inv_counter_inj {s b E : Nat} {pre : List Nat} {set : Nat}
    {lines : List cache_line_t} (h : set_inv s b E pre set lines) {i j : Nat}
    (hi : i < E) (hj : j < E) (hvi : (line_at lines i).valid ≠ '0')
    (hvj : (line_at lines j).valid ≠ '0')
    (hc : (line_at lines i).counter = (line_at lines j).counter) : i = j := by
  obtain ⟨_, hinj, _, hord⟩ := h
  apply hinj i j hi hj hvi hvj
  have h1 := hord i j hi hj hvi hvj
  have h2 := hord j i hj hi hvj hvi
  have h3 : ¬ (line_at lines i).counter < (line_at lines j).counter := by omega
  have h4 : ¬ (line_at lines j).counter < (line_at lines i).counter := by omega
  have h5 := mt h1.mpr h3
  have h6 := mt h2.mpr h4
  omega

/-- In a reachable state two distinct slots of a set with equal counters are both untouched. -/
theorem equal_counters_fresh {s b E : Nat} {pre : List Nat} {set : Nat}
    {lines : List cache_line_t} (h : set_inv s b E pre set lines) (hc : counter_inv E lines)
    {i j : Nat} (hi : i < E) (hj : j < E) (hij : i ≠ j)
    (heq : (line_at lines i).counter = (line_at lines j).counter) :
    line_at lines i = fresh_line ∧ line_at lines j = fresh_line := by
  by_cases hvi : (line_at lines i).valid = '0' <;> by_cases hvj : (line_at lines j).valid = '0'
  · exact ⟨(hc i hi).1 hvi, (hc j hj).1 hvj⟩
  · have h1 := (hc i hi).1 hvi
    have h2 := (hc j hj).2 hvj
    rw [h1] at heq
    simp only [fresh_line] at heq
    omega
  · have h1 := (hc j hj).1 hvj
    have h2 := (hc i hi).2 hvi
    rw [h1] at heq
    simp only [fresh_line] at heq
    omega
  · exact absurd (set_inv_counter_inj h hi hj hvi hvj heq) hij

/-- C15. Recency is a strict order: let `g` be the state reached by any calls `pre` from the
cache that `init_cache` produces (`E >= 1`, and `1 <= s <= 30`, where `S = 2 << (s-1)` is `2^s`
in a C `int`).  A further call `access_data(addr)` returns and rewrites exactly one slot
`k` of the decoded set (the line hit, filled or overwritten); with `M` the maximum counter of
that set before the call, slot `k` ends valid with the accessed tag and counter `M + 1`, which
is strictly greater than the counter of every other slot of the set.  And in `g`, hence in every
reachable state, two distinct slots of one set have equal counters only if both are still as
`init_cache` wrote them: invalid, never accessed, counter 0. -/
theorem C15_recency_strict_order (s E b : Nat) (pre : List Nat) (addr : Nat) (hs1 : 1 ≤ s)
    (hs30 : s ≤ 30) (hE : 1 ≤ E) :
    ∃ g0, init_cache (startup s E b) = Except.ok g0 ∧
    ∃ g lines g1 k nl M,
      access_all g0 pre = some g ∧
      g.cache[set_of s b addr]? = some lines ∧ lines.length = E ∧
      access_data g addr = some g1 ∧
      (∀ i, i < E → (line_at lines i).counter ≤ M) ∧
      (∃ i, i < E ∧ (line_at lines i).counter = M) ∧
      k < E ∧ g1.cache[set_of s b addr]? = some (lines.set k nl) ∧
      nl.valid ≠ '0' ∧ nl.tag = tag_of s b addr ∧ nl.counter = M + 1 ∧
      (∀ i, i < E → i ≠ k →
        (line_at (lines.set k nl) i).counter < (line_at (lines.set k nl) k).counter) ∧
      (∀ (set : Nat) (L : List cache_line_t) (i j : Nat), g.cache[set]? = some L →
        i < E → j < E → i ≠ j → (line_at L i).counter = (line_at L j).counter →
        line_at L i = fresh_line ∧ line_at L j = fresh_line) := by
  refine ⟨fresh_cache s E b, init_cache_ok s E b hs1 hs30, ?_⟩
  obtain ⟨g, hrun, hinv, hcnt⟩ := reach_counter_inv s E b hE pre
  obtain ⟨hwf, hs, hb, hEq, hsets⟩ := hinv
  obtain ⟨lines, hset, hlen⟩ := WF_lookup hwf addr
  have hacc := access_data_eq hset hwf.1 (le_of_eq hlen.symm)
  rw [hs, hb] at hset
  rw [hEq] at hlen
  rw [hs, hb, hEq] at hacc
  have hsi := hsets _ _ hset
  have hci := hcnt _ _ hset
  obtain ⟨k, nl, hk, hres, hnv, hnt, hnc, _⟩ :=
    resolve_shape (tag_of s b addr) hE hlen (set_inv_nodup hsi)
  obtain ⟨hm, hmax⟩ := most_counter_max (tag_of s b addr) hE hci
  have hlt : set_of s b addr < g.cache.length := (List.getElem?_eq_some.mp hset).1
  refine ⟨g, lines, _, k, nl,
    (line_at lines (scan lines (tag_of s b addr) E).mostrecent_line).counter,
    hrun, hset, hlen, hacc, hmax, ⟨_, hm, rfl⟩, hk, ?_, hnv, hnt, hnc, ?_, ?_⟩
  · simp only
    rw [List.getElem?_set_self hlt, hres]
  · intro i hi hik
    rw [line_at_set _ _ _ _ (by omega), line_at_set _ _ _ _ (by omega), if_neg hik,
      if_pos rfl, hnc]
    have := hmax i hi
    unfold new_counter
    omega
  · intro set L i j hL hi hj hij heq
    exact equal_counters_fresh (hsets _ _ hL) (hcnt _ _ hL) hi hj hij heq

theorem C15_recency_strict_order_witness :
    ∃ g0, init_cache (startup 2 2 3) = Except.ok g0 ∧
    ∃ g lines g1 k nl M,
      access_all g0 [0x10, 0x410, 0x10] = some g ∧
      g.cache[set_of 2 3 0x810]? = some lines ∧ lines.length = 2 ∧
      access_data g 0x810 = some g1 ∧
      (∀ i, i < 2 → (line_at lines i).counter ≤ M) ∧
      (∃ i, i < 2 ∧ (line_at lines i).counter = M) ∧
      k < 2 ∧ g1.cache[set_of 2 3 0x810]? = some (lines.set k nl) ∧
      nl.valid ≠ '0' ∧ nl.tag = tag_of 2 3 0x810 ∧ nl.counter = M + 1 ∧
      (∀ i, i < 2 → i ≠ k →
        (line_at (lines.set k nl) i).counter < (line_at (lines.set k nl) k).counter) ∧
      (∀ (set : Nat) (L : List cache_line_t) (i j : Nat), g.cache[set]? = some L →
        i < 2 → j < 2 → i ≠ j → (line_at L i).counter = (line_at L j).counter →
        line_at L i = fresh_line ∧ line_at L j = fresh_line) :=
  C15_recency_strict_order 2 2 3 [0x10, 0x410, 0x10] 0x810 (by decide) (by decide) (by decide)

/-! ## Hit update and frame -/

/-- In a reachable set with a valid line, `mostrecent_line` is valid: its counter is the maximum
over the valid lines. -/
theorem most_valid_of_valid {E : Nat} {lines : List cache_line_t} (tag : Nat)
    (h : counter_inv E lines) {i : Nat} (hi : i < E) (hv : (line_at lines i).valid ≠ '0') :
    (scan lines tag E).mostrecent_line < E ∧
    (line_at lines (scan lines tag E).mostrecent_line).valid ≠ '0' := by
  have hE : 0 < E := by omega
  obtain ⟨h1, _, h3⟩ := scan_most lines tag E
  rcases h1 with h0 | ⟨hlt, hvm⟩
  · refine ⟨by omega, ?_⟩
    intro hinv
    have hle := h3 i hi hv
    have hpos := (h i hi).2 hv
    rw [h0] at hle hinv
    rw [(h 0 hE).1 hinv] at hle
    simp only [fresh_line] at hle
    omega
  · exact ⟨hlt, hvm⟩

/-- C16. Hit update and frame: in every state `g` reached from the cache that `init_cache`
produces (`E >= 1`, and `1 <= s <= 30`, where `S = 2 << (s-1)` is `2^s` in a C `int`), for
every access that hits (some valid line of the decoded set holds the tag), exactly one valid
slot `h` holds the tag; the call returns, and with `M` the maximum counter over the valid lines
of the set before the access, the set becomes the old one with slot `h` carrying counter
`M + 1` and its old tag and valid flag; every other line of that set and every line of every
other set is unchanged, and only `hit_cnt` moves. -/
theorem C16_hit_update_frame (s E b : Nat) (pre : List Nat) (addr : Nat) (hs1 : 1 ≤ s)
    (hs30 : s ≤ 30) (hE : 1 ≤ E) :
    ∃ g0, init_cache (startup s E b) = Except.ok g0 ∧
    ∃ g lines, access_all g0 pre = some g ∧
      g.cache[set_of s b addr]? = some lines ∧ lines.length = E ∧
      (resident lines (tag_of s b addr) E →
        ∃ h g1 M, h < E ∧ (line_at lines h).valid ≠ '0' ∧
          (line_at lines h).tag = tag_of s b addr ∧
          (∀ i, i < E → (line_at lines i).valid ≠ '0' →
            (line_at lines i).tag = tag_of s b addr → i = h) ∧
          (∃ i, i < E ∧ (line_at lines i).valid ≠ '0' ∧ (line_at lines i).counter = M) ∧
          (∀ i, i < E → (line_at lines i).valid ≠ '0' → (line_at lines i).counter ≤ M) ∧
          access_data g addr = some g1 ∧
          g1.cache[set_of s b addr]? =
            some (lines.set h { line_at lines h with counter := M + 1 }) ∧
          (∀ i, i ≠ h →
            line_at (lines.set h { line_at lines h with counter := M + 1 }) i =
              line_at lines i) ∧
          (∀ set, set ≠ set_of s b addr → g1.cache[set]? = g.cache[set]?) ∧
          g1.cache.length = g.cache.length ∧
          g1.hit_cnt = g.hit_cnt + 1 ∧ g1.miss_cnt = g.miss_cnt ∧
          g1.evict_cnt = g.evict_cnt) := by
  refine ⟨fresh_cache s E b, init_cache_ok s E b hs1 hs30, ?_⟩
  obtain ⟨g, hrun, hinv, hcnt⟩ := reach_counter_inv s E b hE pre
  obtain ⟨hwf, hs, hb, hEq, hsets⟩ := hinv
  obtain ⟨lines, hset, hlen⟩ := WF_lookup hwf addr
  have hacc := access_data_eq hset hwf.1 (le_of_eq hlen.symm)
  rw [hs, hb] at hset
  rw [hEq] at hlen
  rw [hs, hb, hEq] at hacc
  have hsi := hsets _ _ hset
  have hci := hcnt _ _ hset
  have hlt : set_of s b addr < g.cache.length := (List.getElem?_eq_some.mp hset).1
  refine ⟨g, lines, hrun, hset, hlen, fun hr => ?_⟩
  obtain ⟨h, hh, hv, ht, hres⟩ := resolve_hit_shape hr
  obtain ⟨hm, hmv⟩ := most_valid_of_valid (tag_of s b addr) hci hh hv
  refine ⟨h, _, (line_at lines (scan lines (tag_of s b addr) E).mostrecent_line).counter,
    hh, hv, ht, ?_, ⟨_, hm, hmv, rfl⟩, (scan_most lines (tag_of s b addr) E).2.2, hacc,
    ?_, ?_, ?_, ?_, ?_, ?_, ?_⟩
  · intro i hi hvi hti
    exact set_inv_nodup hsi i h hi hh hvi hv (hti.trans ht.symm)
  · simp only
    rw [List.getElem?_set_self hlt, hres]
    rfl
  · intro i hih
    rw [line_at_set _ _ _ _ (by omega), if_neg hih]
  · intro set hne
    simp only
    rw [List.getElem?_set_ne (fun e => hne e.symm)]
  · simp
  · simp [hres]
  · simp [hres]
  · simp [hres]

theorem C16_hit_update_frame_witness :
    ∃ g0, init_cache (startup 2 2 3) = Except.ok g0 ∧
    ∃ g lines h g1 M, access_all g0 [0x10, 0x410] = some g ∧
      g.cache[set_of 2 3 0x10]? = some lines ∧
      h < 2 ∧ (line_at lines h).valid ≠ '0' ∧ (line_at lines h).tag = tag_of 2 3 0x10 ∧
      (∀ i, i < 2 → (line_at lines i).valid ≠ '0' → (line_at lines i).counter ≤ M) ∧
      access_data g 0x10 = some g1 ∧
      g1.cache[set_of 2 3 0x10]? =
        some (lines.set h { line_at lines h with counter := M + 1 }) ∧
      g1.hit_cnt = g.hit_cnt + 1 ∧ g1.miss_cnt = g.miss_cnt ∧ g1.evict_cnt = g.evict_cnt := by
  obtain ⟨g0, h0, g, lines, hrun, hset, hlen, himp⟩ :=
    C16_hit_update_frame 2 2 3 [0x10, 0x410] 0x10 (by decide) (by decide) (by decide)
  have e0 : g0 = fresh_cache 2 2 3 :=
    Except.ok.inj (h0.symm.trans (init_cache_ok 2 2 3 (by decide) (by decide)))
  subst e0
  have hrun2 : access_all (fresh_cache 2 2 3) [0x10, 0x410] =
      some
      { b := 3, s := 2, E := 2, B := 8, S := 4, hit_cnt := 0, miss_cnt := 2, evict_cnt := 0,
        cache := [[fresh_line, fresh_line], [fresh_line, fresh_line],
          [{ valid := '1', tag := 32, counter := 2 }, { valid := '1', tag := 0, counter := 1 }],
          [fresh_line, fresh_line]] } := by decide
  have hg := hrun.symm.trans hrun2
  have hg2 := Option.some.inj hg
  have hset2 : g.cache[set_of 2 3 0x10]? =
      some [{ valid := '1', tag := 32, counter := 2 }, { valid := '1', tag := 0, counter := 1 }] := by
    rw [hg2]; decide
  have hl := Option.some.inj (hset.symm.trans hset2)
  have hres : resident lines (tag_of 2 3 0x10) 2 := by
    rw [hl]; unfold resident; decide
  obtain ⟨h, g1, M, hh, hv, ht, _, _, hmax, hacc, hcache, _, _, _, hhit, hm, he⟩ := himp hres
  exact ⟨_, h0, g, lines, h, g1, M, hrun, hset, hh, hv, ht, hmax, hacc, hcache, hhit, hm, he⟩

/-! ## Valid lines -/

/-- Effect of rewriting one slot on the number of valid lines of a set. -/
theorem valid_count_set (lines : List cache_line_t) (k : Nat) (nl : cache_line_t)
    (hk : k < lines.length) :
    valid_count (lines.set k nl) + (if (line_at lines k).valid ≠ '0' then 1 else 0) =
      valid_count lines + (if nl.valid ≠ '0' then 1 else 0) := by
  unfold valid_count
  rw [List.countP_set _ _ _ _ hk, line_at_eq_getElem lines k hk]
  have hle := List.boole_getElem_le_countP (fun l : cache_line_t => l.valid != '0') lines k hk
  generalize List.countP (fun l : cache_line_t => l.valid != '0') lines = c at hle ⊢
  by_cases h1 : lines[k].valid = '0' <;> by_cases h2 : nl.valid = '0'
  · simp [h1, h2]
  · simp [h1, h2]
  · simp [h1, h2] at hle ⊢; omega
  · simp [h1, h2] at hle ⊢; omega

/-- Effect of rewriting one set on the total number of valid lines. -/
theorem sum_map_set {α : Type} (f : α → Nat) (l : List α) (k : Nat) (x old : α)
    (h : l[k]? = some old) :
    ((l.set k x).map f).sum + f old = (l.map f).sum + f x := by
  induction l generalizing k with
  | nil => simp at h
  | cons y rest ih =>
    cases k with
    | zero =>
      simp only [List.getElem?_cons_zero, Option.some.injEq] at h
      subst h
      simp only [List.set_cons_zero, List.map_cons, List.sum_cons]
      omega
    | succ k =>
      simp only [List.getElem?_cons_succ] at h
      have := ih k h
      simp only [List.set_cons_succ, List.map_cons, List.sum_cons]
      omega

/-- A set in which every slot is valid has as many valid lines as lines. -/
theorem valid_count_all_valid {lines : List cache_line_t} {E : Nat} (hlen : lines.length = E)
    (h : all_valid lines E) : valid_count lines = E := by
  unfold valid_count
  rw [← hlen, List.countP_eq_length]
  intro l hl
  have := (all_valid_iff_mem hlen).mp h l hl
  simpa using this

theorem valid_count_le (lines : List cache_line_t) : valid_count lines ≤ lines.length :=
  List.countP_le_length _

/-- A call never invalidates a line, and adds one valid line exactly in the cold-miss branch. -/
theorem resolve_valid {lines : List cache_line_t} {E : Nat} (tag : Nat) (hE : 0 < E)
    (hlen : E ≤ lines.length) :
    (∀ i, (line_at lines i).valid ≠ '0' → (line_at (resolve lines tag E).1 i).valid ≠ '0') ∧
    ((¬ resident lines tag E ∧ ¬ all_valid lines E) →
      valid_count (resolve lines tag E).1 = valid_count lines + 1) ∧
    ((resident lines tag E ∨ all_valid lines E) →
      valid_count (resolve lines tag E).1 = valid_count lines) := by
  have hshape : ∃ k nl, k < E ∧ (resolve lines tag E).1 = lines.set k nl ∧ nl.valid ≠ '0' ∧
      ((line_at lines k).valid = '0' ↔ (¬ resident lines tag E ∧ ¬ all_valid lines E)) := by
    by_cases hr : resident lines tag E
    · obtain ⟨k, hk, hv, _, hres⟩ := resolve_hit_shape hr
      exact ⟨k, { line_at lines k with counter := new_counter lines tag E }, hk,
        by rw [hres], hv, by simp [hv, hr]⟩
    · by_cases hav : all_valid lines E
      · obtain ⟨v, hv, hvv, _, hres⟩ := resolve_evict_shape hE hr hav
        exact ⟨v, _, hv, by rw [hres], by simp, by simp [hvv, hav]⟩
      · obtain ⟨e, he, hev, _, hres⟩ := resolve_cold_shape hr hav
        exact ⟨e, _, he, by rw [hres], by simp, by simp [hev, hr, hav]⟩
  obtain ⟨k, nl, hk, hres, hnv, hiff⟩ := hshape
  have hcount := valid_count_set lines k nl (by omega)
  rw [if_pos hnv] at hcount
  rw [hres]
  refine ⟨fun i hv => ?_, fun hc => ?_, fun hc => ?_⟩
  · rw [line_at_set _ _ _ _ (by omega)]
    by_cases hik : i = k
    · rw [if_pos hik]; exact hnv
    · rw [if_neg hik]; exact hv
  · have hinv := hiff.mpr hc
    rw [if_neg (by simpa using hinv)] at hcount
    omega
  · have hval : (line_at lines k).valid ≠ '0' := by
      intro hinv
      have := hiff.mp hinv
      tauto
    rw [if_pos hval] at hcount
    omega

/-- C17. Validity is monotone: on every state whose decoded set is allocated with its `E >= 1`
lines, an `access_data` call returns; every line of the decoded set that is valid before the
call is valid after it and every other set is unchanged (no line returns to invalid); the
number of valid lines, of the set and of the whole cache, increases by exactly 1 on a cold miss
and is unchanged on a hit or an eviction. -/
theorem C17_validity_monotone (g : Globals) (addr : Nat) (lines : List cache_line_t)
    (hset : g.cache[set_of g.s g.b addr]? = some lines) (hE : 1 ≤ g.E)
    (hlen : lines.length = g.E) :
    ∃ g1 newlines, access_data g addr = some g1 ∧
      g1.cache[set_of g.s g.b addr]? = some newlines ∧
      (∀ set, set ≠ set_of g.s g.b addr → g1.cache[set]? = g.cache[set]?) ∧
      (∀ i, (line_at lines i).valid ≠ '0' → (line_at newlines i).valid ≠ '0') ∧
      ((¬ resident lines (tag_of g.s g.b addr) g.E ∧ ¬ all_valid lines g.E) →
        valid_count newlines = valid_count lines + 1 ∧ total_valid g1 = total_valid g + 1) ∧
      ((resident lines (tag_of g.s g.b addr) g.E ∨ all_valid lines g.E) →
        valid_count newlines = valid_count lines ∧ total_valid g1 = total_valid g) := by
  have hlt : set_of g.s g.b addr < g.cache.length := (List.getElem?_eq_some.mp hset).1
  obtain ⟨hmono, hcold, hsame⟩ := resolve_valid (tag_of g.s g.b addr) hE (le_of_eq hlen.symm)
  have hsum := sum_map_set valid_count g.cache (set_of g.s g.b addr)
    (resolve lines (tag_of g.s g.b addr) g.E).1 lines hset
  refine ⟨_, (resolve lines (tag_of g.s g.b addr) g.E).1,
    access_data_eq hset hE (le_of_eq hlen.symm), ?_, ?_, hmono, ?_, ?_⟩
  · simp only
    rw [List.getElem?_set_self hlt]
  · intro set hne
    simp only
    rw [List.getElem?_set_ne (fun e => hne e.symm)]
  · intro hc
    have h1 := hcold hc
    refine ⟨h1, ?_⟩
    unfold total_valid
    simp only
    omega
  · intro hc
    have h1 := hsame hc
    refine ⟨h1, ?_⟩
    unfold total_valid
    simp only
    omega

theorem C17_validity_monotone_witness :
    ∃ g1 newlines, access_data (fresh_cache 1 2 1) 0 = some g1 ∧
      g1.cache[set_of 1 1 0]? = some newlines ∧
      (∀ set, set ≠ set_of 1 1 0 → g1.cache[set]? = (fresh_cache 1 2 1).cache[set]?) ∧
      (∀ i, (line_at [fresh_line, fresh_line] i).valid ≠ '0' →
        (line_at newlines i).valid ≠ '0') ∧
      ((¬ resident [fresh_line, fresh_line] (tag_of 1 1 0) 2 ∧
          ¬ all_valid [fresh_line, fresh_line] 2) →
        valid_count newlines = valid_count [fresh_line, fresh_line] + 1 ∧
          total_valid g1 = total_valid (fresh_cache 1 2 1) + 1) ∧
      ((resident [fresh_line, fresh_line] (tag_of 1 1 0) 2 ∨
          all_valid [fresh_line, fresh_line] 2) →
        valid_count newlines = valid_count [fresh_line, fresh_line] ∧
          total_valid g1 = total_valid (fresh_cache 1 2 1)) :=
  C17_validity_monotone (fresh_cache 1 2 1) 0 [fresh_line, fresh_line] (by decide)
    (by decide) rfl

/-! ## Indexing safety -/

/-- The derived sizes and the number of allocated sets never change after `init_cache`. -/
theorem reach_shape (s E b : Nat) (hE : 0 < E) (pre : List Nat) :
    ∃ g, access_all (fresh_cache s E b) pre = some g ∧ cache_inv s b E pre g ∧
      (g.S = ((2 ^ s : Nat) : Int) ∧ g.B = shl_int 2 ((b : Int) - 1) ∧
        (g.cache.length : Int) = g.S) := by
  refine reach_induction s E b hE
    (fun _ g => g.S = ((2 ^ s : Nat) : Int) ∧ g.B = shl_int 2 ((b : Int) - 1) ∧
      (g.cache.length : Int) = g.S) ?_ ?_ pre
  · simp [fresh_cache]
  · intro pre g a g1 _ hp hacc
    obtain ⟨lines, hset⟩ := access_data_some_lookup hacc
    obtain ⟨_, _, hg1⟩ := access_data_cache hset hacc
    rw [hg1]
    simpa using hp

/-- C18. Indexing safety: for `1 <= s <= 30`, `b >= 1` with `s + b < 64` and `E >= 1`, the
value `S = 2 << (s-1)` stored by `init_cache` is `2^s` and fits in a C `int` (and
`B = 2 << (b-1)` is `2^b` and fits when `b <= 30`); in the cache produced by `init_cache` and in
every state reached from it, `S` sets are allocated, the set index computed by `access_data`
for a 64-bit address is strictly below `S`, and every `cache[set][i]` with `0 <= i < E`,
`cache[set][0]` included, is an allocated line. -/
theorem C18_indexing_safety (s E b : Nat) (pre : List Nat) (addr : Nat)
    (hs : 1 ≤ s) (hs30 : s ≤ 30) (hb : 1 ≤ b) (_hsb : s + b < 64) (hE : 1 ≤ E)
    (_ha : addr < 2 ^ 64) :
    ∃ g0, init_cache (startup s E b) = Except.ok g0 ∧
    g0.S = ((2 ^ s : Nat) : Int) ∧ 2 ^ s < 2 ^ 31 ∧
    (b ≤ 30 → g0.B = ((2 ^ b : Nat) : Int) ∧ 2 ^ b < 2 ^ 31) ∧
    ∃ g, access_all g0 pre = some g ∧
      g.S = ((2 ^ s : Nat) : Int) ∧ (g.cache.length : Int) = g.S ∧
      ((set_of g.s g.b addr : Nat) : Int) < g.S ∧
      (∃ line, (g.cache[set_of g.s g.b addr]?).bind (fun lines => lines[0]?) = some line) ∧
      ∀ i, i < g.E →
        ∃ line, (g.cache[set_of g.s g.b addr]?).bind (fun lines => lines[i]?) = some line := by
  refine ⟨fresh_cache s E b, init_cache_ok s E b hs hs30, rfl,
    Nat.pow_lt_pow_right (by decide) (by omega), ?_, ?_⟩
  · intro hb30
    refine ⟨?_, Nat.pow_lt_pow_right (by decide) (by omega)⟩
    simp only [fresh_cache]; exact shl_int_two hb hb30
  · obtain ⟨g, hrun, hinv, hSg, _, hlen⟩ := reach_shape s E b hE pre
    obtain ⟨hwf, hsg, hbg, hEg, _⟩ := hinv
    obtain ⟨lines, hset, hll⟩ := WF_lookup hwf addr
    have hall : ∀ i, i < g.E →
        ∃ line, (g.cache[set_of g.s g.b addr]?).bind (fun lines => lines[i]?) = some line := by
      intro i hi
      refine ⟨lines[i], ?_⟩
      rw [hset]
      simp only [Option.some_bind]
      exact List.getElem?_eq_getElem (by omega)
    refine ⟨g, hrun, hSg, hlen, ?_, hall 0 hwf.1, hall⟩
    rw [hSg, hsg, hbg]
    exact Int.ofNat_lt.mpr (set_of_lt s b addr)

theorem C18_indexing_safety_witness :
    ∃ g0, init_cache (startup 4 2 5) = Except.ok g0 ∧
    g0.S = ((2 ^ 4 : Nat) : Int) ∧ 2 ^ 4 < 2 ^ 31 ∧
    (5 ≤ 30 → g0.B = ((2 ^ 5 : Nat) : Int) ∧ 2 ^ 5 < 2 ^ 31) ∧
    ∃ g, access_all g0 [0x7ff000398, 0x10] = some g ∧
      g.S = ((2 ^ 4 : Nat) : Int) ∧ (g.cache.length : Int) = g.S ∧
      ((set_of g.s g.b 0xffffffffffffffff : Nat) : Int) < g.S ∧
      (∃ line, (g.cache[set_of g.s g.b 0xffffffffffffffff]?).bind
        (fun lines => lines[0]?) = some line) ∧
      ∀ i, i < g.E →
        ∃ line, (g.cache[set_of g.s g.b 0xffffffffffffffff]?).bind
          (fun lines => lines[i]?) = some line :=
  C18_indexing_safety 4 2 5 [0x7ff000398, 0x10] 0xffffffffffffffff (by decide) (by decide)
    (by decide) (by decide) (by decide) (by decide)

/-! ## Miss accounting -/

theorem cold_misses_snoc (set : Nat) (g g1 : Globals) (pre : List Nat) (a : Nat)
    (h : access_all g pre = some g1) :
    cold_misses set g (pre ++ [a]) =
      cold_misses set g pre + (if set_of g1.s g1.b a = set ∧ is_cold g1 a = true then 1 else 0) := by
  induction pre generalizing g with
  | nil =>
    simp only [access_all, Option.some.injEq] at h
    subst h
    simp only [List.nil_append, cold_misses]
    cases access_data g a <;> simp
  | cons x rest ih =>
    simp only [access_all] at h
    cases hx : access_data g x with
    | none => rw [hx] at h; simp at h
    | some g2 =>
      rw [hx] at h
      simp only [Option.some_bind] at h
      rw [List.cons_append]
      simp only [cold_misses, hx]
      rw [ih g2 h]
      omega

/-- The cold-miss branch is the one taken without a resident tag and with an invalid line. -/
theorem is_cold_iff {g : Globals} {addr : Nat} {lines : List cache_line_t}
    (hset : g.cache[set_of g.s g.b addr]? = some lines) :
    is_cold g addr = true ↔
      (¬ resident lines (tag_of g.s g.b addr) g.E ∧ ¬ all_valid lines g.E) := by
  unfold is_cold
  simp only [hset, decide_eq_true_eq]
  by_cases hr : resident lines (tag_of g.s g.b addr) g.E
  · rw [resolve_counts_hit hr]
    exact ⟨fun h => absurd h (by decide), fun h => absurd hr h.1⟩
  · by_cases hav : all_valid lines g.E
    · rw [resolve_counts_evict hr hav]
      exact ⟨fun h => absurd h (by decide), fun h => absurd hav h.2⟩
    · rw [resolve_counts_cold hr hav]
      exact ⟨fun _ => ⟨hr, hav⟩, fun _ => rfl⟩

/-- Sum of per-set counts bounded by a common bound. -/
theorem sum_map_le_mul {α : Type} (f : α → Nat) (l : List α) (E : Nat)
    (h : ∀ x, x ∈ l → f x ≤ E) : (l.map f).sum ≤ l.length * E := by
  induction l with
  | nil => simp
  | cons y rest ih =>
    have h1 := h y (List.mem_cons_self _ _)
    have h2 := ih (fun x hx => h x (List.mem_cons_of_mem _ hx))
    simp only [List.map_cons, List.sum_cons, List.length_cons, Nat.succ_mul]
    omega

/-- Accounting invariant of reachable states: misses without eviction are the valid lines, and
the valid lines of each set are its cold misses. -/
theorem reach_accounting (s E b : Nat) (hE : 0 < E) (pre : List Nat) :
    ∃ g, access_all (fresh_cache s E b) pre = some g ∧ cache_inv s b E pre g ∧
      (g.miss_cnt - g.evict_cnt = (total_valid g : Int) ∧
        ∀ (set : Nat) (lines : List cache_line_t), g.cache[set]? = some lines →
          valid_count lines = cold_misses set (fresh_cache s E b) pre) := by
  have hrun : ∀ pre : List Nat, ∃ g, access_all (fresh_cache s E b) pre = some g ∧
      cache_inv s b E pre g := fun pre => cache_inv_reach s E b hE pre
  have key : ∀ pre : List Nat, ∀ g, access_all (fresh_cache s E b) pre = some g →
      (g.miss_cnt - g.evict_cnt = (total_valid g : Int) ∧
        ∀ (set : Nat) (lines : List cache_line_t), g.cache[set]? = some lines →
          valid_count lines = cold_misses set (fresh_cache s E b) pre) := by
    intro pre
    induction pre using List.reverseRecOn with
    | nil =>
      intro g hg
      simp only [access_all, Option.some.injEq] at hg
      subst hg
      refine ⟨?_, ?_⟩
      · have hz : total_valid (fresh_cache s E b) = 0 := by
          unfold total_valid
          apply Nat.eq_zero_of_le_zero
          have := sum_map_le_mul valid_count (fresh_cache s E b).cache 0 (by
            intro x hx
            simp only [fresh_cache] at hx
            rw [List.eq_of_mem_replicate hx]
            unfold valid_count
            rw [Nat.le_zero, List.countP_eq_zero]
            intro l hl
            rw [List.eq_of_mem_replicate hl]
            simp [fresh_line])
          simpa using this
        rw [hz]
        simp [fresh_cache]
      · intro set lines hl
        have hmem : lines ∈ (fresh_cache s E b).cache := List.getElem?_mem hl
        simp only [fresh_cache] at hmem
        rw [List.eq_of_mem_replicate hmem]
        unfold valid_count
        simp only [cold_misses]
        rw [List.countP_eq_zero]
        intro l hl
        rw [List.eq_of_mem_replicate hl]
        simp [fresh_line]
    | append_singleton pre a ih =>
      intro g1 hg1
      obtain ⟨g, hg, hinv⟩ := hrun pre
      obtain ⟨hacct, hsets⟩ := ih g hg
      rw [access_all_append, hg] at hg1
      simp only [Option.some_bind, access_all] at hg1
      have hacc : access_data g a = some g1 := by
        cases hx : access_data g a with
        | none => rw [hx] at hg1; simp at hg1
        | some g2 => rw [hx] at hg1; simpa using hg1
      obtain ⟨lines, hset⟩ := access_data_some_lookup hacc
      obtain ⟨hE1, hlen, hg1eq⟩ := access_data_cache hset hacc
      have hlt : set_of g.s g.b a < g.cache.length := (List.getElem?_eq_some.mp hset).1
      obtain ⟨_, hcold, hsame⟩ := resolve_valid (tag_of g.s g.b a) hE1 hlen
      have hsum := sum_map_set valid_count g.cache (set_of g.s g.b a)
        (resolve lines (tag_of g.s g.b a) g.E).1 lines hset
      have hcoldiff := is_cold_iff hset
      refine ⟨?_, ?_⟩
      · rw [hg1eq]
        unfold total_valid at hacct ⊢
        simp only
        by_cases hr : resident lines (tag_of g.s g.b a) g.E
        · have h1 := hsame (Or.inl hr)
          rw [resolve_counts_hit hr]
          simp only
          omega
        · by_cases hav : all_valid lines g.E
          · have h1 := hsame (Or.inr hav)
            rw [resolve_counts_evict hr hav]
            simp only
            omega
          · have h1 := hcold ⟨hr, hav⟩
            rw [resolve_counts_cold hr hav]
            simp only
            omega
      · intro set L hL
        rw [cold_misses_snoc set _ g pre a hg]
        rw [hg1eq] at hL
        simp only at hL
        by_cases hsameset : set_of g.s g.b a = set
        · rw [← hsameset, List.getElem?_set_self hlt] at hL
          rw [← Option.some.inj hL]
          have hold := hsets _ _ hset
          rw [← hsameset, ← hold]
          by_cases hc : is_cold g a = true
          · rw [if_pos ⟨rfl, hc⟩]
            exact hcold (hcoldiff.mp hc)
          · rw [if_neg (fun h => hc h.2)]
            have hnc : resident lines (tag_of g.s g.b a) g.E ∨ all_valid lines g.E := by
              by_contra hcon
              exact hc (hcoldiff.mpr ⟨fun h => hcon (Or.inl h), fun h => hcon (Or.inr h)⟩)
            rw [hsame hnc]
            rfl
        · rw [List.getElem?_set_ne hsameset] at hL
          rw [if_neg (fun h => hsameset h.1)]
          exact hsets _ _ hL
  obtain ⟨g, hg, hinv⟩ := hrun pre
  exact ⟨g, hg, hinv, key pre g hg⟩

/-- C19. Miss accounting: let `g` be a state reached from the freshly initialised cache with
zeroed counters (`E >= 1`; `1 <= s <= 30`, where `init_cache` allocates `S = 2^s` sets; fewer
than `2^31` calls in all, so that the `int` counters hold the counts: `0 <= evict_cnt <=
miss_cnt < 2^31`).  Then `miss_cnt - evict_cnt` equals the total number of valid lines in the
cache; hence `miss_cnt - evict_cnt <= S * E`; and a further call can count an eviction only if
the set it decodes to has received exactly `E` cold misses among the calls made so far. -/
theorem C19_miss_accounting (s E b : Nat) (pre : List Nat) (addr : Nat) (hs1 : 1 ≤ s)
    (hs30 : s ≤ 30) (hE : 1 ≤ E) (hn : pre.length + 1 < 2 ^ 31) :
    ∃ g0, init_cache (startup s E b) = Except.ok g0 ∧
    ∃ g, access_all g0 pre = some g ∧
      (0 ≤ g.evict_cnt ∧ g.evict_cnt ≤ g.miss_cnt ∧ g.miss_cnt + 1 < 2 ^ 31) ∧
      g.miss_cnt - g.evict_cnt = (total_valid g : Int) ∧
      g.miss_cnt - g.evict_cnt ≤ g.S * (E : Int) ∧
      ∀ g1, access_data g addr = some g1 → g1.evict_cnt = g.evict_cnt + 1 →
        cold_misses (set_of s b addr) g0 pre = E := by
  refine ⟨fresh_cache s E b, init_cache_ok s E b hs1 hs30, ?_⟩
  obtain ⟨g, hrun, hinv, hacct, hsets⟩ := reach_accounting s E b hE pre
  obtain ⟨g2, hrun2, _, _, _, hlenS⟩ := reach_shape s E b hE pre
  obtain ⟨g3, hrun3, hsum, hev, p1, p2, p3⟩ := fresh_counts s E b pre hE
  have hgg : g2 = g := Option.some.inj (hrun2.symm.trans hrun)
  have hgg3 : g3 = g := Option.some.inj (hrun3.symm.trans hrun)
  subst hgg
  subst hgg3
  obtain ⟨hwf, hsg, hbg, hEg, _⟩ := hinv
  have hn2 : (pre.length : Int) + 1 < 2 ^ 31 := by exact_mod_cast hn
  refine ⟨g3, hrun, ⟨p3, hev, by omega⟩, hacct, ?_, ?_⟩
  · rw [hacct]
    have hb : total_valid g3 ≤ g3.cache.length * E := by
      unfold total_valid
      apply sum_map_le_mul
      intro x hx
      have := valid_count_le x
      rw [hwf.2.2 x hx, hEg] at this
      exact this
    rw [← hlenS]
    exact_mod_cast hb
  · intro g1 hacc hev1
    obtain ⟨lines, hset, hlen⟩ := WF_lookup hwf addr
    obtain ⟨_, _, hg1⟩ := access_data_cache hset hacc
    have hav : ¬ resident lines (tag_of g3.s g3.b addr) g3.E ∧ all_valid lines g3.E := by
      rw [hg1] at hev1
      simp only at hev1
      by_cases hr : resident lines (tag_of g3.s g3.b addr) g3.E
      · rw [resolve_counts_hit hr] at hev1
        simp only at hev1
        omega
      · by_cases hav : all_valid lines g3.E
        · exact ⟨hr, hav⟩
        · rw [resolve_counts_cold hr hav] at hev1
          simp only at hev1
          omega
    have hcount := valid_count_all_valid hlen hav.2
    rw [hsg, hbg] at hset
    rw [← hsets _ _ hset, hcount, hEg]

theorem C19_miss_accounting_witness :
    ∃ g0, init_cache (startup 2 2 3) = Except.ok g0 ∧
    ∃ g, access_all g0 [0x10, 0x410, 0x10, 0x810, 0x20] = some g ∧
      (0 ≤ g.evict_cnt ∧ g.evict_cnt ≤ g.miss_cnt ∧ g.miss_cnt + 1 < 2 ^ 31) ∧
      g.miss_cnt - g.evict_cnt = (total_valid g : Int) ∧
      g.miss_cnt - g.evict_cnt ≤ g.S * ((2 : Nat) : Int) ∧
      ∀ g1, access_data g 0x410 = some g1 → g1.evict_cnt = g.evict_cnt + 1 →
        cold_misses (set_of 2 3 0x410) g0 [0x10, 0x410, 0x10, 0x810, 0x20] = 2 :=
  C19_miss_accounting 2 2 3 [0x10, 0x410, 0x10, 0x810, 0x20] 0x410 (by decide) (by decide)
    (by decide) (by decide)

/-! ## Block granularity -/

theorem tag_of_eq_div (s b addr : Nat) (hsb : s + b < 64) :
    tag_of s b addr = addr / 2 ^ b / 2 ^ s := by
  unfold tag_of
  rw [shr64_eq_div _ _ hsb, Nat.add_comm s b, Nat.pow_add, Nat.div_div_eq_div_mul]

/-- The decoded pair is the block number `addr >> b` split at bit `s`. -/
theorem block_eq_decode (s b : Nat) {addr : Nat} (ha : addr < 2 ^ 64) (hsb : s + b < 64) :
    addr / 2 ^ b = 2 ^ s * tag_of s b addr + set_of s b addr := by
  rw [tag_of_eq_div s b addr hsb, set_of_eq ha hsb]
  exact (Nat.div_add_mod (addr / 2 ^ b) (2 ^ s)).symm

theorem decode_eq_iff (s b : Nat) {a1 a2 : Nat} (h1 : a1 < 2 ^ 64) (h2 : a2 < 2 ^ 64)
    (hsb : s + b < 64) :
    (set_of s b a1 = set_of s b a2 ∧ tag_of s b a1 = tag_of s b a2) ↔
      a1 / 2 ^ b = a2 / 2 ^ b := by
  constructor
  · rintro ⟨hs, ht⟩
    rw [block_eq_decode s b h1 hsb, block_eq_decode s b h2 hsb, hs, ht]
  · intro h
    rw [set_of_eq h1 hsb, set_of_eq h2 hsb, tag_of_eq_div s b a1 hsb, tag_of_eq_div s b a2 hsb, h]
    exact ⟨rfl, rfl⟩

/-- Two consecutive calls whose addresses decode to the same set and tag: the second is a
hit. -/
theorem access_same_decode_hit (g : Globals) (A A2 : Nat) (lines : List cache_line_t)
    (hset : g.cache[set_of g.s g.b A]? = some lines) (hE : 1 ≤ g.E)
    (hlen : lines.length = g.E)
    (hs : set_of g.s g.b A2 = set_of g.s g.b A) (ht : tag_of g.s g.b A2 = tag_of g.s g.b A) :
    ∃ g1 g2, access_data g A = some g1 ∧ access_data g1 A2 = some g2 ∧
      g2.hit_cnt = g1.hit_cnt + 1 ∧ g2.miss_cnt = g1.miss_cnt ∧
      g2.evict_cnt = g1.evict_cnt := by
  have hlt : set_of g.s g.b A < g.cache.length := (List.getElem?_eq_some.mp hset).1
  have h1 := access_data_eq hset hE (le_of_eq hlen.symm)
  obtain ⟨g1, hg1⟩ : ∃ g1, access_data g A = some g1 := ⟨_, h1⟩
  obtain ⟨_, _, hg1eq⟩ := access_data_cache hset hg1
  have hs1 : g1.s = g.s := by rw [hg1eq]
  have hb1 : g1.b = g.b := by rw [hg1eq]
  have hE1 : g1.E = g.E := by rw [hg1eq]
  have hset1 : g1.cache[set_of g1.s g1.b A2]? =
      some (resolve lines (tag_of g.s g.b A) g.E).1 := by
    rw [hs1, hb1, hs, hg1eq]
    simp only
    rw [List.getElem?_set_self hlt]
  have hlen1 : g1.E ≤ (resolve lines (tag_of g.s g.b A) g.E).1.length := by
    rw [resolve_length, hE1]; exact le_of_eq hlen.symm
  have h2 := access_data_eq hset1 (by rw [hE1]; exact hE) hlen1
  have hres : resident (resolve lines (tag_of g.s g.b A) g.E).1 (tag_of g1.s g1.b A2) g1.E := by
    rw [hs1, hb1, hE1, ht]
    exact resident_after_resolve hE (le_of_eq hlen.symm)
  have hc2 := resolve_counts_hit hres
  refine ⟨g1, _, hg1, h2, ?_, ?_, ?_⟩
  · simp only [hc2]
  · simp only [hc2]; simp
  · simp only [hc2]; simp

/-- C20. Block granularity: for `s + b < 64` and 64-bit addresses `a1`, `a2`, `access_data`
decodes them to the same `(set, tag)` pair if and only if `a1 >> b = a2 >> b`; an address is
recovered as `(tag << (s+b)) + (set << b) + (addr mod 2^b)`; so on a state whose decoded set is
allocated with its `E >= 1` lines, an access to any byte of the block just accessed is a hit. -/
theorem C20_block_granularity (s b a1 a2 : Nat) (g : Globals) (lines : List cache_line_t)
    (hsb : s + b < 64) (h1 : a1 < 2 ^ 64) (h2 : a2 < 2 ^ 64) :
    ((set_of s b a1 = set_of s b a2 ∧ tag_of s b a1 = tag_of s b a2) ↔
      a1 >>> b = a2 >>> b) ∧
    a1 = (tag_of s b a1 <<< (s + b)) + (set_of s b a1 <<< b) + a1 % 2 ^ b ∧
    (g.s = s → g.b = b → g.cache[set_of s b a1]? = some lines → 1 ≤ g.E →
      lines.length = g.E → a1 >>> b = a2 >>> b →
      ∃ g1 g2, access_data g a1 = some g1 ∧ access_data g1 a2 = some g2 ∧
        g2.hit_cnt = g1.hit_cnt + 1 ∧ g2.miss_cnt = g1.miss_cnt ∧
        g2.evict_cnt = g1.evict_cnt) := by
  refine ⟨?_, ?_, ?_⟩
  · rw [Nat.shiftRight_eq_div_pow, Nat.shiftRight_eq_div_pow]
    exact decode_eq_iff s b h1 h2 hsb
  · rw [Nat.shiftLeft_eq, Nat.shiftLeft_eq]
    have hblock := block_eq_decode s b h1 hsb
    have hdm := Nat.div_add_mod a1 (2 ^ b)
    have hexp : tag_of s b a1 * 2 ^ (s + b) + set_of s b a1 * 2 ^ b =
        2 ^ b * (2 ^ s * tag_of s b a1 + set_of s b a1) := by
      rw [Nat.pow_add]; ring
    rw [hexp, ← hblock]
    exact hdm.symm
  · intro hs hb hset hE hlen hblk
    rw [Nat.shiftRight_eq_div_pow, Nat.shiftRight_eq_div_pow] at hblk
    obtain ⟨hse, hte⟩ := (decode_eq_iff s b h1 h2 hsb).mpr hblk
    subst hs
    subst hb
    exact access_same_decode_hit g a1 a2 lines hset hE hlen hse.symm hte.symm

theorem C20_block_granularity_witness :
    ((set_of 1 2 0x14 = set_of 1 2 0x17 ∧ tag_of 1 2 0x14 = tag_of 1 2 0x17) ↔
      0x14 >>> 2 = 0x17 >>> 2) ∧
    0x14 = (tag_of 1 2 0x14 <<< (1 + 2)) + (set_of 1 2 0x14 <<< 2) + 0x14 % 2 ^ 2 ∧
    ∃ g1 g2, access_data (fresh_cache 1 1 2) 0x14 = some g1 ∧
      access_data g1 0x17 = some g2 ∧
      g2.hit_cnt = g1.hit_cnt + 1 ∧ g2.miss_cnt = g1.miss_cnt ∧
      g2.evict_cnt = g1.evict_cnt :=
  ⟨(C20_block_granularity 1 2 0x14 0x17 (fresh_cache 1 1 2) [fresh_line]
      (by decide) (by decide) (by decide)).1,
   (C20_block_granularity 1 2 0x14 0x17 (fresh_cache 1 1 2) [fresh_line]
      (by decide) (by decide) (by decide)).2.1,
   (C20_block_granularity 1 2 0x14 0x17 (fresh_cache 1 1 2) [fresh_line]
      (by decide) (by decide) (by decide)).2.2 rfl rfl (by decide) (by decide) rfl (by decide)⟩

/-! ## Range of the `int` counters -/

theorem line_at_singleton (l : cache_line_t) : line_at [l] 0 = l := rfl

theorem access_all_cons (g : Globals) (a : Nat) (rest : List Nat) :
    access_all g (a :: rest) = (access_data g a).bind (fun g1 => access_all g1 rest) := rfl

/-- A line that holds the tag alone in its set is hit, and its counter goes up by one. -/
theorem hit_single (g : Globals) (addr : Nat) (l : cache_line_t)
    (hset : g.cache[set_of g.s g.b addr]? = some [l]) (hE : g.E = 1)
    (hv : l.valid ≠ '0') (ht : l.tag = tag_of g.s g.b addr) :
    access_data g addr = some
      { g with
        hit_cnt := g.hit_cnt + 1
        cache := g.cache.set (set_of g.s g.b addr) [{ l with counter := l.counter + 1 }] } := by
  rw [access_data_eq hset (by omega) (by rw [hE]; simp)]
  have hr : resident [l] (tag_of g.s g.b addr) g.E := ⟨0, by omega, hv, ht⟩
  obtain ⟨h, hh, _, _, hres⟩ := resolve_hit_shape hr
  have hc := resolve_counts_hit hr
  have h0 : h = 0 := by omega
  subst h0
  have hm := (scan_most [l] (tag_of g.s g.b addr) g.E).1
  have hm0 : (scan [l] (tag_of g.s g.b addr) g.E).mostrecent_line = 0 := by omega
  simp only [hres, hc, new_counter, hm0, line_at_singleton]
  simp

/-- Repeated calls with the address of such a line are all hits. -/
theorem hit_single_repeat (k : Nat) (g : Globals) (addr : Nat) (l : cache_line_t)
    (hset : g.cache[set_of g.s g.b addr]? = some [l]) (hE : g.E = 1)
    (hv : l.valid ≠ '0') (ht : l.tag = tag_of g.s g.b addr) :
    ∃ g1, access_all g (List.replicate k addr) = some g1 ∧ g1.hit_cnt = g.hit_cnt + k ∧
      g1.miss_cnt = g.miss_cnt ∧ g1.evict_cnt = g.evict_cnt := by
  induction k generalizing g l with
  | zero => exact ⟨g, rfl, by simp, rfl, rfl⟩
  | succ k ih =>
    have hlt : set_of g.s g.b addr < g.cache.length := (List.getElem?_eq_some.mp hset).1
    obtain ⟨g1, h1, hh, hm, he⟩ := ih
      { g with
        hit_cnt := g.hit_cnt + 1
        cache := g.cache.set (set_of g.s g.b addr) [{ l with counter := l.counter + 1 }] }
      { l with counter := l.counter + 1 }
      (by simp only; rw [List.getElem?_set_self hlt]) hE hv ht
    refine ⟨g1, ?_, ?_, hm, he⟩
    · rw [List.replicate_succ, access_all_cons, hit_single g addr l hset hE hv ht,
        Option.some_bind]
      exact h1
    · rw [hh]; push_cast; ring

/-- C2 (as stated, refuted). Two inputs in the range of the claim.  For the geometry `s = 31`,
`E = 1`, `b = 1`, `init_cache` computes `S = 2 << 30` in a C `int`, which gives `-2^31`; the
allocation of `S` sets fails and the run ends with `exit(1)`: there is no freshly initialised
cache and no call is made, so no counters with `hit_cnt + miss_cnt = n` result.  For
`s = E = b = 1` and the `n = 2^31 + 1` calls `access_data(0)`, one miss and `2^31` hits are
counted; the C variable `hit_cnt` is an `int`, it holds this count wrapped to 32 bits, `-2^31`,
and `hit_cnt + miss_cnt` is `1 - 2^31`, not `n`. -/
theorem C2_fails_outside_int_range :
    (init_cache (startup 31 1 1) = Except.error 1 ∧
      ¬ ∃ g0 g, init_cache (startup 31 1 1) = Except.ok g0 ∧ access_all g0 [0] = some g ∧
        g.hit_cnt + g.miss_cnt = 1 ∧ g.evict_cnt ≤ g.miss_cnt) ∧
    ∃ g0 g, init_cache (startup 1 1 1) = Except.ok g0 ∧
      access_all g0 (List.replicate (2 ^ 31 + 1) 0) = some g ∧
      (g.hit_cnt = 2 ^ 31 ∧ g.miss_cnt = 1) ∧
      (int_wrap g.hit_cnt = -2 ^ 31 ∧ int_wrap g.miss_cnt = 1) ∧
      int_wrap g.hit_cnt + int_wrap g.miss_cnt ≠ 2 ^ 31 + 1 := by
  refine ⟨⟨init_cache_s31 1 1, ?_⟩, ?_⟩
  · rintro ⟨g0, g, h0, _⟩
    rw [init_cache_s31] at h0
    cases h0
  · have h1 : access_data (fresh_cache 1 1 1) 0 = some
        { b := 1, s := 1, E := 1, B := 2, S := 2, hit_cnt := 0, miss_cnt := 1, evict_cnt := 0,
          cache := [[{ valid := '1', tag := 0, counter := 1 }], [fresh_line]] } := by decide
    obtain ⟨g, hg, hh, hm, _⟩ := hit_single_repeat (2 ^ 31)
      { b := 1, s := 1, E := 1, B := 2, S := 2, hit_cnt := 0, miss_cnt := 1, evict_cnt := 0,
        cache := [[{ valid := '1', tag := 0, counter := 1 }], [fresh_line]] } 0
      { valid := '1', tag := 0, counter := 1 } (by decide) rfl (by decide) (by decide)
    have hh2 : g.hit_cnt = 2 ^ 31 := by rw [hh]; norm_num
    have hm2 : g.miss_cnt = 1 := hm
    refine ⟨fresh_cache 1 1 1, g, init_cache_ok 1 1 1 (by decide) (by decide), ?_, ⟨hh2, hm2⟩,
      ?_, ?_⟩
    · rw [List.replicate_succ, access_all_cons, h1, Option.some_bind]
      exact hg
    · rw [hh2, hm2]; exact ⟨by decide, by decide⟩
    · rw [hh2, hm2]; decide

end CSim
